import Mathlib

/-!
# Multimark: the inline substitution engine and the code-span tokenizer

A shallow embedding of the typographic substitution engine (`multiverse.go`)
and of the code-span tokenizer (`parser/code_span.go`).  Bytes are natural
numbers, byte slices are lists of bytes, the output buffer is the list of bytes
written so far, and the engine state and the reader are threaded explicitly.
-/

namespace Multimark

/-- The bytes of an ASCII string literal. -/
def str (s : String) : List Nat := s.data.map Char.toNat

/-- Modelled from the spec: the declarations that `multiverse.go` uses and that
are not part of the source files at hand.  `isspace` and `ispunct` are the two
character tests behind the spec's "whitespace" and "punctuation" classes, and
the five numbers are the bit masks of the configuration flags of the spec's
"Configuration flags" (fraction scope, dash conversion, LaTeX dashes, angled
quotes, non-breaking-space padding).  Every definition below takes them as a
parameter. -/
structure Decls where
  isspace : Nat → Bool
  ispunct : Nat → Bool
  MultiverseFractions : Nat
  MultiverseDashes : Nat
  MultiverseLatexDashes : Nat
  MultiverseAngledQuotes : Nat
  MultiverseQuotesNBSP : Nat

/-- Modelled from the spec: ASCII whitespace (space, tab, newline, vertical
tab, form feed, carriage return). -/
def asciiSpace (c : Nat) : Bool :=
  c == 32 || c == 9 || c == 10 || c == 11 || c == 12 || c == 13

/-- Modelled from the spec: ASCII punctuation, the printable characters that
are neither letters, digits nor the space. -/
def asciiPunct (c : Nat) : Bool :=
  (33 ≤ c && c ≤ 47) || (58 ≤ c && c ≤ 64) || (91 ≤ c && c ≤ 96) || (123 ≤ c && c ≤ 126)

/-- Modelled from the spec: one concrete choice of the missing declarations,
with ASCII character classes and five distinct flag bits. -/
def ascii : Decls where
  isspace := asciiSpace
  ispunct := asciiPunct
  MultiverseFractions := 1
  MultiverseDashes := 2
  MultiverseLatexDashes := 4
  MultiverseAngledQuotes := 8
  MultiverseQuotesNBSP := 16

/-- The test `flags&mask != 0`. -/
def hasFlag (flags mask : Nat) : Bool := flags &&& mask != 0

/-- `wordBoundary(c)`. -/
def wordBoundary (D : Decls) (c : Nat) : Bool :=
  c == 0 || D.isspace c || D.ispunct c

/-- `tolower(c)`. -/
def tolower (c : Nat) : Nat :=
  if c ≥ 65 && c ≤ 90 then c - 65 + 97 else c

/-- `isdigit(c)`. -/
def isdigit (c : Nat) : Bool := c ≥ 48 && c ≤ 57

/-- `multiverseQuoteHelper(out, previousChar, nextChar, quote, isOpen, addNBSP)`:
returns the buffer after the writes, the value stored through `isOpen`, and the
function's result. -/
def multiverseQuoteHelper (D : Decls) (out : List Nat) (previousChar nextChar quote : Nat)
    (isOpen : Bool) (addNBSP : Bool) : List Nat × Bool × Bool :=
  let isOpen : Bool :=
    if previousChar == 0 && nextChar == 0 then !isOpen
    else if D.isspace previousChar && nextChar == 0 then true
    else if D.ispunct previousChar && nextChar == 0 then false
    else if nextChar == 0 then false
    else if previousChar == 0 && D.isspace nextChar then false
    else if D.isspace previousChar && D.isspace nextChar then !isOpen
    else if D.ispunct previousChar && D.isspace nextChar then false
    else if D.isspace nextChar then false
    else if previousChar == 0 && D.ispunct nextChar then false
    else if D.isspace previousChar && D.ispunct nextChar then true
    else if D.ispunct previousChar && D.ispunct nextChar then !isOpen
    else if D.ispunct nextChar then false
    else if previousChar == 0 then true
    else if D.isspace previousChar then true
    else if D.ispunct previousChar then true
    else false
  let out := if addNBSP && !isOpen then out ++ str "&nbsp;" else out
  let out := out ++ [38]
  let out := if isOpen then out ++ [108] else out ++ [114]
  let out := out ++ [quote]
  let out := out ++ str "quo;"
  let out := if addNBSP && isOpen then out ++ str "&nbsp;" else out
  (out, isOpen, true)

/-- What stops a run of the engine short of its result: a slice expression
whose bounds leave the text (Go panics, or, when the backing array is longer
than the text, hands out bytes that are not part of the text), and the loop
counter of the model running out. -/
inductive GoError
  | sliceBounds
  | fuel
  deriving DecidableEq, Repr

/-- The slice expression `text[lo:hi]`, which must stay inside the text. -/
def slice (text : List Nat) (lo hi : Nat) : Except GoError (List Nat) :=
  if lo ≤ hi ∧ hi ≤ text.length then Except.ok ((text.take hi).drop lo)
  else Except.error GoError.sliceBounds

/-- The loop `for k < len(text) && p(text[k]) { k++ }`: the index at which it
stops. -/
def scanWhile (p : Nat → Bool) (text : List Nat) (k : Nat) : Nat :=
  k + ((text.drop k).takeWhile p).length

/-- The handlers a dispatch-table entry can hold (`multiverseCallback`); the two
booleans of `amp` are the arguments `multiverseAmp` was called with. -/
inductive multiverseCallback
  | doubleQuote
  | angledDoubleQuote
  | amp (angledQuotes addNBSP : Bool)
  | singleQuote
  | parens
  | dash
  | dashLatex
  | period
  | number
  | numberGeneric
  | leftAngle
  | backtick
  deriving DecidableEq, Repr

/-- The engine state `MultiverseRenderer`: the two quote flags and the dispatch
table, indexed by byte value. -/
structure MultiverseRenderer where
  inSingleQuote : Bool
  inDoubleQuote : Bool
  callbacks : Nat → Option multiverseCallback

/-- What a handler leaves behind: the engine state, the buffer after its
writes, and the count it returns. -/
abbrev HandlerResult := MultiverseRenderer × List Nat × Nat

/-- Lines 139 to 148 of `multiverseSingleQuote`: the single-quote family. -/
def multiverseSingleQuoteTail (D : Decls) (r : MultiverseRenderer) (out : List Nat)
    (previousChar : Nat) (text : List Nat) (h0 : 0 < text.length) : HandlerResult :=
  let nextChar := if h : text.length > 1 then text[1] else 0
  let q := multiverseQuoteHelper D out previousChar nextChar 115 r.inSingleQuote false
  let r := { r with inSingleQuote := q.2.1 }
  if q.2.2 then (r, q.1, 0)
  else (r, q.1 ++ [text[0]], 0)

/-- Lines 123 to 137 of `multiverseSingleQuote`, inside `len(text) >= 2`: the
contractions, and then the rest of the function. -/
def multiverseSingleQuoteContraction (D : Decls) (r : MultiverseRenderer) (out : List Nat)
    (previousChar : Nat) (text : List Nat) (h2 : text.length ≥ 2) : HandlerResult :=
  let t1 := tolower text[1]
  if (t1 == 115 || t1 == 116 || t1 == 109 || t1 == 100)
      && (if h : text.length < 3 then true else wordBoundary D text[2]) then
    (r, out ++ str "&rsquo;", 0)
  else if (if h3 : text.length ≥ 3 then
        ((t1 == 114 && tolower text[2] == 101) || (t1 == 108 && tolower text[2] == 108)
            || (t1 == 118 && tolower text[2] == 101))
          && (if h : text.length < 4 then true else wordBoundary D text[3])
      else false) then
    (r, out ++ str "&rsquo;", 0)
  else multiverseSingleQuoteTail D r out previousChar text (by omega)

/-- `multiverseSingleQuote(out, previousChar, text)`. -/
def multiverseSingleQuote (D : Decls) (r : MultiverseRenderer) (out : List Nat)
    (previousChar : Nat) (text : List Nat) (h0 : 0 < text.length) : HandlerResult :=
  if h2 : text.length ≥ 2 then
    let t1 := tolower text[1]
    if t1 == 39 then
      let nextChar := if h3 : text.length ≥ 3 then text[2] else 0
      let q := multiverseQuoteHelper D out previousChar nextChar 100 r.inDoubleQuote false
      let r := { r with inDoubleQuote := q.2.1 }
      if q.2.2 then (r, q.1, 1)
      else multiverseSingleQuoteContraction D r q.1 previousChar text h2
    else multiverseSingleQuoteContraction D r out previousChar text h2
  else multiverseSingleQuoteTail D r out previousChar text h0

/-- `multiverseParens(out, previousChar, text)`; `previousChar` is not used. -/
def multiverseParens (r : MultiverseRenderer) (out : List Nat)
    (text : List Nat) (h0 : 0 < text.length) : HandlerResult :=
  if h3 : text.length ≥ 3 then
    let t1 := tolower text[1]
    let t2 := tolower text[2]
    if t1 == 99 && t2 == 41 then (r, out ++ str "&copy;", 2)
    else if t1 == 114 && t2 == 41 then (r, out ++ str "&reg;", 2)
    else if (if h4 : text.length ≥ 4 then t1 == 116 && t2 == 109 && text[3] == 41 else false) then
      (r, out ++ str "&trade;", 3)
    else (r, out ++ [text[0]], 0)
  else (r, out ++ [text[0]], 0)

/-- `multiverseDash(out, previousChar, text)`. -/
def multiverseDash (D : Decls) (r : MultiverseRenderer) (out : List Nat)
    (previousChar : Nat) (text : List Nat) (h0 : 0 < text.length) : HandlerResult :=
  if h2 : text.length ≥ 2 then
    if text[1] == 45 then (r, out ++ str "&mdash;", 1)
    else if wordBoundary D previousChar && wordBoundary D text[1] then
      (r, out ++ str "&ndash;", 0)
    else (r, out ++ [text[0]], 0)
  else (r, out ++ [text[0]], 0)

/-- `multiverseDashLatex(out, previousChar, text)`; `previousChar` is not used. -/
def multiverseDashLatex (r : MultiverseRenderer) (out : List Nat)
    (text : List Nat) (h0 : 0 < text.length) : HandlerResult :=
  if (if h3 : text.length ≥ 3 then text[1] == 45 && text[2] == 45 else false) then
    (r, out ++ str "&mdash;", 2)
  else if (if h2 : text.length ≥ 2 then text[1] == 45 else false) then
    (r, out ++ str "&ndash;", 1)
  else (r, out ++ [text[0]], 0)

/-- `multiverseAmpVariant(out, previousChar, text, quote, addNBSP)`. -/
def multiverseAmpVariant (D : Decls) (r : MultiverseRenderer) (out : List Nat)
    (previousChar : Nat) (text : List Nat) (quote : Nat) (addNBSP : Bool) : HandlerResult :=
  let rest (r : MultiverseRenderer) (out : List Nat) : HandlerResult :=
    if (str "&#0;").isPrefixOf text then (r, out, 3)
    else (r, out ++ [38], 0)
  if (str "&quot;").isPrefixOf text then
    let nextChar := if h : text.length ≥ 7 then text[6] else 0
    let q := multiverseQuoteHelper D out previousChar nextChar quote r.inDoubleQuote addNBSP
    let r := { r with inDoubleQuote := q.2.1 }
    if q.2.2 then (r, q.1, 5)
    else rest r q.1
  else rest r out

/-- `multiverseAmp(angledQuotes, addNBSP)`: the handler it returns. -/
def multiverseAmp (D : Decls) (angledQuotes addNBSP : Bool) (r : MultiverseRenderer)
    (out : List Nat) (previousChar : Nat) (text : List Nat) : HandlerResult :=
  let quote := if angledQuotes then 97 else 100
  multiverseAmpVariant D r out previousChar text quote addNBSP

/-- `multiversePeriod(out, previousChar, text)`; `previousChar` is not used. -/
def multiversePeriod (r : MultiverseRenderer) (out : List Nat)
    (text : List Nat) (h0 : 0 < text.length) : HandlerResult :=
  if (if h3 : text.length ≥ 3 then text[1] == 46 && text[2] == 46 else false) then
    (r, out ++ str "&hellip;", 2)
  else if (if h5 : text.length ≥ 5 then
        text[1] == 32 && text[2] == 46 && text[3] == 32 && text[4] == 46 else false) then
    (r, out ++ str "&hellip;", 4)
  else (r, out ++ [text[0]], 0)

/-- `multiverseBacktick(out, previousChar, text)`. -/
def multiverseBacktick (D : Decls) (r : MultiverseRenderer) (out : List Nat)
    (previousChar : Nat) (text : List Nat) (h0 : 0 < text.length) : HandlerResult :=
  if (if h2 : text.length ≥ 2 then text[1] == 96 else false) then
    let nextChar := if h3 : text.length ≥ 3 then text[2] else 0
    let q := multiverseQuoteHelper D out previousChar nextChar 100 r.inDoubleQuote false
    let r := { r with inDoubleQuote := q.2.1 }
    if q.2.2 then (r, q.1, 1)
    else (r, q.1 ++ [text[0]], 0)
  else (r, out ++ [text[0]], 0)

/-- Lines 287 to 302 of `multiverseNumberGeneric`: the denominator, once
`denStart` is known. The scan stops at `len(text)` at the latest, so of the
three cases of the last test (`len(text) == denEnd`, `denEnd < len(text)`,
neither) the third does not arise; it is there for the index to be in range. -/
def multiverseNumberGenericDen (D : Decls) (r : MultiverseRenderer) (out : List Nat)
    (text : List Nat) (h0 : 0 < text.length) (numEnd denStart : Nat) :
    Except GoError HandlerResult :=
  let denEnd := scanWhile isdigit text denStart
  if denEnd == denStart then Except.ok (r, out ++ [text[0]], 0)
  else if (if h : text.length = denEnd then true
      else if h1 : denEnd < text.length then
        wordBoundary D text[denEnd] && text[denEnd] != 47
      else false) then
    match slice text 0 numEnd, slice text denStart denEnd with
    | Except.ok num, Except.ok den =>
      Except.ok (r, out ++ str "<sup>" ++ num ++ str "</sup>&frasl;<sub>" ++ den
        ++ str "</sub>", denEnd - 1)
    | _, _ => Except.error GoError.sliceBounds
  else Except.ok (r, out ++ [text[0]], 0)

/-- `multiverseNumberGeneric(out, previousChar, text)`. -/
def multiverseNumberGeneric (D : Decls) (r : MultiverseRenderer) (out : List Nat)
    (previousChar : Nat) (text : List Nat) (h0 : 0 < text.length) :
    Except GoError HandlerResult :=
  if wordBoundary D previousChar && previousChar != 47 && decide (text.length ≥ 3) then
    let numEnd := scanWhile isdigit text 0
    if numEnd == 0 then Except.ok (r, out ++ [text[0]], 0)
    else if (if h : text.length > numEnd + 3 then
        text[numEnd] == 226 && text[numEnd + 1] == 129 && text[numEnd + 2] == 132
      else false) then
      multiverseNumberGenericDen D r out text h0 numEnd (numEnd + 3)
    else if (if h : text.length < numEnd + 2 then true else text[numEnd] != 47) then
      Except.ok (r, out ++ [text[0]], 0)
    else multiverseNumberGenericDen D r out text h0 numEnd (numEnd + 1)
  else Except.ok (r, out ++ [text[0]], 0)

/-- `multiverseNumber(out, previousChar, text)`; `boundary` is the test
`len(text) < 4 || wordBoundary(text[3]) && text[3] != '/'` that the three
cases share. -/
def multiverseNumber (D : Decls) (r : MultiverseRenderer) (out : List Nat)
    (previousChar : Nat) (text : List Nat) (h0 : 0 < text.length) : HandlerResult :=
  if h3 : (wordBoundary D previousChar && previousChar != 47) = true ∧ text.length ≥ 3 then
    have h3 : text.length ≥ 3 := h3.2
    let boundary : Bool := if h : text.length < 4 then true
      else wordBoundary D text[3] && text[3] != 47
    let literal : HandlerResult := (r, out ++ [text[0]], 0)
    let threeQuarters : HandlerResult :=
      if text[0] == 51 && text[1] == 47 && text[2] == 52 then
        if boundary || (if h : text.length ≥ 6 then
              tolower text[3] == 116 && tolower text[4] == 104 && tolower text[5] == 115
            else false) then
          (r, out ++ str "&frac34;", 2)
        else literal
      else literal
    let oneQuarter : HandlerResult :=
      if text[0] == 49 && text[1] == 47 && text[2] == 52 then
        if boundary || (if h : text.length ≥ 5 then
              tolower text[3] == 116 && tolower text[4] == 104 else false) then
          (r, out ++ str "&frac14;", 2)
        else threeQuarters
      else threeQuarters
    if text[0] == 49 && text[1] == 47 && text[2] == 50 then
      if boundary then (r, out ++ str "&frac12;", 2)
      else oneQuarter
    else oneQuarter
  else (r, out ++ [text[0]], 0)

/-- `multiverseDoubleQuoteVariant(out, previousChar, text, quote)`. -/
def multiverseDoubleQuoteVariant (D : Decls) (r : MultiverseRenderer) (out : List Nat)
    (previousChar : Nat) (text : List Nat) (quote : Nat) : HandlerResult :=
  let nextChar := if h : text.length > 1 then text[1] else 0
  let q := multiverseQuoteHelper D out previousChar nextChar quote r.inDoubleQuote false
  let r := { r with inDoubleQuote := q.2.1 }
  if !q.2.2 then (r, q.1 ++ str "&quot;", 0)
  else (r, q.1, 0)

/-- `multiverseDoubleQuote(out, previousChar, text)`. -/
def multiverseDoubleQuote (D : Decls) (r : MultiverseRenderer) (out : List Nat)
    (previousChar : Nat) (text : List Nat) : HandlerResult :=
  multiverseDoubleQuoteVariant D r out previousChar text 100

/-- `multiverseAngledDoubleQuote(out, previousChar, text)`. -/
def multiverseAngledDoubleQuote (D : Decls) (r : MultiverseRenderer) (out : List Nat)
    (previousChar : Nat) (text : List Nat) : HandlerResult :=
  multiverseDoubleQuoteVariant D r out previousChar text 97

/-- `multiverseLeftAngle(out, previousChar, text)`: the loop stops at the first
`>` or at `len(text)`, and `text[:i+1]` is then written; `previousChar` is not
used. -/
def multiverseLeftAngle (r : MultiverseRenderer) (out : List Nat)
    (text : List Nat) : Except GoError HandlerResult :=
  let i := scanWhile (fun c => c != 62) text 0
  match slice text 0 (i + 1) with
  | Except.ok s => Except.ok (r, out ++ s, i)
  | Except.error e => Except.error e

/-- Calling a dispatch-table entry: `action(&tmp, previousChar, text[i:])`. -/
def multiverseCallback.call (D : Decls) (action : multiverseCallback) (r : MultiverseRenderer)
    (out : List Nat) (previousChar : Nat) (text : List Nat) (h0 : 0 < text.length) :
    Except GoError HandlerResult :=
  match action with
  | multiverseCallback.doubleQuote => Except.ok (multiverseDoubleQuote D r out previousChar text)
  | multiverseCallback.angledDoubleQuote =>
    Except.ok (multiverseAngledDoubleQuote D r out previousChar text)
  | multiverseCallback.amp angledQuotes addNBSP =>
    Except.ok (multiverseAmp D angledQuotes addNBSP r out previousChar text)
  | multiverseCallback.singleQuote => Except.ok (multiverseSingleQuote D r out previousChar text h0)
  | multiverseCallback.parens => Except.ok (multiverseParens r out text h0)
  | multiverseCallback.dash => Except.ok (multiverseDash D r out previousChar text h0)
  | multiverseCallback.dashLatex => Except.ok (multiverseDashLatex r out text h0)
  | multiverseCallback.period => Except.ok (multiversePeriod r out text h0)
  | multiverseCallback.number => Except.ok (multiverseNumber D r out previousChar text h0)
  | multiverseCallback.numberGeneric => multiverseNumberGeneric D r out previousChar text h0
  | multiverseCallback.leftAngle => multiverseLeftAngle r out text
  | multiverseCallback.backtick => Except.ok (multiverseBacktick D r out previousChar text h0)

/-- The assignment `r.callbacks[ch] = action`. -/
def setCallback (r : MultiverseRenderer) (ch : Nat) (action : multiverseCallback) :
    MultiverseRenderer :=
  { r with callbacks := fun c => if c = ch then some action else r.callbacks c }

/-- `NewMultiverseRenderer(flags)`. -/
def NewMultiverseRenderer (D : Decls) (flags : Nat) : MultiverseRenderer :=
  let r : MultiverseRenderer :=
    { inSingleQuote := false, inDoubleQuote := false, callbacks := fun _ => none }
  let addNBSP := hasFlag flags D.MultiverseQuotesNBSP
  let r :=
    if !hasFlag flags D.MultiverseAngledQuotes then
      let r := setCallback r 34 multiverseCallback.doubleQuote
      if !addNBSP then setCallback r 38 (multiverseCallback.amp false false)
      else setCallback r 38 (multiverseCallback.amp false true)
    else
      let r := setCallback r 34 multiverseCallback.angledDoubleQuote
      if !addNBSP then setCallback r 38 (multiverseCallback.amp true false)
      else setCallback r 38 (multiverseCallback.amp true true)
  let r := setCallback r 39 multiverseCallback.singleQuote
  let r := setCallback r 40 multiverseCallback.parens
  let r :=
    if hasFlag flags D.MultiverseDashes then
      if !hasFlag flags D.MultiverseLatexDashes then setCallback r 45 multiverseCallback.dash
      else setCallback r 45 multiverseCallback.dashLatex
    else r
  let r := setCallback r 46 multiverseCallback.period
  let r :=
    if !hasFlag flags D.MultiverseFractions then
      let r := setCallback r 49 multiverseCallback.number
      setCallback r 51 multiverseCallback.number
    else
      (List.range' 49 9).foldl (fun r ch => setCallback r ch multiverseCallback.numberGeneric) r
  let r := setCallback r 60 multiverseCallback.leftAngle
  setCallback r 96 multiverseCallback.backtick

/-- The loop of `Process`, from index `i` with the pending run starting at
`mark`; `w` is what has been written so far. -/
def ProcessLoop (D : Decls) (text : List Nat) :
    Nat → Nat → Nat → MultiverseRenderer → List Nat →
      Except GoError (MultiverseRenderer × List Nat)
  | 0, _, _, _, _ => Except.error GoError.fuel
  | fuel + 1, i, mark, r, w =>
    if h : i < text.length then
      match r.callbacks text[i] with
      | some action =>
        match (if i > mark then (slice text mark i).map (fun run => w ++ run)
            else Except.ok w) with
        | Except.error e => Except.error e
        | Except.ok w =>
          let previousChar := if h1 : i > 0 then text[i - 1] else 0
          match action.call D r [] previousChar (text.drop i)
              (by rw [List.length_drop]; omega) with
          | Except.error e => Except.error e
          | Except.ok (r, tmp, n) =>
            ProcessLoop D text fuel (i + n + 1) (i + n + 1) r (w ++ tmp)
      | none => ProcessLoop D text fuel (i + 1) mark r w
    else
      Except.ok (r, if mark < text.length then w ++ text.drop mark else w)

/-- `r.Process(w, text)`: the engine state and the writer's content afterwards.
The loop index grows with every turn, so `len(text) + 1` turns are enough. -/
def Process (D : Decls) (r : MultiverseRenderer) (w : List Nat) (text : List Nat) :
    Except GoError (MultiverseRenderer × List Nat) :=
  ProcessLoop D text (text.length + 1) 0 0 r w

/-- The byte `Process` hands to a handler as `previousChar` at index `i`:
`text[i-1]`, or 0 at the start of the text. -/
def previousCharAt (text : List Nat) (i : Nat) : Nat :=
  if i = 0 then 0 else text.getD (i - 1) 0

/-- The bytes a run of `Process` has written, when it returns. -/
def written (res : Except GoError (MultiverseRenderer × List Nat)) : Option (List Nat) :=
  match res with
  | Except.ok (_, w) => some w
  | Except.error _ => none

/-- An engine built for a flag set whose two quote flags have since taken the
given values (handlers change nothing else of the engine). -/
def engineWith (D : Decls) (flags : Nat) (inSingleQuote inDoubleQuote : Bool) :
    MultiverseRenderer :=
  { NewMultiverseRenderer D flags with
    inSingleQuote := inSingleQuote, inDoubleQuote := inDoubleQuote }

/-- The specified behaviour of the parenthesis handler: the bytes written and
the count returned for a text whose first byte is the trigger. `(c)`, `(r)` and
`(tm)` in either case give the symbol and the length of the group less one;
anything else gives the trigger byte alone. -/
def parensRewrite : List Nat → List Nat × Nat
  | p :: c :: q :: rest =>
    if q = 41 ∧ (c = 99 ∨ c = 67) then (str "&copy;", 2)
    else if q = 41 ∧ (c = 114 ∨ c = 82) then (str "&reg;", 2)
    else if (c = 116 ∨ c = 84) ∧ (q = 109 ∨ q = 77) ∧ rest.head? = some 41 then
      (str "&trade;", 3)
    else ([p], 0)
  | p :: _ => ([p], 0)
  | [] => ([], 0)

/-- The markup written for numerator `n` and denominator `d`. -/
def fractionMarkup (n d : List Nat) : List Nat :=
  str "<sup>" ++ n ++ str "</sup>&frasl;<sub>" ++ d ++ str "</sub>"

/-- What may follow a denominator for the fraction to be rewritten: the end of
the text, or a word boundary other than `/`. -/
def fractionEnd (D : Decls) (post : List Nat) : Bool :=
  match post with
  | [] => true
  | y :: _ => wordBoundary D y && y != 47

/-- The entity strings the handlers write (the string constants of
`multiverse.go`, with the quote entities of the three families). -/
def emittedEntities : List (List Nat) :=
  [str "&lsquo;", str "&rsquo;", str "&ldquo;", str "&rdquo;", str "&laquo;", str "&raquo;",
   str "&mdash;", str "&ndash;", str "&hellip;", str "&copy;", str "&reg;", str "&trade;",
   str "&frac12;", str "&frac14;", str "&frac34;", str "&frasl;", str "&nbsp;"]

/-- The four classes of the spec: absent (0), whitespace, punctuation and
ordinary. -/
inductive CharClass
  | absent
  | space
  | punct
  | ordinary
  deriving DecidableEq, Repr

/-- The class of a neighbouring byte, as the spec words it: 0 is absent, then
whitespace, then punctuation, and everything else is ordinary. -/
def classify (D : Decls) (c : Nat) : CharClass :=
  if c = 0 then CharClass.absent
  else if D.isspace c then CharClass.space
  else if D.ispunct c then CharClass.punct
  else CharClass.ordinary

/-- The three outcomes of the spec's policy table. -/
inductive QuotePolicy
  | toggle
  | forceOpen
  | forceClose
  deriving DecidableEq, Repr

/-- The policy table of the spec (class before, class after), written from
the spec's sixteen lines. -/
def quotePolicy : CharClass → CharClass → QuotePolicy
  | CharClass.absent, CharClass.absent => QuotePolicy.toggle
  | CharClass.space, CharClass.absent => QuotePolicy.forceOpen
  | CharClass.punct, CharClass.absent => QuotePolicy.forceClose
  | CharClass.ordinary, CharClass.absent => QuotePolicy.forceClose
  | CharClass.absent, CharClass.space => QuotePolicy.forceClose
  | CharClass.space, CharClass.space => QuotePolicy.toggle
  | CharClass.punct, CharClass.space => QuotePolicy.forceClose
  | CharClass.ordinary, CharClass.space => QuotePolicy.forceClose
  | CharClass.absent, CharClass.punct => QuotePolicy.forceClose
  | CharClass.space, CharClass.punct => QuotePolicy.forceOpen
  | CharClass.punct, CharClass.punct => QuotePolicy.toggle
  | CharClass.ordinary, CharClass.punct => QuotePolicy.forceClose
  | CharClass.absent, CharClass.ordinary => QuotePolicy.forceOpen
  | CharClass.space, CharClass.ordinary => QuotePolicy.forceOpen
  | CharClass.punct, CharClass.ordinary => QuotePolicy.forceOpen
  | CharClass.ordinary, CharClass.ordinary => QuotePolicy.forceClose

/-- The flag after a policy is applied to the prior flag. -/
def applyPolicy : QuotePolicy → Bool → Bool
  | QuotePolicy.toggle, b => !b
  | QuotePolicy.forceOpen, _ => true
  | QuotePolicy.forceClose, _ => false

/-- The flag the spec's table prescribes for the two neighbours. -/
def specFlag (D : Decls) (previousChar nextChar : Nat) (isOpen : Bool) : Bool :=
  applyPolicy (quotePolicy (classify D previousChar) (classify D nextChar)) isOpen

/-- The entity `&l` q `quo;` (open) or `&r` q `quo;` (closed). -/
def quoteEntity (quote : Nat) (isOpen : Bool) : List Nat :=
  [38, if isOpen then 108 else 114, quote] ++ str "quo;"

/-- The ASCII letters, `A` to `Z` and `a` to `z`. -/
def isalpha (c : Nat) : Bool := (65 ≤ c && c ≤ 90) || (97 ≤ c && c ≤ 122)

/-- The bytes after a fraction begin with the given lower-case letters, in
either case. -/
def startsWithLower (pat rest : List Nat) : Bool :=
  (rest.take pat.length).map tolower == pat

/-- The behaviour of the fixed-set fraction handler as a case table: the bytes
written and the count returned for a text whose first byte is the trigger.
`1/2`, `1/4` and `3/4` after a word boundary other than `/` give the entity and
the count 2: `1/2` before the end of the text or a word boundary other than
`/`, `1/4` also before `th`, `3/4` also before `ths`; anything else gives the
trigger byte. -/
def fixedFractionRewrite (D : Decls) (previousChar : Nat) : List Nat → List Nat × Nat
  | a :: b :: c :: rest =>
    if (wordBoundary D previousChar && previousChar != 47) = true ∧ b = 47 then
      if a = 49 ∧ c = 50 ∧ fractionEnd D rest = true then (str "&frac12;", 2)
      else if a = 49 ∧ c = 52
          ∧ (fractionEnd D rest = true ∨ startsWithLower [116, 104] rest = true) then
        (str "&frac14;", 2)
      else if a = 51 ∧ c = 52
          ∧ (fractionEnd D rest = true ∨ startsWithLower [116, 104, 115] rest = true) then
        (str "&frac34;", 2)
      else ([a], 0)
    else ([a], 0)
  | a :: _ => ([a], 0)
  | [] => ([], 0)

/-- The behaviour of the period handler as a case table: the bytes written and
the count returned for a text whose first byte is the trigger. `...` and
`. . .` give the ellipsis and the length of the group less one; anything else
gives the trigger byte alone. -/
def periodRewrite : List Nat → List Nat × Nat
  | p :: a :: b :: rest =>
    if a = 46 ∧ b = 46 then (str "&hellip;", 2)
    else if a = 32 ∧ b = 46 ∧ rest.take 2 = [32, 46] then (str "&hellip;", 4)
    else ([p], 0)
  | p :: _ => ([p], 0)
  | [] => ([], 0)

/-- The end of the text, or a word boundary, follows. -/
def endOrBoundary (D : Decls) (rest : List Nat) : Bool :=
  match rest with
  | [] => true
  | y :: _ => wordBoundary D y

/-- The quote family of the `"` and `&quot;` handlers under a flag set: `a`
with the angled-quotes flag, else `d`. -/
def doubleQuoteFamily (D : Decls) (flags : Nat) : Nat :=
  if hasFlag flags D.MultiverseAngledQuotes then 97 else 100

/-- The handler called at index `j` of `bs`, if there is one, copies the bytes
it consumes, keeps the engine state and stays inside `bs`, whatever byte
precedes and whatever bytes follow `bs`. -/
def verbatimAt (D : Decls) (r : MultiverseRenderer) (bs : List Nat) (j : Nat) : Prop :=
  ∀ c a, bs[j]? = some c → r.callbacks c = some a →
    ∀ (previousChar : Nat) (post : List Nat) (h0 : 0 < (bs.drop j ++ post).length),
      ∃ n, j + n + 1 ≤ bs.length ∧
        a.call D r [] previousChar (bs.drop j ++ post) h0
          = Except.ok (r, (bs.drop j).take (n + 1), n)

/-- Every handler called inside `bs` copies what it consumes. -/
def verbatim (D : Decls) (r : MultiverseRenderer) (bs : List Nat) : Prop :=
  ∀ j, verbatimAt D r bs j

/-- A piece of text that a pass leaves as it is: an entity the engine emits, the
markup of a fraction with digit runs `n` and `d`, or a byte without a handler. -/
def stablePiece (r : MultiverseRenderer) (bs : List Nat) : Prop :=
  bs ∈ emittedEntities ∨
  (∃ n d, (∀ x ∈ n, isdigit x = true) ∧ (∀ x ∈ d, isdigit x = true)
    ∧ bs = fractionMarkup n d) ∨
  (∃ c, bs = [c] ∧ r.callbacks c = none)

/-! ## The code-span tokenizer (`parser/code_span.go`) -/

/-- Modelled from the spec: a text segment, the half-open range `[Start, Stop)`
of the source buffer. -/
structure Segment where
  Start : Nat
  Stop : Nat
  deriving DecidableEq, Repr

/-- Modelled from the spec: `segment.IsEmpty()`, no byte lies in the range. -/
def Segment.IsEmpty (s : Segment) : Bool := decide (s.Start ≥ s.Stop)

/-- Modelled from the spec: `segment.WithStart(v)`. -/
def Segment.WithStart (s : Segment) (v : Nat) : Segment := { s with Start := v }

/-- Modelled from the spec: `segment.WithStop(v)`. -/
def Segment.WithStop (s : Segment) (v : Nat) : Segment := { s with Stop := v }

/-- Modelled from the spec: `segment.Value(source)`, the bytes of the range. -/
def Segment.Value (s : Segment) (source : List Nat) : List Nat :=
  (source.take s.Stop).drop s.Start

/-- Modelled from the spec: the line-oriented source reader. It holds the
source buffer, the segments of the lines of the block being read, the index of
the current line and the unread part of the current line. -/
structure Reader where
  source : List Nat
  segments : List Segment
  line : Nat
  pos : Segment
  deriving DecidableEq, Repr

/-- Modelled from the spec: `block.PeekLine()`, the unread bytes of the current
line and their segment; no line (`nil`) once the lines are exhausted. -/
def Reader.PeekLine (r : Reader) : Option (List Nat) × Segment :=
  match r.segments[r.line]? with
  | some l => (some ((r.source.take l.Stop).drop r.pos.Start), ⟨r.pos.Start, l.Stop⟩)
  | none => (none, r.pos)

/-- Modelled from the spec: `block.AdvanceLine()`, the start of the next line. -/
def Reader.AdvanceLine (r : Reader) : Reader :=
  match r.segments[r.line + 1]? with
  | some s => { r with line := r.line + 1, pos := s }
  | none => { r with line := r.line + 1 }

/-- Modelled from the spec: `block.Advance(n)`, `n` bytes further; the step
that would leave the current line goes to the next line. -/
def Reader.Advance : Reader → Nat → Reader
  | r, 0 => r
  | r, n + 1 =>
    if r.pos.Start + 1 ≥ r.pos.Stop then Reader.Advance r.AdvanceLine n
    else Reader.Advance { r with pos := r.pos.WithStart (r.pos.Start + 1) } n

/-- Modelled from the spec: `block.Position()`, the cursor of the reader. -/
def Reader.Position (r : Reader) : Nat × Segment := (r.line, r.pos)

/-- Modelled from the spec: `block.SetPosition(line, pos)`, the cursor put back. -/
def Reader.SetPosition (r : Reader) (line : Nat) (pos : Segment) : Reader :=
  { r with line := line, pos := pos }

/-- Modelled from the spec: `util.IsBlank(bs)`, every byte is a space
character; the class of space characters is a parameter. -/
def IsBlank (IsSpace : Nat → Bool) (bs : List Nat) : Bool := bs.all IsSpace

/-- Modelled from the spec: the nodes `Parse` returns, a code span with its
raw-text children in order, or a plain text segment. -/
inductive Node
  | codeSpan (children : List Segment)
  | text (segment : Segment)
  deriving DecidableEq, Repr

/-- Modelled from the spec: `node.IsBlank(source)` of a code span, every child
is blank. -/
def nodeIsBlank (IsSpace : Nat → Bool) (source : List Nat) (children : List Segment) : Bool :=
  children.all (fun c => IsBlank IsSpace (c.Value source))

/-- What can go wrong in the parser other than a result: an index outside the
source, a child that is not there, and the loop counter of the model running
out. -/
inductive ParseError
  | indexRange
  | nilNode
  | fuel
  deriving DecidableEq, Repr

/-- The index expression `source[i]`. -/
def byteAt (source : List Nat) (i : Nat) : Except ParseError Nat :=
  match source[i]? with
  | some c => Except.ok c
  | none => Except.error ParseError.indexRange

/-- The child `node.FirstChild()` or `node.LastChild()` used as a text node. -/
def childSegment (c : Option Segment) : Except ParseError Segment :=
  match c with
  | some s => Except.ok s
  | none => Except.error ParseError.nilNode

/-- The inner loop of `Parse` over one line, from index `i`: the index just
after the first backtick run whose length is `opener`, if there is one. -/
def closerScan (opener : Nat) (line : List Nat) : Nat → Nat → Except ParseError (Option Nat)
  | 0, _ => Except.error ParseError.fuel
  | fuel + 1, i =>
    if h : i < line.length then
      if (line)[i] = 96 then
        let oldi := i
        let i := scanWhile (fun c => c == 96) line i
        let closure := i - oldi
        if closure = opener ∧ (if h2 : i < line.length then (line)[i] ≠ 96 else True) then
          Except.ok (some i)
        else closerScan opener line fuel (i + 1)
      else closerScan opener line fuel (i + 1)
    else Except.ok none

/-- The part of `Parse` after the label `end`: the one-space trim. -/
def trimChildren (IsSpace : Nat → Bool) (source : List Nat) (children : List Segment) :
    Except ParseError (List Segment) :=
  if nodeIsBlank IsSpace source children then Except.ok children
  else
    match childSegment children.head? with
    | Except.error e => Except.error e
    | Except.ok first =>
      match (if first.IsEmpty then Except.ok false
          else (byteAt source first.Start).map (fun c => c == 32)) with
      | Except.error e => Except.error e
      | Except.ok c1 =>
        match childSegment children.getLast? with
        | Except.error e => Except.error e
        | Except.ok last =>
          match (if last.IsEmpty then Except.ok false
              else (byteAt source (last.Stop - 1)).map (fun c => c == 32)) with
          | Except.error e => Except.error e
          | Except.ok c2 =>
            if c1 && c2 then
              let children := children.set 0 (first.WithStart (first.Start + 1))
              match childSegment children.getLast? with
              | Except.error e => Except.error e
              | Except.ok last =>
                Except.ok (children.set (children.length - 1) (last.WithStop (last.Stop - 1)))
            else Except.ok children

/-- The line loop of `Parse`; `l` and `pos` are the saved cursor. -/
def ParseLoop (IsSpace : Nat → Bool) (opener : Nat) (startSegment : Segment) (l : Nat)
    (pos : Segment) : Nat → Reader → List Segment → Except ParseError (Node × Reader)
  | 0, _, _ => Except.error ParseError.fuel
  | fuel + 1, block, children =>
    match block.PeekLine with
    | (none, _) =>
      Except.ok (Node.text (startSegment.WithStop (startSegment.Start + opener)),
        block.SetPosition l pos)
    | (some line, segment) =>
      match closerScan opener line (line.length + 1) 0 with
      | Except.error e => Except.error e
      | Except.ok (some i) =>
        let segment := segment.WithStop (segment.Start + i - opener)
        let children := if !segment.IsEmpty then children ++ [segment] else children
        let block := block.Advance i
        match trimChildren IsSpace block.source children with
        | Except.error e => Except.error e
        | Except.ok children => Except.ok (Node.codeSpan children, block)
      | Except.ok none =>
        let children := if !IsBlank IsSpace line then children ++ [segment] else children
        ParseLoop IsSpace opener startSegment l pos fuel block.AdvanceLine children

/-- `s.Parse(parent, block, pc)`: the node returned and the reader afterwards. -/
def Parse (IsSpace : Nat → Bool) (block : Reader) : Except ParseError (Node × Reader) :=
  let line := block.PeekLine.1
  let startSegment := block.PeekLine.2
  let opener := scanWhile (fun c => c == 96) (line.getD []) 0
  let block := block.Advance opener
  let l := block.Position.1
  let pos := block.Position.2
  ParseLoop IsSpace opener startSegment l pos (block.segments.length + 1) block []

/-- Modelled from the spec: a reader at the start of the first line of a block
of lines. -/
def NewReader (source : List Nat) (segments : List Segment) : Reader :=
  { source := source, segments := segments, line := 0, pos := segments.headD ⟨0, 0⟩ }

/-- A maximal run of exactly `n` backticks starts at index `j` of the text:
`n` backticks from `j` on, no backtick just before and none just after. -/
def maximalRunAt (text : List Nat) (j n : Nat) : Prop :=
  (∀ k, k < n → text[j + k]? = some 96) ∧ (j = 0 ∨ text[j - 1]? ≠ some 96) ∧
    text[j + n]? ≠ some 96

/-- Whether a maximal run starts at an index can be computed. -/
instance maximalRunAt_decidable (text : List Nat) (j n : Nat) :
    Decidable (maximalRunAt text j n) :=
  inferInstanceAs (Decidable ((∀ k, k < n → text[j + k]? = some 96)
    ∧ (j = 0 ∨ text[j - 1]? ≠ some 96) ∧ text[j + n]? ≠ some 96))

/-- The child appended for a line in which no closer is found: the segment of
the line, unless the line is blank. -/
def lineChild (IsSpace : Nat → Bool) (r : Reader) : List Segment :=
  match r.PeekLine with
  | (some text, segment) => if IsBlank IsSpace text then [] else [segment]
  | (none, _) => []

/-- The children appended for the next `k` lines, none of which holds a closer. -/
def skippedChildren (IsSpace : Nat → Bool) : Nat → Reader → List Segment
  | 0, _ => []
  | k + 1, r => lineChild IsSpace r ++ skippedChildren IsSpace k r.AdvanceLine

/-- The child appended for the line of the closer, which starts at index `i` of
the line: the segment of the first `i` bytes, unless there are none. -/
def closerChild (r : Reader) (i : Nat) : List Segment :=
  if i = 0 then [] else [⟨r.PeekLine.2.Start, r.PeekLine.2.Start + i⟩]

/-- The content of a span: the bytes of its children, in order. -/
def spanContent (source : List Nat) (children : List Segment) : List Nat :=
  (children.map (fun c => c.Value source)).flatten

/-- The bytes a line without a closer adds to the content: the unread bytes of
the line, unless the line is blank. -/
def lineContent (IsSpace : Nat → Bool) (r : Reader) : List Nat :=
  match r.PeekLine.1 with
  | some text => if IsBlank IsSpace text then [] else text
  | none => []

/-- The reader stands just after an opener of `n` backticks, and the first
maximal run of exactly `n` backticks it presents is on line `k`, counted from
the current line, at index `i` of the unread bytes `text` of that line. -/
def firstCloserAt (r : Reader) (n k i : Nat) (text : List Nat) : Prop :=
  (∀ j, j < k → ∃ t, (Reader.AdvanceLine^[j] r).PeekLine.1 = some t
    ∧ ∀ p, p < t.length → ¬ maximalRunAt t p n) ∧
  (Reader.AdvanceLine^[k] r).PeekLine.1 = some text ∧
  maximalRunAt text i n ∧ ∀ p, p < i → ¬ maximalRunAt text p n

/-- The reader stands just after an opener of `n` backticks, and none of the
`k` lines it still presents holds a maximal run of exactly `n` backticks. -/
def noCloser (r : Reader) (n k : Nat) : Prop :=
  (∀ j, j < k → ∃ t, (Reader.AdvanceLine^[j] r).PeekLine.1 = some t
    ∧ ∀ p, p < t.length → ¬ maximalRunAt t p n) ∧
  (Reader.AdvanceLine^[k] r).PeekLine.1 = none

/-- The cursor of the reader agrees with the segment of its line. -/
def Reader.aligned (r : Reader) : Prop :=
  ∀ s, r.segments[r.line]? = some s → r.pos.Stop = s.Stop

/-! ## The quote-direction heuristic -/

theorem str_nbsp : str "&nbsp;" = [38, 110, 98, 115, 112, 59] := by decide

theorem str_quo : str "quo;" = [113, 117, 111, 59] := by decide

/-- The flag `multiverseQuoteHelper` stores is the one of the policy table. -/
theorem multiverseQuoteHelper_flag (D : Decls) (out : List Nat)
    (previousChar nextChar quote : Nat) (isOpen addNBSP : Bool) :
    (multiverseQuoteHelper D out previousChar nextChar quote isOpen addNBSP).2.1
      = specFlag D previousChar nextChar isOpen := by
  simp only [multiverseQuoteHelper, specFlag, classify]
  by_cases hp : previousChar = 0 <;> by_cases hn : nextChar = 0 <;>
    cases hps : D.isspace previousChar <;> cases hpp : D.ispunct previousChar <;>
    cases hns : D.isspace nextChar <;> cases hnp : D.ispunct nextChar <;>
    simp [hp, hn, quotePolicy, applyPolicy]

/-- The result of `multiverseQuoteHelper` is always `true`. -/
theorem multiverseQuoteHelper_result (D : Decls) (out : List Nat)
    (previousChar nextChar quote : Nat) (isOpen addNBSP : Bool) :
    (multiverseQuoteHelper D out previousChar nextChar quote isOpen addNBSP).2.2 = true := rfl

/-- The bytes `multiverseQuoteHelper` writes, in terms of the flag it stores. -/
theorem multiverseQuoteHelper_out (D : Decls) (out : List Nat)
    (previousChar nextChar quote : Nat) (isOpen addNBSP : Bool) :
    (multiverseQuoteHelper D out previousChar nextChar quote isOpen addNBSP).1
      = out
        ++ (if addNBSP && !(specFlag D previousChar nextChar isOpen) then str "&nbsp;" else [])
        ++ quoteEntity quote (specFlag D previousChar nextChar isOpen)
        ++ (if addNBSP && specFlag D previousChar nextChar isOpen then str "&nbsp;" else []) := by
  rw [← multiverseQuoteHelper_flag D out previousChar nextChar quote isOpen addNBSP]
  unfold multiverseQuoteHelper
  dsimp only
  generalize (ite (previousChar == 0 && nextChar == 0) (!isOpen) _ : Bool) = b
  cases b <;> cases addNBSP <;> simp [quoteEntity]

/-- With the NBSP option off the helper writes the entity of the flag it
stores. -/
theorem quoteHelper_flag_out (D : Decls) (out : List Nat)
    (previousChar nextChar quote : Nat) (isOpen : Bool) :
    multiverseQuoteHelper D out previousChar nextChar quote isOpen false
      = (out ++ quoteEntity quote (specFlag D previousChar nextChar isOpen),
         specFlag D previousChar nextChar isOpen, true) := by
  have h1 := multiverseQuoteHelper_out D out previousChar nextChar quote isOpen false
  have h2 := multiverseQuoteHelper_flag D out previousChar nextChar quote isOpen false
  have h3 := multiverseQuoteHelper_result D out previousChar nextChar quote isOpen false
  simp only [Bool.false_and, Bool.false_eq_true, if_false, List.append_nil] at h1
  exact Prod.ext h1 (Prod.ext h2 h3)

/-- C1: with the NBSP option off, `multiverseQuoteHelper` stores the flag that
the sixteen-line policy table gives for the classes of the two neighbours
(toggle, force open or force closed), writes exactly `&l` q `quo;` when that
flag is open and `&r` q `quo;` when it is closed, and returns `true`. -/
theorem quoteHelper_policy_table (D : Decls) (out : List Nat)
    (previousChar nextChar quote : Nat) (isOpen : Bool) :
    multiverseQuoteHelper D out previousChar nextChar quote isOpen false
      = (out ++ quoteEntity quote (specFlag D previousChar nextChar isOpen),
         specFlag D previousChar nextChar isOpen, true) := by
  have h1 := multiverseQuoteHelper_out D out previousChar nextChar quote isOpen false
  have h2 := multiverseQuoteHelper_flag D out previousChar nextChar quote isOpen false
  have h3 := multiverseQuoteHelper_result D out previousChar nextChar quote isOpen false
  simp only [Bool.false_and, Bool.false_eq_true, if_false, List.append_nil] at h1
  exact Prod.ext h1 (Prod.ext h2 h3)

/-- C2 (as stated, refuted): with the NBSP option on, a quote that turns out to
be an opening quote (start of text, nothing after, flag closed) is written as
`&ldquo;&nbsp;`, the space after the entity, not before it. -/
theorem nbsp_before_opening_refuted :
    (multiverseQuoteHelper ascii [] 0 0 100 false true).2.1 = true ∧
    (multiverseQuoteHelper ascii [] 0 0 100 false true).1 = str "&ldquo;&nbsp;" ∧
    (multiverseQuoteHelper ascii [] 0 0 100 false true).1 ≠ str "&nbsp;&ldquo;" := by
  decide

/-- C2 (amended): with the NBSP option on, `&nbsp;` is written immediately
before the entity of a closing quote and immediately after the entity of an
opening quote; with the option off, only the entity is written. -/
theorem nbsp_placement (D : Decls) (out : List Nat)
    (previousChar nextChar quote : Nat) (isOpen : Bool) :
    (multiverseQuoteHelper D out previousChar nextChar quote isOpen true).1
      = (if specFlag D previousChar nextChar isOpen
          then out ++ quoteEntity quote true ++ str "&nbsp;"
          else out ++ str "&nbsp;" ++ quoteEntity quote false) ∧
    (multiverseQuoteHelper D out previousChar nextChar quote isOpen true).2.1
      = specFlag D previousChar nextChar isOpen ∧
    (multiverseQuoteHelper D out previousChar nextChar quote isOpen false).1
      = out ++ quoteEntity quote (specFlag D previousChar nextChar isOpen) := by
  have h1 := multiverseQuoteHelper_out D out previousChar nextChar quote isOpen true
  have h2 := multiverseQuoteHelper_flag D out previousChar nextChar quote isOpen true
  have h3 := multiverseQuoteHelper_out D out previousChar nextChar quote isOpen false
  refine ⟨?_, h2, ?_⟩
  · rw [h1]
    cases specFlag D previousChar nextChar isOpen <;> simp
  · rw [h3]
    simp

/-! ## The dispatch table -/

theorem setCallback_callbacks (r : MultiverseRenderer) (ch : Nat) (a : multiverseCallback)
    (c : Nat) :
    (setCallback r ch a).callbacks c = if c = ch then some a else r.callbacks c := rfl

/-- The dispatch table that `NewMultiverseRenderer` builds, entry by entry. -/
theorem NewMultiverseRenderer_callbacks (D : Decls) (flags c : Nat) :
    (NewMultiverseRenderer D flags).callbacks c =
      if c = 96 then some multiverseCallback.backtick
      else if c = 60 then some multiverseCallback.leftAngle
      else if 49 ≤ c ∧ c ≤ 57 ∧ hasFlag flags D.MultiverseFractions = true then
        some multiverseCallback.numberGeneric
      else if (c = 49 ∨ c = 51) ∧ hasFlag flags D.MultiverseFractions = false then
        some multiverseCallback.number
      else if c = 46 then some multiverseCallback.period
      else if c = 45 ∧ hasFlag flags D.MultiverseDashes = true then
        some (if hasFlag flags D.MultiverseLatexDashes then multiverseCallback.dashLatex
          else multiverseCallback.dash)
      else if c = 40 then some multiverseCallback.parens
      else if c = 39 then some multiverseCallback.singleQuote
      else if c = 38 then
        some (multiverseCallback.amp (hasFlag flags D.MultiverseAngledQuotes)
          (hasFlag flags D.MultiverseQuotesNBSP))
      else if c = 34 then
        some (if hasFlag flags D.MultiverseAngledQuotes then multiverseCallback.angledDoubleQuote
          else multiverseCallback.doubleQuote)
      else none := by
  unfold NewMultiverseRenderer
  simp only [setCallback_callbacks]
  by_cases h1 : c = 96
  · simp [h1]
  by_cases h2 : c = 60
  · simp [h2]
  simp only [h1, h2, if_false]
  rcases em (49 ≤ c ∧ c ≤ 57) with hnum | hnum
  · have hc : c = 49 ∨ c = 50 ∨ c = 51 ∨ c = 52 ∨ c = 53 ∨ c = 54 ∨ c = 55 ∨ c = 56
        ∨ c = 57 := by omega
    cases hf : hasFlag flags D.MultiverseFractions <;>
      rcases hc with h | h | h | h | h | h | h | h | h <;> subst h <;>
      cases hasFlag flags D.MultiverseDashes <;>
      cases hasFlag flags D.MultiverseLatexDashes <;>
      cases hasFlag flags D.MultiverseAngledQuotes <;>
      cases hasFlag flags D.MultiverseQuotesNBSP <;>
      simp [setCallback_callbacks, List.range', List.foldl]
  · have h49 : c ≠ 49 := by omega
    have h50 : c ≠ 50 := by omega
    have h51 : c ≠ 51 := by omega
    have h52 : c ≠ 52 := by omega
    have h53 : c ≠ 53 := by omega
    have h54 : c ≠ 54 := by omega
    have h55 : c ≠ 55 := by omega
    have h56 : c ≠ 56 := by omega
    have h57 : c ≠ 57 := by omega
    cases hf : hasFlag flags D.MultiverseFractions <;>
      cases hasFlag flags D.MultiverseDashes <;>
      cases hasFlag flags D.MultiverseLatexDashes <;>
      cases hasFlag flags D.MultiverseAngledQuotes <;>
      cases hasFlag flags D.MultiverseQuotesNBSP <;>
      simp [setCallback_callbacks, List.range', List.foldl, h49, h50, h51, h52, h53, h54, h55,
        h56, h57, hnum]

/-- A freshly constructed engine has both quote flags closed. -/
theorem NewMultiverseRenderer_flags (D : Decls) (flags : Nat) :
    (NewMultiverseRenderer D flags).inSingleQuote = false ∧
    (NewMultiverseRenderer D flags).inDoubleQuote = false := by
  unfold NewMultiverseRenderer
  cases hasFlag flags D.MultiverseFractions <;> cases hasFlag flags D.MultiverseDashes <;>
    cases hasFlag flags D.MultiverseLatexDashes <;>
    cases hasFlag flags D.MultiverseAngledQuotes <;>
    cases hasFlag flags D.MultiverseQuotesNBSP <;>
    simp [setCallback, List.range', List.foldl]

/-! ## The driver loop -/

theorem slice_eq (text : List Nat) (lo hi : Nat) (h1 : lo ≤ hi) (h2 : hi ≤ text.length) :
    slice text lo hi = Except.ok ((text.take hi).drop lo) := by
  simp [slice, h1, h2]

/-- Past the end of the text the loop stops and the pending run is flushed. -/
theorem ProcessLoop_exit (D : Decls) (text : List Nat) (fuel i mark : Nat)
    (r : MultiverseRenderer) (w : List Nat) (hi : text.length ≤ i) :
    ProcessLoop D text (fuel + 1) i mark r w = Except.ok (r, w ++ text.drop mark) := by
  have hn : ¬ i < text.length := by omega
  simp only [ProcessLoop, hn, dite_false]
  by_cases hm : mark < text.length
  · simp [hm]
  · have : text.drop mark = [] := List.drop_eq_nil_of_le (by omega)
    simp [hm, this]

/-- A byte without a handler is left in the pending run. -/
theorem ProcessLoop_step_none (D : Decls) (text : List Nat) (fuel i mark : Nat)
    (r : MultiverseRenderer) (w : List Nat) (c : Nat) (hc : text[i]? = some c)
    (hcb : r.callbacks c = none) :
    ProcessLoop D text (fuel + 1) i mark r w = ProcessLoop D text fuel (i + 1) mark r w := by
  obtain ⟨hi, hget⟩ := List.getElem?_eq_some_iff.mp hc
  simp only [ProcessLoop, hi, dite_true, hget, hcb]

/-- A byte with a handler: the pending run is flushed, the handler's output is
written, and the loop goes on after the bytes the handler consumed. -/
theorem ProcessLoop_step_some (D : Decls) (text : List Nat) (fuel i mark : Nat)
    (r r' : MultiverseRenderer) (w tmp : List Nat) (n c : Nat) (a : multiverseCallback)
    (hc : text[i]? = some c) (hcb : r.callbacks c = some a) (hm : mark ≤ i)
    (hcall : ∀ h0, a.call D r [] (previousCharAt text i) (text.drop i) h0
      = Except.ok (r', tmp, n)) :
    ProcessLoop D text (fuel + 1) i mark r w
      = ProcessLoop D text fuel (i + n + 1) (i + n + 1) r'
          (w ++ (text.take i).drop mark ++ tmp) := by
  obtain ⟨hi, hget⟩ := List.getElem?_eq_some_iff.mp hc
  have hprev : (if h1 : i > 0 then text[i - 1] else 0) = previousCharAt text i := by
    unfold previousCharAt
    by_cases h : i = 0
    · simp [h]
    · have h1 : i > 0 := by omega
      have h2 : i - 1 < text.length := by omega
      simp [h, h1, List.getD_eq_getElem?_getD, List.getElem?_eq_getElem h2]
  simp only [ProcessLoop, hi, dite_true, hget, hcb, hprev, hcall]
  by_cases hlt : i > mark
  · simp [hlt, slice_eq text mark i (by omega) (by omega), Except.map]
  · have hmi : mark = i := by omega
    have hnil : List.drop i (List.take i text) = [] := List.drop_eq_nil_of_le (by simp)
    simp [hmi, hnil]

/-- A handler that fails stops the run. -/
theorem ProcessLoop_step_error (D : Decls) (text : List Nat) (fuel i mark : Nat)
    (r : MultiverseRenderer) (w : List Nat) (c : Nat) (a : multiverseCallback) (e : GoError)
    (hc : text[i]? = some c) (hcb : r.callbacks c = some a)
    (hcall : ∀ h0, a.call D r [] (previousCharAt text i) (text.drop i) h0 = Except.error e) :
    ProcessLoop D text (fuel + 1) i mark r w = Except.error e := by
  obtain ⟨hi, hget⟩ := List.getElem?_eq_some_iff.mp hc
  have hprev : (if h1 : i > 0 then text[i - 1] else 0) = previousCharAt text i := by
    unfold previousCharAt
    by_cases h : i = 0
    · simp [h]
    · have h1 : i > 0 := by omega
      have h2 : i - 1 < text.length := by omega
      simp [h, h1, List.getD_eq_getElem?_getD, List.getElem?_eq_getElem h2]
  simp only [ProcessLoop, hi, dite_true, hget, hcb, hprev, hcall]
  by_cases hlt : i > mark
  · simp [hlt, slice_eq text mark i (by omega) (by omega), Except.map]
  · simp [hlt]

theorem drop_split (text : List Nat) (i mark : Nat) (hm : mark ≤ i) (hi : i < text.length) :
    (text.take i).drop mark ++ text[i] :: text.drop (i + 1) = text.drop mark := by
  have h1 : text.drop mark = ((text.take i) ++ text.drop i).drop mark := by
    rw [List.take_append_drop]
  rw [h1, List.drop_append_of_le_length (by simp; omega)]
  congr 1
  exact (List.drop_eq_getElem_cons hi).symm

/-- When, from index `i0` on, every handler the loop calls copies its trigger
byte and keeps the state, the loop writes the rest of the text as it is. -/
theorem ProcessLoop_passthrough (D : Decls) (text : List Nat) (r : MultiverseRenderer)
    (i0 : Nat)
    (H : ∀ i c a, i0 ≤ i → text[i]? = some c → r.callbacks c = some a →
      ∀ h0, a.call D r [] (previousCharAt text i) (text.drop i) h0 = Except.ok (r, [c], 0)) :
    ∀ fuel i mark w, mark ≤ i → i0 ≤ i → i ≤ text.length → text.length + 1 ≤ fuel + i →
      ProcessLoop D text fuel i mark r w = Except.ok (r, w ++ text.drop mark) := by
  intro fuel
  induction fuel with
  | zero => intro i mark w _ _ h2 h3; omega
  | succ fuel ih =>
    intro i mark w h1 h2 _ h3
    by_cases hi : i < text.length
    · have hc : text[i]? = some text[i] := List.getElem?_eq_getElem hi
      cases hcb : r.callbacks text[i] with
      | none =>
        rw [ProcessLoop_step_none D text fuel i mark r w _ hc hcb]
        exact ih (i + 1) mark w (by omega) (by omega) (by omega) (by omega)
      | some a =>
        rw [ProcessLoop_step_some D text fuel i mark r r w [text[i]] 0 _ a hc hcb h1
          (H i _ a h2 hc hcb)]
        rw [ih (i + 0 + 1) (i + 0 + 1) _ (le_refl _) (by omega) (by omega) (by omega)]
        simp only [Nat.add_zero, List.append_assoc, List.singleton_append]
        rw [drop_split text i mark h1 hi]
    · exact ProcessLoop_exit D text fuel i mark r w (by omega)

/-- When every handler `Process` calls on the text copies its trigger byte and
keeps the state, `Process` writes the text unchanged. -/
theorem Process_passthrough (D : Decls) (text : List Nat) (r : MultiverseRenderer) (w : List Nat)
    (H : ∀ i c a, text[i]? = some c → r.callbacks c = some a →
      ∀ h0, a.call D r [] (previousCharAt text i) (text.drop i) h0 = Except.ok (r, [c], 0)) :
    Process D r w text = Except.ok (r, w ++ text) := by
  have h := ProcessLoop_passthrough D text r 0 (fun i c a _ => H i c a) (text.length + 1) 0 0 w
    (le_refl _) (le_refl _) (by omega) (by omega)
  simpa [Process] using h

theorem Process_eq (D : Decls) (r : MultiverseRenderer) (w text : List Nat) (n : Nat)
    (h : text.length = n) : Process D r w text = ProcessLoop D text (n + 1) 0 0 r w := by
  rw [Process, h]

/-! ## Left angle bracket without a closing one -/

/-- C3 (the code leaves the text): on the one-byte text `<`, whatever the flag
set, the scan of `multiverseLeftAngle` stops at `i = 1 = len(text)`, the slice
`text[:i+1]` it writes leaves the text, and `Process` does not return a result:
the handler's count would give `0 + 1 + 1 > len(text)`. -/
theorem leftAngle_unterminated_leaves_text (D : Decls) (flags : Nat) (w : List Nat) :
    scanWhile (fun c => c != 62) [60] 0 = 1 ∧
    multiverseLeftAngle (NewMultiverseRenderer D flags) [] [60]
      = Except.error GoError.sliceBounds ∧
    Process D (NewMultiverseRenderer D flags) w [60] = Except.error GoError.sliceBounds := by
  refine ⟨by decide, by rfl, ?_⟩
  unfold Process
  refine ProcessLoop_step_error D [60] _ 0 0 _ w 60 multiverseCallback.leftAngle _ (by rfl) ?_ ?_
  · rw [NewMultiverseRenderer_callbacks]; simp
  · intro h0
    rfl

/-! ## A second pass -/

/-- C4 (as stated, refuted): the first pass drops the null entity of `.&#0;..`
and writes `...`, which a second pass rewrites to `&hellip;`. -/
theorem second_pass_changes_output :
    written (Process ascii (NewMultiverseRenderer ascii 0) [] (str ".&#0;.."))
      = some (str "...") ∧
    written (Process ascii (NewMultiverseRenderer ascii 0) [] (str "..."))
      = some (str "&hellip;") ∧
    str "&hellip;" ≠ str "..." := by
  decide

theorem emittedEntities_eq : emittedEntities =
    [[38, 108, 115, 113, 117, 111, 59], [38, 114, 115, 113, 117, 111, 59],
     [38, 108, 100, 113, 117, 111, 59], [38, 114, 100, 113, 117, 111, 59],
     [38, 108, 97, 113, 117, 111, 59], [38, 114, 97, 113, 117, 111, 59],
     [38, 109, 100, 97, 115, 104, 59], [38, 110, 100, 97, 115, 104, 59],
     [38, 104, 101, 108, 108, 105, 112, 59], [38, 99, 111, 112, 121, 59],
     [38, 114, 101, 103, 59], [38, 116, 114, 97, 100, 101, 59],
     [38, 102, 114, 97, 99, 49, 50, 59], [38, 102, 114, 97, 99, 49, 52, 59],
     [38, 102, 114, 97, 99, 51, 52, 59], [38, 102, 114, 97, 115, 108, 59],
     [38, 110, 98, 115, 112, 59]] := by decide

/-! ## Two single quotes -/

theorem specFlag_absent (D : Decls) (b : Bool) : specFlag D 0 0 b = !b := by
  simp [specFlag, classify, quotePolicy, applyPolicy]

/-- The single-quote handler on `''`: the double-quote family decides. -/
theorem multiverseSingleQuote_pair (D : Decls) (r : MultiverseRenderer) (out : List Nat)
    (previousChar : Nat) (rest : List Nat) (h0 : 0 < (39 :: 39 :: rest).length) :
    multiverseSingleQuote D r out previousChar (39 :: 39 :: rest) h0
      = ({ r with inDoubleQuote := specFlag D previousChar (rest.headD 0) r.inDoubleQuote },
         out ++ quoteEntity 100 (specFlag D previousChar (rest.headD 0) r.inDoubleQuote), 1) := by
  cases rest <;> simp [multiverseSingleQuote, tolower, quoteHelper_flag_out]

/-- `Process` on the text `''`, for an engine whose single-quote entry is the
single-quote handler: the double-quote flag is toggled. -/
theorem Process_quote_pair (D : Decls) (r : MultiverseRenderer) (w : List Nat)
    (hcb : r.callbacks 39 = some multiverseCallback.singleQuote) :
    Process D r w [39, 39]
      = Except.ok ({ r with inDoubleQuote := !r.inDoubleQuote },
          w ++ quoteEntity 100 (!r.inDoubleQuote)) := by
  rw [Process_eq D r w [39, 39] 2 rfl]
  rw [ProcessLoop_step_some D [39, 39] 2 0 0 r _ w _ 1 39 multiverseCallback.singleQuote
    (by rfl) hcb (le_refl _)
    (fun h0 => congrArg Except.ok (multiverseSingleQuote_pair D r [] 0 [] h0))]
  rw [ProcessLoop_exit D [39, 39] 1 2 2 _ _ (by simp)]
  simp [specFlag_absent]

/-- C5: on a freshly constructed engine, whatever the flag set, `Process` on
`''` writes exactly `&ldquo;`, opens the double-quote flag and leaves the
single-quote flag as it was; a second `Process` on `''` with that engine writes
exactly `&rdquo;` and closes the flag again. -/
theorem fresh_engine_two_quotes_toggle (D : Decls) (flags : Nat) (w w' : List Nat) :
    Process D (NewMultiverseRenderer D flags) w [39, 39]
      = Except.ok ({ NewMultiverseRenderer D flags with inDoubleQuote := true },
          w ++ str "&ldquo;") ∧
    ({ NewMultiverseRenderer D flags with
        inDoubleQuote := true } : MultiverseRenderer).inSingleQuote
      = (NewMultiverseRenderer D flags).inSingleQuote ∧
    Process D { NewMultiverseRenderer D flags with inDoubleQuote := true } w' [39, 39]
      = Except.ok ({ NewMultiverseRenderer D flags with inDoubleQuote := false },
          w' ++ str "&rdquo;") := by
  have hcb : (NewMultiverseRenderer D flags).callbacks 39
      = some multiverseCallback.singleQuote := by
    rw [NewMultiverseRenderer_callbacks]; simp
  have hfl := (NewMultiverseRenderer_flags D flags).2
  refine ⟨?_, rfl, ?_⟩
  · rw [Process_quote_pair D _ w hcb, hfl]
    rfl
  · exact Process_quote_pair D { NewMultiverseRenderer D flags with inDoubleQuote := true } w' hcb

/-! ## Evaluating the loop -/

theorem engineWith_callbacks (D : Decls) (flags : Nat) (s d : Bool) (c : Nat) :
    (engineWith D flags s d).callbacks c = (NewMultiverseRenderer D flags).callbacks c := rfl

theorem ProcessLoop_succ (D : Decls) (text : List Nat) (fuel i mark : Nat)
    (r : MultiverseRenderer) (w : List Nat) (hi : i < text.length) (hm : mark ≤ i) :
    ProcessLoop D text (fuel + 1) i mark r w =
      match r.callbacks (text.getD i 0) with
      | none => ProcessLoop D text fuel (i + 1) mark r w
      | some a =>
        match a.call D r [] (previousCharAt text i) (text.drop i)
            (by rw [List.length_drop]; omega) with
        | Except.error e => Except.error e
        | Except.ok (r', tmp, n) =>
          ProcessLoop D text fuel (i + n + 1) (i + n + 1) r'
            (w ++ (text.take i).drop mark ++ tmp) := by
  have hc : text[i]? = some (text.getD i 0) := by
    rw [List.getD_eq_getElem?_getD, List.getElem?_eq_getElem hi]; rfl
  cases hcb : r.callbacks (text.getD i 0) with
  | none => rw [ProcessLoop_step_none D text fuel i mark r w _ hc hcb]
  | some a =>
    dsimp only
    cases hcall : a.call D r [] (previousCharAt text i) (text.drop i)
        (by rw [List.length_drop]; omega) with
    | error e =>
      exact ProcessLoop_step_error D text fuel i mark r w _ a e hc hcb (fun _ => hcall)
    | ok res =>
      obtain ⟨r', tmp, n⟩ := res
      exact ProcessLoop_step_some D text fuel i mark r r' w tmp n _ a hc hcb hm (fun _ => hcall)

/-! ## Parentheses -/

theorem tolower_eq_99 (c : Nat) : tolower c = 99 ↔ (c = 99 ∨ c = 67) := by
  unfold tolower
  split <;> simp_all <;> omega

theorem tolower_eq_114 (c : Nat) : tolower c = 114 ↔ (c = 114 ∨ c = 82) := by
  unfold tolower
  split <;> simp_all <;> omega

theorem tolower_eq_116 (c : Nat) : tolower c = 116 ↔ (c = 116 ∨ c = 84) := by
  unfold tolower
  split <;> simp_all <;> omega

theorem tolower_eq_109 (c : Nat) : tolower c = 109 ↔ (c = 109 ∨ c = 77) := by
  unfold tolower
  split <;> simp_all <;> omega

theorem tolower_eq_41 (c : Nat) : tolower c = 41 ↔ c = 41 := by
  unfold tolower
  split
  · simp_all
    omega
  · simp_all

theorem multiverseParens_eq (r : MultiverseRenderer) (out text : List Nat)
    (h0 : 0 < text.length) :
    multiverseParens r out text h0
      = (r, out ++ (parensRewrite text).1, (parensRewrite text).2) := by
  match text, h0 with
  | [p], _ => simp [multiverseParens, parensRewrite]
  | [p, c], _ => simp [multiverseParens, parensRewrite]
  | p :: c :: q :: rest, _ =>
    simp only [multiverseParens, parensRewrite, List.length_cons, ge_iff_le,
      List.getElem_cons_succ, List.getElem_cons_zero, beq_iff_eq, Bool.and_eq_true,
      tolower_eq_99, tolower_eq_114, tolower_eq_116, tolower_eq_109, tolower_eq_41]
    by_cases h1 : q = 41 ∧ (c = 99 ∨ c = 67)
    · simp [h1.1, h1.2]
    by_cases h2 : q = 41 ∧ (c = 114 ∨ c = 82)
    · have h3 : ¬ (c = 99 ∨ c = 67) := fun h => h1 ⟨h2.1, h⟩
      simp [h3, h2.1, h2.2]
    have h1' : ¬ ((c = 99 ∨ c = 67) ∧ q = 41) := fun h => h1 ⟨h.2, h.1⟩
    have h2' : ¬ ((c = 114 ∨ c = 82) ∧ q = 41) := fun h => h2 ⟨h.2, h.1⟩
    simp only [h1, h2, h1', h2', if_false]
    cases rest with
    | nil => simp
    | cons x rest =>
      simp only [List.length_cons, List.head?_cons, Option.some.injEq, and_assoc,
        List.getElem_cons_succ, List.getElem_cons_zero, beq_iff_eq, Bool.and_eq_true,
        decide_eq_true_eq, tolower_eq_116, tolower_eq_109]
      have key : (tolower c = 116 ∧ tolower q = 109 ∧ x = 41)
          ↔ ((c = 116 ∨ c = 84) ∧ (q = 109 ∨ q = 77) ∧ x = 41) := by
        rw [tolower_eq_116, tolower_eq_109]
      by_cases h3 : (c = 116 ∨ c = 84) ∧ (q = 109 ∨ q = 77) ∧ x = 41
      · obtain ⟨ht, hm, hx⟩ := key.mpr h3
        simp [ht, hm, hx, h3]
      · have hn := mt key.mp h3
        have hb : (tolower c == 116 && tolower q == 109 && x == 41) = false := by
          rw [Bool.eq_false_iff]
          intro hb
          simp only [Bool.and_eq_true, beq_iff_eq, and_assoc] at hb
          exact hn hb
        simp [hb, h3]

/-- C6: for every flag set and engine state, `Process` rewrites `(c)` and `(C)`
to `&copy;`, `(r)` and `(R)` to `&reg;`, and `(tm)` in its four spellings to
`&trade;`, the whole group being consumed, and leaves `(x)` as it is; the
parenthesis handler is installed for `(` and, on any text, writes and consumes
what `parensRewrite` says: the symbol for the three groups, else the literal
trigger byte and nothing more. -/
theorem parens_symbols (D : Decls) (flags : Nat) (s d : Bool) (w : List Nat) (r : MultiverseRenderer)
    (out text : List Nat) (h0 : 0 < text.length) :
    Process D (engineWith D flags s d) w (str "(c)")
      = Except.ok (engineWith D flags s d, w ++ str "&copy;") ∧
    Process D (engineWith D flags s d) w (str "(C)")
      = Except.ok (engineWith D flags s d, w ++ str "&copy;") ∧
    Process D (engineWith D flags s d) w (str "(r)")
      = Except.ok (engineWith D flags s d, w ++ str "&reg;") ∧
    Process D (engineWith D flags s d) w (str "(R)")
      = Except.ok (engineWith D flags s d, w ++ str "&reg;") ∧
    Process D (engineWith D flags s d) w (str "(tm)")
      = Except.ok (engineWith D flags s d, w ++ str "&trade;") ∧
    Process D (engineWith D flags s d) w (str "(Tm)")
      = Except.ok (engineWith D flags s d, w ++ str "&trade;") ∧
    Process D (engineWith D flags s d) w (str "(tM)")
      = Except.ok (engineWith D flags s d, w ++ str "&trade;") ∧
    Process D (engineWith D flags s d) w (str "(TM)")
      = Except.ok (engineWith D flags s d, w ++ str "&trade;") ∧
    Process D (engineWith D flags s d) w (str "(x)")
      = Except.ok (engineWith D flags s d, w ++ str "(x)") ∧
    (engineWith D flags s d).callbacks 40 = some multiverseCallback.parens ∧
    multiverseParens r out text h0
      = (r, out ++ (parensRewrite text).1, (parensRewrite text).2) := by
  refine ⟨?_, ?_, ?_, ?_, ?_, ?_, ?_, ?_, ?_, ?_, multiverseParens_eq r out text h0⟩
  all_goals
    simp [Process, str, ProcessLoop_succ, ProcessLoop_exit, engineWith_callbacks,
      NewMultiverseRenderer_callbacks, multiverseCallback.call, multiverseParens, tolower,
      previousCharAt]


/-- C6, at the text `(x)` with the ASCII classes and no flag set: the handler
writes the literal `(` and consumes nothing more. -/
theorem parens_symbols_witness :
    0 < (str "(x)").length ∧
    multiverseParens (engineWith ascii 0 false false) [] (str "(x)") (by decide)
      = (engineWith ascii 0 false false, [] ++ (parensRewrite (str "(x)")).1,
          (parensRewrite (str "(x)")).2) ∧
    parensRewrite (str "(x)") = ([40], 0) :=
  ⟨by decide,
    (parens_symbols ascii 0 false false [] (engineWith ascii 0 false false) [] (str "(x)")
      (by decide)).2.2.2.2.2.2.2.2.2.2,
    by decide⟩

/-! ## Dashes -/

/-- C7 (as stated, refuted): with dash conversion on and LaTeX dashes off, a lone
`-` that is the whole text has the start of the text before it and the end of
the text after it, and 0 is a word boundary, yet it is copied unchanged. -/
theorem lone_dash_at_end_not_converted :
    wordBoundary ascii 0 = true ∧ hasFlag 2 ascii.MultiverseDashes = true ∧
    hasFlag 2 ascii.MultiverseLatexDashes = false ∧
    written (Process ascii (NewMultiverseRenderer ascii 2) [] (str "-")) = some (str "-") ∧
    str "-" ≠ str "&ndash;" := by
  decide

/-- C7 (amended): with dash conversion on and LaTeX dashes off the default dash
handler is installed; on `-` followed by a byte `c` it writes `&mdash;` and
consumes both when `c` is `-`, writes `&ndash;` when the byte before (0 at the
start of the text) and `c` are both word boundaries, and copies the `-`
otherwise; a `-` that ends the text is copied. So, when the space is a word
boundary and `a` is not, `Process` maps `a -- b` to `a &mdash; b`, `a - b` to
`a &ndash; b` and `a-b` to `a-b`. -/
theorem dash_default (D : Decls) (flags : Nat) (s d : Bool) (w : List Nat)
    (r : MultiverseRenderer) (out : List Nat) (previousChar c : Nat) (rest : List Nat)
    (hd : hasFlag flags D.MultiverseDashes = true)
    (hl : hasFlag flags D.MultiverseLatexDashes = false)
    (hsp : wordBoundary D 32 = true) (ha : wordBoundary D 97 = false) :
    (engineWith D flags s d).callbacks 45 = some multiverseCallback.dash ∧
    multiverseDash D r out previousChar (45 :: c :: rest) (by simp)
      = (if c = 45 then (r, out ++ str "&mdash;", 1)
         else if wordBoundary D previousChar && wordBoundary D c then (r, out ++ str "&ndash;", 0)
         else (r, out ++ [45], 0)) ∧
    multiverseDash D r out previousChar [45] (by simp) = (r, out ++ [45], 0) ∧
    Process D (engineWith D flags s d) w (str "a -- b")
      = Except.ok (engineWith D flags s d, w ++ str "a &mdash; b") ∧
    Process D (engineWith D flags s d) w (str "a - b")
      = Except.ok (engineWith D flags s d, w ++ str "a &ndash; b") ∧
    Process D (engineWith D flags s d) w (str "a-b")
      = Except.ok (engineWith D flags s d, w ++ str "a-b") := by
  refine ⟨?_, ?_, ?_, ?_, ?_, ?_⟩
  · simp [engineWith_callbacks, NewMultiverseRenderer_callbacks, hd, hl]
  · by_cases hc : c = 45
    · simp [multiverseDash, hc]
    · simp [multiverseDash, hc]
  · simp [multiverseDash]
  all_goals
    simp [Process, str, ProcessLoop_succ, ProcessLoop_exit, engineWith_callbacks,
      NewMultiverseRenderer_callbacks, multiverseCallback.call, multiverseDash,
      previousCharAt, hd, hl, hsp, ha]

/-- C7, at the ASCII classes with only the dash flag set. -/
theorem dash_default_witness :
    hasFlag 2 ascii.MultiverseDashes = true ∧ hasFlag 2 ascii.MultiverseLatexDashes = false ∧
    wordBoundary ascii 32 = true ∧ wordBoundary ascii 97 = false ∧
    Process ascii (engineWith ascii 2 false false) [] (str "a - b")
      = Except.ok (engineWith ascii 2 false false, [] ++ str "a &ndash; b") :=
  ⟨by decide, by decide, by decide, by decide,
    (dash_default ascii 2 false false [] (engineWith ascii 2 false false) [] 0 32 []
      (by decide) (by decide) (by decide) (by decide)).2.2.2.2.1⟩

/-! ## Fractions, any digits -/

theorem scanWhile_append (p : Nat → Bool) (pre run post : List Nat)
    (hrun : ∀ x ∈ run, p x = true) (hpost : ∀ y, post.head? = some y → p y = false) :
    scanWhile p (pre ++ (run ++ post)) pre.length = pre.length + run.length := by
  unfold scanWhile
  rw [List.drop_left', List.takeWhile_append_of_pos hrun]
  · cases post with
    | nil => simp
    | cons y post =>
      have := hpost y rfl
      simp [List.takeWhile, this]
  · rfl

theorem getD_append_length (pre post : List Nat) (k : Nat) :
    (pre ++ post).getD (pre.length + k) 0 = post.getD k 0 := by
  simp [List.getD_eq_getElem?_getD, List.getElem?_append_right]

theorem ite_ite_bool (P Q : Prop) [Decidable P] [Decidable Q] (X : Bool) :
    (if P then true else if Q then X else false) = (decide P || (decide Q && X)) := by
  by_cases hP : P <;> by_cases hQ : Q <;> simp [hP, hQ]

theorem multiverseNumberGenericDen_eq (D : Decls) (r : MultiverseRenderer) (out : List Nat)
    (text : List Nat) (h0 : 0 < text.length) (numEnd denStart : Nat) :
    multiverseNumberGenericDen D r out text h0 numEnd denStart =
      if scanWhile isdigit text denStart == denStart then
        Except.ok (r, out ++ [text.getD 0 0], 0)
      else if decide (text.length = scanWhile isdigit text denStart)
          || (decide (scanWhile isdigit text denStart < text.length)
            && (wordBoundary D (text.getD (scanWhile isdigit text denStart) 0)
              && text.getD (scanWhile isdigit text denStart) 0 != 47)) then
        match slice text 0 numEnd, slice text denStart (scanWhile isdigit text denStart) with
        | Except.ok num, Except.ok den =>
          Except.ok (r, out ++ str "<sup>" ++ num ++ str "</sup>&frasl;<sub>" ++ den
            ++ str "</sub>", scanWhile isdigit text denStart - 1)
        | _, _ => Except.error GoError.sliceBounds
      else Except.ok (r, out ++ [text.getD 0 0], 0) := by
  have hg : ∀ k (h : k < text.length), text[k] = text.getD k 0 := by
    intro k h
    simp [List.getD_eq_getElem?_getD, List.getElem?_eq_getElem h]
  unfold multiverseNumberGenericDen
  simp only [hg, dite_eq_ite, ite_ite_bool]

theorem multiverseNumberGeneric_eq (D : Decls) (r : MultiverseRenderer) (out : List Nat)
    (previousChar : Nat) (text : List Nat) (h0 : 0 < text.length) :
    multiverseNumberGeneric D r out previousChar text h0 =
      if wordBoundary D previousChar && previousChar != 47 && decide (text.length ≥ 3) then
        if scanWhile isdigit text 0 == 0 then Except.ok (r, out ++ [text.getD 0 0], 0)
        else if decide (text.length > scanWhile isdigit text 0 + 3)
            && (text.getD (scanWhile isdigit text 0) 0 == 226
              && text.getD (scanWhile isdigit text 0 + 1) 0 == 129
              && text.getD (scanWhile isdigit text 0 + 2) 0 == 132) then
          multiverseNumberGenericDen D r out text h0 (scanWhile isdigit text 0)
            (scanWhile isdigit text 0 + 3)
        else if decide (text.length < scanWhile isdigit text 0 + 2)
            || text.getD (scanWhile isdigit text 0) 0 != 47 then
          Except.ok (r, out ++ [text.getD 0 0], 0)
        else
          multiverseNumberGenericDen D r out text h0 (scanWhile isdigit text 0)
            (scanWhile isdigit text 0 + 1)
      else Except.ok (r, out ++ [text.getD 0 0], 0) := by
  have hg : ∀ k (h : k < text.length), text[k] = text.getD k 0 := by
    intro k h
    simp [List.getD_eq_getElem?_getD, List.getElem?_eq_getElem h]
  unfold multiverseNumberGeneric
  simp only [hg, dite_eq_ite]
  generalize scanWhile isdigit text 0 = numEnd
  by_cases h1 : text.length > numEnd + 3 <;> by_cases h2 : text.length < numEnd + 2 <;>
    simp only [h1, h2, if_true, if_false, decide_True, decide_False, Bool.true_and,
      Bool.false_and, Bool.true_or, Bool.false_or, Bool.not_false, Bool.and_true,
      Bool.false_eq_true]

theorem multiverseNumberGeneric_slash (D : Decls) (r : MultiverseRenderer) (out : List Nat)
    (previousChar : Nat) (text : List Nat) (N denEnd : Nat) (h0 : 0 < text.length)
    (hprev : (wordBoundary D previousChar && previousChar != 47) = true)
    (hlen : N + 2 ≤ text.length) (hN : 0 < N) (hnum : scanWhile isdigit text 0 = N)
    (h47 : text.getD N 0 = 47) (hden : scanWhile isdigit text (N + 1) = denEnd)
    (hne : denEnd ≠ N + 1) :
    multiverseNumberGeneric D r out previousChar text h0 =
      if decide (text.length = denEnd)
          || (decide (denEnd < text.length)
            && (wordBoundary D (text.getD denEnd 0) && text.getD denEnd 0 != 47)) then
        match slice text 0 N, slice text (N + 1) denEnd with
        | Except.ok num, Except.ok den =>
          Except.ok (r, out ++ str "<sup>" ++ num ++ str "</sup>&frasl;<sub>" ++ den
            ++ str "</sub>", denEnd - 1)
        | _, _ => Except.error GoError.sliceBounds
      else Except.ok (r, out ++ [text.getD 0 0], 0) := by
  have h3 : text.length ≥ 3 := by omega
  have hN0 : (N == 0) = false := by simp; omega
  have h2 : ¬ text.length < N + 2 := by omega
  have hne' : (denEnd == N + 1) = false := by simp [hne]
  rw [multiverseNumberGeneric_eq, multiverseNumberGenericDen_eq, multiverseNumberGenericDen_eq]
  simp only [hprev, hnum, h47, h3, hN0, h2, decide_True, decide_False, Bool.true_and,
    Bool.and_true, Bool.false_and, Bool.and_false, Bool.not_false, Bool.false_or, if_true,
    if_false, Bool.false_eq_true, bne_self_eq_false, Nat.reduceBEq, hden, hne']

theorem multiverseNumberGeneric_fractionSlash (D : Decls) (r : MultiverseRenderer)
    (out : List Nat) (previousChar : Nat) (text : List Nat) (N denEnd : Nat)
    (h0 : 0 < text.length)
    (hprev : (wordBoundary D previousChar && previousChar != 47) = true)
    (hlen : N + 3 < text.length) (hN : 0 < N) (hnum : scanWhile isdigit text 0 = N)
    (h1 : text.getD N 0 = 226) (h2 : text.getD (N + 1) 0 = 129) (h3 : text.getD (N + 2) 0 = 132)
    (hden : scanWhile isdigit text (N + 3) = denEnd) (hne : denEnd ≠ N + 3) :
    multiverseNumberGeneric D r out previousChar text h0 =
      if decide (text.length = denEnd)
          || (decide (denEnd < text.length)
            && (wordBoundary D (text.getD denEnd 0) && text.getD denEnd 0 != 47)) then
        match slice text 0 N, slice text (N + 3) denEnd with
        | Except.ok num, Except.ok den =>
          Except.ok (r, out ++ str "<sup>" ++ num ++ str "</sup>&frasl;<sub>" ++ den
            ++ str "</sub>", denEnd - 1)
        | _, _ => Except.error GoError.sliceBounds
      else Except.ok (r, out ++ [text.getD 0 0], 0) := by
  have hl3 : text.length ≥ 3 := by omega
  have hN0 : (N == 0) = false := by simp; omega
  have hgt : text.length > N + 3 := hlen
  have hne' : (denEnd == N + 3) = false := by simp [hne]
  rw [multiverseNumberGeneric_eq, multiverseNumberGenericDen_eq, multiverseNumberGenericDen_eq]
  simp only [hprev, hnum, h1, h2, h3, hl3, hN0, hgt, decide_True, decide_False, Bool.true_and,
    Bool.and_true, Bool.false_and, Bool.and_false, Bool.not_false, Bool.not_true,
    Bool.false_or, if_true, if_false, Bool.false_eq_true, beq_self_eq_true, hden, hne']

theorem isdigit_head_false (sep : List Nat) (rest : List Nat)
    (hsep : sep = [47] ∨ sep = [226, 129, 132]) :
    ∀ y, (sep ++ rest).head? = some y → isdigit y = false := by
  intro y hy
  rcases hsep with h | h <;> subst h <;> simp at hy <;> subst hy <;> decide

theorem multiverseNumberGeneric_fraction (D : Decls) (r : MultiverseRenderer) (out : List Nat)
    (previousChar : Nat) (n sep d post : List Nat)
    (hprev : (wordBoundary D previousChar && previousChar != 47) = true)
    (hn : n ≠ []) (hnd : ∀ x ∈ n, isdigit x = true)
    (hd : d ≠ []) (hdd : ∀ x ∈ d, isdigit x = true)
    (hsep : sep = [47] ∨ sep = [226, 129, 132])
    (hpost : ∀ y, post.head? = some y → isdigit y = false)
    (h0 : 0 < (n ++ (sep ++ (d ++ post))).length) :
    multiverseNumberGeneric D r out previousChar (n ++ (sep ++ (d ++ post))) h0
      = if fractionEnd D post then
          Except.ok (r, out ++ fractionMarkup n d, n.length + sep.length + d.length - 1)
        else Except.ok (r, out ++ [n.headD 0], 0) := by
  have hnl : 0 < n.length := List.length_pos.mpr hn
  have hdl : 0 < d.length := List.length_pos.mpr hd
  have hnum : scanWhile isdigit (n ++ (sep ++ (d ++ post))) 0 = n.length := by
    have := scanWhile_append isdigit [] n (sep ++ (d ++ post)) hnd
      (isdigit_head_false sep _ hsep)
    simpa using this
  have hden : scanWhile isdigit (n ++ (sep ++ (d ++ post))) (n.length + sep.length)
      = n.length + sep.length + d.length := by
    have := scanWhile_append isdigit (n ++ sep) d post hdd hpost
    simpa using this
  have hhead : (n ++ (sep ++ (d ++ post))).getD 0 0 = n.headD 0 := by
    cases n with
    | nil => exact absurd rfl hn
    | cons x n => simp
  have hlen : (n ++ (sep ++ (d ++ post))).length
      = n.length + sep.length + d.length + post.length := by
    simp only [List.length_append]; omega
  have hg : ∀ k, (n ++ (sep ++ (d ++ post))).getD (n.length + k) 0
      = (sep ++ (d ++ post)).getD k 0 := fun k => getD_append_length n _ k
  have hend : (n ++ (sep ++ (d ++ post))).getD (n.length + sep.length + d.length) 0
      = post.headD 0 := by
    have h1 := getD_append_length (n ++ sep ++ d) post 0
    simp only [List.append_assoc, List.length_append, Nat.add_zero] at h1
    rw [Nat.add_assoc, h1]
    cases post <;> simp
  have htake : slice (n ++ (sep ++ (d ++ post))) 0 n.length = Except.ok n := by
    rw [slice_eq _ _ _ (Nat.zero_le _) (by omega)]
    simp
  have hdrop : slice (n ++ (sep ++ (d ++ post))) (n.length + sep.length)
      (n.length + sep.length + d.length) = Except.ok d := by
    rw [slice_eq _ _ _ (by omega) (by omega)]
    have h1 : n ++ (sep ++ (d ++ post)) = (n ++ sep ++ d) ++ post := by simp
    rw [h1, List.take_left' (by simp [Nat.add_assoc]), List.drop_left' (by simp)]
  have hcond : (decide ((n ++ (sep ++ (d ++ post))).length = n.length + sep.length + d.length)
      || (decide (n.length + sep.length + d.length < (n ++ (sep ++ (d ++ post))).length)
        && (wordBoundary D ((n ++ (sep ++ (d ++ post))).getD
              (n.length + sep.length + d.length) 0)
          && (n ++ (sep ++ (d ++ post))).getD (n.length + sep.length + d.length) 0 != 47)))
      = fractionEnd D post := by
    rw [hend, hlen]
    cases post with
    | nil => simp [fractionEnd]
    | cons y post => simp [fractionEnd]
  rcases hsep with h | h <;> subst h
  · have h47 : (n ++ ([47] ++ (d ++ post))).getD n.length 0 = 47 := by
      have := hg 0
      simpa using this
    rw [multiverseNumberGeneric_slash D r out previousChar _ n.length
      (n.length + 1 + d.length) h0 hprev (by rw [hlen]; simp; omega) hnl hnum h47 hden
      (by omega)]
    simp only [List.length_singleton] at hcond htake hdrop
    rw [hcond, htake, hdrop, hhead]
    simp [fractionMarkup]
  · have h1 : (n ++ ([226, 129, 132] ++ (d ++ post))).getD n.length 0 = 226 := by
      have := hg 0
      simpa using this
    have h2 : (n ++ ([226, 129, 132] ++ (d ++ post))).getD (n.length + 1) 0 = 129 := by
      rw [hg 1]; rfl
    have h3 : (n ++ ([226, 129, 132] ++ (d ++ post))).getD (n.length + 2) 0 = 132 := by
      rw [hg 2]; rfl
    rw [multiverseNumberGeneric_fractionSlash D r out previousChar _ n.length
      (n.length + 3 + d.length) h0 hprev (by rw [hlen]; simp; omega) hnl hnum h1 h2 h3 hden
      (by omega)]
    have e3 : [226, 129, 132].length = 3 := rfl
    simp only [e3] at hcond htake hdrop
    rw [hcond, htake, hdrop, hhead]
    simp [fractionMarkup]

/-- Bytes without a handler are passed over; the pending run keeps growing. -/
theorem ProcessLoop_skip_none (D : Decls) (text : List Nat) (r : MultiverseRenderer)
    (mark : Nat) (w : List Nat) :
    ∀ k fuel i, i + k ≤ text.length →
      (∀ j c, i ≤ j → j < i + k → text[j]? = some c → r.callbacks c = none) →
      ProcessLoop D text (fuel + k) i mark r w = ProcessLoop D text fuel (i + k) mark r w := by
  intro k
  induction k with
  | zero => intro fuel i _ _; rfl
  | succ k ih =>
    intro fuel i hlen H
    have hi : i < text.length := by omega
    have hc : text[i]? = some text[i] := List.getElem?_eq_getElem hi
    have h1 : fuel + (k + 1) = (fuel + k) + 1 := by omega
    rw [h1, ProcessLoop_step_none D text (fuel + k) i mark r w _ hc
      (H i _ (le_refl _) (by omega) hc)]
    rw [ih fuel (i + 1) (by omega) (fun j c h1 h2 => H j c (by omega) (by omega))]
    congr 1
    omega

theorem previousCharAt_append (pre suf : List Nat) :
    previousCharAt (pre ++ suf) pre.length = pre.getLastD 0 := by
  unfold previousCharAt
  rcases List.eq_nil_or_concat pre with h | ⟨l, x, h⟩
  · subst h; rfl
  · subst h
    rw [List.concat_eq_append]
    have h3 : (l ++ [x]).length ≠ 0 := by simp
    have h2 : (l ++ [x]).length - 1 = l.length := by simp
    have h1 : (l ++ [x] ++ suf)[l.length]? = some x := by
      rw [List.append_assoc, List.getElem?_append_right (le_refl _)]
      simp
    have h4 : (l ++ [x]).getLastD 0 = x := by
      rw [List.getLastD_eq_getLast?, List.getLast?_append]
      simp
    rw [if_neg h3, h2, List.getD_eq_getElem?_getD, h1, h4]
    rfl

theorem mem_of_getElem_some {text : List Nat} {i c : Nat} (h : text[i]? = some c) : c ∈ text := by
  obtain ⟨hi, hget⟩ := List.getElem?_eq_some_iff.mp h
  exact hget ▸ List.getElem_mem hi

theorem isdigit_iff (x : Nat) : isdigit x = true ↔ 48 ≤ x ∧ x ≤ 57 := by
  simp [isdigit]

/-- With the ASCII classes no decimal digit is a word boundary. -/
theorem ascii_digit_not_boundary (x : Nat) (hx : isdigit x = true) :
    wordBoundary ascii x = false := by
  rw [isdigit_iff] at hx
  simp only [wordBoundary, ascii, asciiSpace, asciiPunct, Bool.or_eq_false_iff,
    beq_eq_false_iff_ne, Bool.and_eq_false_iff, decide_eq_false_iff_not]
  omega

theorem wordBoundary_zero (D : Decls) : (wordBoundary D 0 && (0 : Nat) != 47) = true := by
  simp [wordBoundary]

/-- C9 (as stated, refuted): with the generic-fraction flag set, the text `0/4`
(digits, slash, digits, alone in the text) is written unchanged: no handler is
installed for the digit 0. -/
theorem leading_zero_fraction_unchanged :
    hasFlag 1 ascii.MultiverseFractions = true ∧
    written (Process ascii (NewMultiverseRenderer ascii 1) [] (str "0/4")) = some (str "0/4") ∧
    str "0/4" ≠ fractionMarkup (str "0") (str "4") := by
  decide

/-- C9 (amended): let `n` be a run of decimal digits that starts with one of 1
to 9, `d` a non-empty run of decimal digits, and let the separator be `/` or
the three-byte fraction slash. Called at the first digit of `n` with a byte
before it that is a word boundary other than `/`, on a text where `d` is
followed by the end of the text or by a word boundary that is neither `/` nor a
digit, the generic handler writes `<sup>` n `</sup>&frasl;<sub>` d `</sub>` and
consumes the whole sequence. With the generic-fraction flag set, `Process` on
`pre`, `n`, separator, `d`, `post`, where no byte of `pre` and `post` has a
handler and `pre` is empty or ends in a word boundary other than `/`, writes
`pre`, that markup and `post`, and keeps the engine state. -/
theorem generic_fraction_rewritten (D : Decls) (flags : Nat) (s q : Bool) (w : List Nat)
    (r : MultiverseRenderer) (out : List Nat) (previousChar : Nat)
    (pre n sep d post : List Nat)
    (hf : hasFlag flags D.MultiverseFractions = true)
    (hn : n ≠ []) (hnd : ∀ x ∈ n, isdigit x = true) (hlead : n.headD 0 ≠ 48)
    (hd : d ≠ []) (hdd : ∀ x ∈ d, isdigit x = true)
    (hsep : sep = [47] ∨ sep = [226, 129, 132])
    (hprev : (wordBoundary D previousChar && previousChar != 47) = true)
    (hpre : ∀ c ∈ pre, (engineWith D flags s q).callbacks c = none)
    (hprel : (wordBoundary D (pre.getLastD 0) && pre.getLastD 0 != 47) = true)
    (hpost : ∀ c ∈ post, (engineWith D flags s q).callbacks c = none)
    (hend : fractionEnd D post = true)
    (hstop : ∀ y, post.head? = some y → isdigit y = false) :
    multiverseNumberGeneric D r out previousChar (n ++ (sep ++ (d ++ post)))
        (List.length_pos.mpr (List.append_ne_nil_of_left_ne_nil hn _))
      = Except.ok (r, out ++ fractionMarkup n d, n.length + sep.length + d.length - 1) ∧
    Process D (engineWith D flags s q) w (pre ++ (n ++ (sep ++ (d ++ post))))
      = Except.ok (engineWith D flags s q, w ++ pre ++ fractionMarkup n d ++ post) := by
  have hnl : 0 < n.length := List.length_pos.mpr hn
  have hdl : 0 < d.length := List.length_pos.mpr hd
  have hsl : 0 < sep.length := by rcases hsep with h | h <;> subst h <;> simp
  constructor
  · rw [multiverseNumberGeneric_fraction D r out previousChar n sep d post hprev hn hnd hd hdd
      hsep hstop, hend]
    rfl
  · obtain ⟨x, n', rfl⟩ := List.exists_cons_of_ne_nil hn
    have hx : isdigit x = true := hnd x (by simp)
    have hx48 : x ≠ 48 := by simpa using hlead
    have hx' : 49 ≤ x ∧ x ≤ 57 := by
      simp only [isdigit, Bool.and_eq_true, decide_eq_true_eq] at hx
      omega
    have hcb : (engineWith D flags s q).callbacks x = some multiverseCallback.numberGeneric := by
      rw [engineWith_callbacks, NewMultiverseRenderer_callbacks]
      have h1 : x ≠ 96 := by omega
      have h2 : x ≠ 60 := by omega
      simp [h1, h2, hx'.1, hx'.2, hf]
    set text := pre ++ (x :: n' ++ (sep ++ (d ++ post))) with htext
    have hlen : text.length
        = pre.length + ((x :: n').length + sep.length + d.length) + post.length := by
      simp only [htext, List.length_append]; omega
    set K := (x :: n').length + sep.length + d.length with hK
    have hK1 : 1 ≤ K := by omega
    have hfuel : text.length + 1 = (post.length + K + 1) + pre.length := by omega
    rw [Process, hfuel,
      ProcessLoop_skip_none D text _ 0 w pre.length (post.length + K + 1) 0 (by omega)]
    · have hc : text[0 + pre.length]? = some x := by
        rw [htext, Nat.zero_add, List.getElem?_append_right (le_refl _), Nat.sub_self]
        simp
      have hdrop : text.drop (0 + pre.length) = x :: n' ++ (sep ++ (d ++ post)) := by
        simp [htext]
      have hpc : previousCharAt text (0 + pre.length) = pre.getLastD 0 := by
        rw [Nat.zero_add]; exact previousCharAt_append pre _
      have hfuel2 : post.length + K + 1 = (post.length + K) + 1 := rfl
      rw [hfuel2, ProcessLoop_step_some D text (post.length + K) (0 + pre.length) 0 _
        (engineWith D flags s q) w (fractionMarkup (x :: n') d) (K - 1) x
        multiverseCallback.numberGeneric hc hcb (Nat.zero_le _)]
      · rw [ProcessLoop_passthrough D text _ (pre.length + K)]
        · have h1 : 0 + pre.length + (K - 1) + 1 = pre.length + K := by omega
          have h2 : text.drop (pre.length + K) = post := by
            have : text = (pre ++ (x :: n' ++ (sep ++ d))) ++ post := by simp [htext]
            rw [this, List.drop_left' (by simp [hK]; omega)]
          have h3 : List.drop 0 (List.take (0 + pre.length) text) = pre := by
            simp [htext]
          rw [h1, h2, h3]
        · intro i c a hi hci hcbi
          exfalso
          have hmem : c ∈ post := by
            have h2 : text = (pre ++ (x :: n' ++ (sep ++ d))) ++ post := by simp [htext]
            have h3 : (pre ++ (x :: n' ++ (sep ++ d))).length = pre.length + K := by
              simp [hK]; omega
            rw [h2, List.getElem?_append_right (by omega)] at hci
            exact mem_of_getElem_some hci
          rw [hpost c hmem] at hcbi
          exact Option.noConfusion hcbi
        · omega
        · omega
        · omega
        · omega
      · intro h0
        simp only [multiverseCallback.call, hpc, hdrop]
        rw [multiverseNumberGeneric_fraction D _ [] _ (x :: n') sep d post hprel hn hnd hd hdd
          hsep hstop, hend]
        simp [hK]
    · intro j c _ hj hcj
      have hmem : c ∈ pre := by
        rw [List.getElem?_append_left (by omega)] at hcj
        exact mem_of_getElem_some hcj
      exact hpre c hmem

theorem getElem_zero_eq_getD (text : List Nat) (h0 : 0 < text.length) :
    text[0] = text.getD 0 0 := by
  simp [List.getD_eq_getElem?_getD, List.getElem?_eq_getElem h0]

theorem multiverseNumberGeneric_blocked (D : Decls) (r : MultiverseRenderer) (out : List Nat)
    (previousChar : Nat) (text : List Nat) (h0 : 0 < text.length)
    (hprev : (wordBoundary D previousChar && previousChar != 47) = false) :
    multiverseNumberGeneric D r out previousChar text h0
      = Except.ok (r, out ++ [text.getD 0 0], 0) := by
  rw [multiverseNumberGeneric_eq]
  simp only [hprev, Bool.false_and, Bool.false_eq_true, if_false]

theorem multiverseNumber_blocked (D : Decls) (r : MultiverseRenderer) (out : List Nat)
    (previousChar : Nat) (text : List Nat) (h0 : 0 < text.length)
    (hprev : (wordBoundary D previousChar && previousChar != 47) = false) :
    multiverseNumber D r out previousChar text h0 = (r, out ++ [text.getD 0 0], 0) := by
  unfold multiverseNumber
  simp only [hprev, Bool.false_eq_true, false_and, dite_false, getElem_zero_eq_getD text h0]

theorem tolower_digit (x : Nat) (hx : isdigit x = true) : tolower x = x := by
  rw [isdigit_iff] at hx
  unfold tolower
  split
  · simp_all
    omega
  · rfl

theorem multiverseNumber_date (D : Decls) (r : MultiverseRenderer) (out : List Nat)
    (previousChar : Nat) (a b c : List Nat)
    (ha : a ≠ []) (had : ∀ x ∈ a, isdigit x = true)
    (hb : b ≠ []) (hbd : ∀ x ∈ b, isdigit x = true)
    (hD : ∀ x, isdigit x = true → wordBoundary D x = false)
    (h0 : 0 < (a ++ 47 :: (b ++ 47 :: c)).length) :
    multiverseNumber D r out previousChar (a ++ 47 :: (b ++ 47 :: c)) h0
      = (r, out ++ [a.headD 0], 0) := by
  by_cases hprev : (wordBoundary D previousChar && previousChar != 47) = true
  · match a, ha, had with
    | [x], _, _ =>
      match b, hb, hbd with
      | [y], _, _ =>
        have hl : ¬ (c.length + 1 + 1 + 1 + 1 < 4) := by omega
        simp [multiverseNumber, hprev, tolower, hl]
      | y :: z :: b', _, hbd =>
        have hz : isdigit z = true := hbd z (by simp)
        have hz' := (isdigit_iff z).mp hz
        have hzl := tolower_digit z hz
        have hzb : (z == 116) = false := by
          simp only [beq_eq_false_iff_ne]; omega
        have hl : ¬ (b'.length + (c.length + 1) + 1 + 1 + 1 + 1 < 4) := by omega
        simp [multiverseNumber, hprev, hD z hz, hzl, hzb, hl]
    | x :: y :: a', _, had =>
      have hy := (isdigit_iff y).mp (had y (by simp))
      have hy47 : (y == 47) = false := by
        simp only [beq_eq_false_iff_ne]; omega
      simp [multiverseNumber, hprev, hy47]
  · have hprev' : (wordBoundary D previousChar && previousChar != 47) = false := by
      simpa using hprev
    rw [multiverseNumber_blocked D r out previousChar _ h0 hprev']
    cases a with
    | nil => exact absurd rfl ha
    | cons x a => simp

theorem digit_callback (D : Decls) (flags : Nat) (s q : Bool) (x : Nat)
    (act : multiverseCallback) (hx : isdigit x = true)
    (hcb : (engineWith D flags s q).callbacks x = some act) :
    (hasFlag flags D.MultiverseFractions = false ∧ act = multiverseCallback.number) ∨
    (hasFlag flags D.MultiverseFractions = true ∧ act = multiverseCallback.numberGeneric) := by
  rw [engineWith_callbacks, NewMultiverseRenderer_callbacks] at hcb
  have hx' := (isdigit_iff x).mp hx
  have h1 : x ≠ 96 := by omega
  have h2 : x ≠ 60 := by omega
  have h3 : x ≠ 46 := by omega
  have h4 : x ≠ 45 := by omega
  have h5 : x ≠ 40 := by omega
  have h6 : x ≠ 39 := by omega
  have h7 : x ≠ 38 := by omega
  have h8 : x ≠ 34 := by omega
  simp only [h1, h2, h3, h4, h5, h6, h7, h8, if_false, false_and] at hcb
  cases hf : hasFlag flags D.MultiverseFractions
  · simp [hf] at hcb
    exact Or.inl ⟨rfl, hcb.2.symm⟩
  · simp [hf] at hcb
    exact Or.inr ⟨rfl, hcb.2.symm⟩

/-- C10: for every flag set (so under the generic and under the fixed-set
fraction setting), every engine state and all digit runs `a`, `b`, `c` with
`a` and `b` non-empty, `Process` writes the text `a/b/c` unchanged and keeps
the engine state, provided no decimal digit counts as a word boundary. -/
theorem date_guard (D : Decls) (flags : Nat) (s q : Bool) (w : List Nat) (a b c : List Nat)
    (ha : a ≠ []) (had : ∀ x ∈ a, isdigit x = true)
    (hb : b ≠ []) (hbd : ∀ x ∈ b, isdigit x = true)
    (hcd : ∀ x ∈ c, isdigit x = true)
    (hD : ∀ x, isdigit x = true → wordBoundary D x = false) :
    Process D (engineWith D flags s q) w (a ++ 47 :: (b ++ 47 :: c))
      = Except.ok (engineWith D flags s q, w ++ (a ++ 47 :: (b ++ 47 :: c))) := by
  apply Process_passthrough
  intro i x act hx hcb h0
  have hall : ∀ y ∈ a ++ 47 :: (b ++ 47 :: c), isdigit y = true ∨ y = 47 := by
    intro y hy
    simp only [List.mem_append, List.mem_cons] at hy
    rcases hy with h | h | h | h | h
    · exact Or.inl (had y h)
    · exact Or.inr h
    · exact Or.inl (hbd y h)
    · exact Or.inr h
    · exact Or.inl (hcd y h)
  have hxm := mem_of_getElem_some hx
  have hhead : (List.drop i (a ++ 47 :: (b ++ 47 :: c))).getD 0 0 = x := by
    simp [List.getD_eq_getElem?_getD, hx]
  rcases hall x hxm with hxd | hx47
  · by_cases hi : i = 0
    · subst hi
      have hpc : previousCharAt (a ++ 47 :: (b ++ 47 :: c)) 0 = 0 := rfl
      have hxa : a.headD 0 = x := by
        cases a with
        | nil => exact absurd rfl ha
        | cons y a => simpa using hx
      rcases digit_callback D flags s q x act hxd hcb with ⟨_, rfl⟩ | ⟨_, rfl⟩
      · simp only [multiverseCallback.call, hpc, List.drop_zero]
        rw [multiverseNumber_date D _ [] 0 a b c ha had hb hbd hD, hxa]
        rfl
      · simp only [multiverseCallback.call, hpc, List.drop_zero]
        have hsl : 47 :: (b ++ 47 :: c) = [47] ++ (b ++ 47 :: c) := rfl
        simp only [hsl]
        rw [multiverseNumberGeneric_fraction D _ [] 0 a [47] b (47 :: c) (wordBoundary_zero D)
          ha had hb hbd (Or.inl rfl) (by intro y hy; simp at hy; subst hy; decide)]
        simp only [fractionEnd, bne_self_eq_false, Bool.and_false, Bool.false_eq_true, if_false,
          hxa, List.nil_append]
    · have hprev : (wordBoundary D (previousCharAt (a ++ 47 :: (b ++ 47 :: c)) i)
          && previousCharAt (a ++ 47 :: (b ++ 47 :: c)) i != 47) = false := by
        obtain ⟨hil, _⟩ := List.getElem?_eq_some_iff.mp hx
        have hp : (a ++ 47 :: (b ++ 47 :: c))[i - 1]?
            = some (previousCharAt (a ++ 47 :: (b ++ 47 :: c)) i) := by
          have h2 : i - 1 < (a ++ 47 :: (b ++ 47 :: c)).length := by omega
          simp [previousCharAt, hi, List.getD_eq_getElem?_getD, List.getElem?_eq_getElem h2]
        rcases hall _ (mem_of_getElem_some hp) with hd | h47
        · rw [hD _ hd]; rfl
        · rw [h47]; simp
      rcases digit_callback D flags s q x act hxd hcb with ⟨_, rfl⟩ | ⟨_, rfl⟩
      · simp only [multiverseCallback.call]
        rw [multiverseNumber_blocked D _ [] _ _ h0 hprev, hhead]
        rfl
      · simp only [multiverseCallback.call]
        rw [multiverseNumberGeneric_blocked D _ [] _ _ h0 hprev, hhead]
        rfl
  · subst hx47
    rw [engineWith_callbacks, NewMultiverseRenderer_callbacks] at hcb
    simp at hcb

/-- C9, at the ASCII classes with only the generic-fraction flag set: `3/4 cup`
becomes `<sup>3</sup>&frasl;<sub>4</sub> cup`. -/
theorem generic_fraction_witness :
    hasFlag 1 ascii.MultiverseFractions = true ∧
    fractionEnd ascii (str " cup") = true ∧
    [] ++ (str "3" ++ ([47] ++ (str "4" ++ str " cup"))) = str "3/4 cup" ∧
    Process ascii (engineWith ascii 1 false false) []
        ([] ++ (str "3" ++ ([47] ++ (str "4" ++ str " cup"))))
      = Except.ok (engineWith ascii 1 false false,
          [] ++ [] ++ fractionMarkup (str "3") (str "4") ++ str " cup") :=
  ⟨by decide, by decide, by decide,
    (generic_fraction_rewritten ascii 1 false false [] (engineWith ascii 1 false false) [] 0
      [] (str "3") [47] (str "4") (str " cup") (by decide) (by decide) (by decide) (by decide)
      (by decide) (by decide) (Or.inl rfl) (by decide) (by decide) (by decide) (by decide)
      (by decide) (by decide)).2⟩

/-- C10, at the ASCII classes: `1/23/2005` under the generic and under the
fixed-set fraction setting. -/
theorem date_guard_witness :
    str "1" ++ 47 :: (str "23" ++ 47 :: str "2005") = str "1/23/2005" ∧
    Process ascii (engineWith ascii 1 false false) []
        (str "1" ++ 47 :: (str "23" ++ 47 :: str "2005"))
      = Except.ok (engineWith ascii 1 false false,
          [] ++ (str "1" ++ 47 :: (str "23" ++ 47 :: str "2005"))) ∧
    Process ascii (engineWith ascii 0 false false) []
        (str "1" ++ 47 :: (str "23" ++ 47 :: str "2005"))
      = Except.ok (engineWith ascii 0 false false,
          [] ++ (str "1" ++ 47 :: (str "23" ++ 47 :: str "2005"))) :=
  ⟨by decide,
    date_guard ascii 1 false false [] (str "1") (str "23") (str "2005") (by decide) (by decide)
      (by decide) (by decide) (by decide) ascii_digit_not_boundary,
    date_guard ascii 0 false false [] (str "1") (str "23") (str "2005") (by decide) (by decide)
      (by decide) (by decide) (by decide) ascii_digit_not_boundary⟩

/-! ## The handlers' slices and the loop counter -/

theorem scanWhile_ge (p : Nat → Bool) (text : List Nat) (k : Nat) : k ≤ scanWhile p text k := by
  unfold scanWhile; omega

theorem scanWhile_le (p : Nat → Bool) (text : List Nat) (k : Nat) (hk : k ≤ text.length) :
    scanWhile p text k ≤ text.length := by
  unfold scanWhile
  have h1 : ((text.drop k).takeWhile p).length ≤ (text.drop k).length :=
    (List.takeWhile_sublist p).length_le
  rw [List.length_drop] at h1
  omega

theorem multiverseNumberGenericDen_ok (D : Decls) (r : MultiverseRenderer) (out : List Nat)
    (text : List Nat) (h0 : 0 < text.length) (numEnd denStart : Nat)
    (h1 : numEnd ≤ text.length) (h2 : denStart ≤ text.length) :
    ∃ res, multiverseNumberGenericDen D r out text h0 numEnd denStart = Except.ok res := by
  rw [multiverseNumberGenericDen_eq]
  have h3 := scanWhile_le isdigit text denStart h2
  have h4 := scanWhile_ge isdigit text denStart
  rw [slice_eq text 0 numEnd (Nat.zero_le _) h1, slice_eq text denStart _ h4 h3]
  split_ifs <;> exact ⟨_, rfl⟩

/-- The generic fraction handler always returns: its slices stay inside the
text. -/
theorem multiverseNumberGeneric_ok (D : Decls) (r : MultiverseRenderer) (out : List Nat)
    (previousChar : Nat) (text : List Nat) (h0 : 0 < text.length) :
    ∃ res, multiverseNumberGeneric D r out previousChar text h0 = Except.ok res := by
  rw [multiverseNumberGeneric_eq]
  have h1 := scanWhile_le isdigit text 0 (Nat.zero_le _)
  split_ifs with ha hb hc hd
  · exact ⟨_, rfl⟩
  · simp only [Bool.and_eq_true, decide_eq_true_eq] at hc
    exact multiverseNumberGenericDen_ok D r out text h0 _ _ h1 (by omega)
  · exact ⟨_, rfl⟩
  · simp only [Bool.or_eq_true, decide_eq_true_eq, not_or, not_lt] at hd
    exact multiverseNumberGenericDen_ok D r out text h0 _ _ h1 (by omega)
  · exact ⟨_, rfl⟩

/-- The loop counter of the model never runs out: with `fuel` at least 1 and at
least the number of bytes left plus one, the loop ends by itself. -/
theorem ProcessLoop_fuel (D : Decls) (text : List Nat) :
    ∀ fuel i mark r w, mark ≤ i → 1 ≤ fuel → text.length + 1 ≤ fuel + i →
      ProcessLoop D text fuel i mark r w ≠ Except.error GoError.fuel := by
  intro fuel
  induction fuel with
  | zero => intro i mark r w _ h; omega
  | succ fuel ih =>
    intro i mark r w hm _ hf
    by_cases hi : i < text.length
    · rw [ProcessLoop_succ D text fuel i mark r w hi hm]
      cases r.callbacks (text.getD i 0) with
      | none => exact ih (i + 1) mark r w (by omega) (by omega) (by omega)
      | some a =>
        dsimp only
        cases hcall : a.call D r [] (previousCharAt text i) (text.drop i)
            (by rw [List.length_drop]; omega) with
        | error e =>
          show Except.error e ≠ Except.error GoError.fuel
          intro he
          cases he
          cases a <;> simp only [multiverseCallback.call] at hcall <;> try cases hcall
          · obtain ⟨res, hres⟩ := multiverseNumberGeneric_ok D r [] (previousCharAt text i)
              (text.drop i) (by rw [List.length_drop]; omega)
            rw [hres] at hcall
            cases hcall
          · simp only [multiverseLeftAngle, slice] at hcall
            split_ifs at hcall
            cases hcall
        | ok res =>
          obtain ⟨r', tmp, n⟩ := res
          exact ih (i + n + 1) (i + n + 1) r' _ (le_refl _) (by omega) (by omega)
    · rw [ProcessLoop_exit D text fuel i mark r w (by omega)]
      exact fun h => Except.noConfusion h

/-- `Process` always comes to an end of its own: the model's loop counter is
never what stops it. -/
theorem Process_fuel (D : Decls) (r : MultiverseRenderer) (w text : List Nat) :
    Process D r w text ≠ Except.error GoError.fuel :=
  ProcessLoop_fuel D text (text.length + 1) 0 0 r w (le_refl _) (by omega) (by omega)

/-! ## Bytes without a handler -/

/-- One trigger between two runs of bytes without a handler: `Process` writes
the first run, the handler's output and the second run. -/
theorem Process_single_trigger (D : Decls) (r r' : MultiverseRenderer) (w pre mid post tmp : List Nat)
    (c : Nat) (a : multiverseCallback)
    (hpre : ∀ x ∈ pre, r.callbacks x = none)
    (hpost : ∀ x ∈ post, r'.callbacks x = none)
    (hcb : r.callbacks c = some a)
    (hcall : ∀ h0, a.call D r [] (pre.getLastD 0) (c :: mid ++ post) h0
      = Except.ok (r', tmp, mid.length)) :
    Process D r w (pre ++ (c :: mid ++ post)) = Except.ok (r', w ++ pre ++ tmp ++ post) := by
  set text := pre ++ (c :: mid ++ post) with htext
  have hlen : text.length = pre.length + (mid.length + 1) + post.length := by
    simp only [htext, List.length_append, List.length_cons]; omega
  have hfuel : text.length + 1 = (post.length + mid.length + 1 + 1) + pre.length := by omega
  rw [Process, hfuel,
    ProcessLoop_skip_none D text _ 0 w pre.length (post.length + mid.length + 1 + 1) 0 (by omega)]
  · have hc : text[0 + pre.length]? = some c := by
      rw [htext, Nat.zero_add, List.getElem?_append_right (le_refl _), Nat.sub_self]
      simp
    have hdrop : text.drop (0 + pre.length) = c :: mid ++ post := by
      simp [htext]
    have hpc : previousCharAt text (0 + pre.length) = pre.getLastD 0 := by
      rw [Nat.zero_add]; exact previousCharAt_append pre _
    rw [ProcessLoop_step_some D text (post.length + mid.length + 1) (0 + pre.length) 0 r r' w
      tmp mid.length c a hc hcb (Nat.zero_le _)]
    · rw [ProcessLoop_passthrough D text r' (pre.length + (mid.length + 1))]
      · have h1 : 0 + pre.length + mid.length + 1 = pre.length + (mid.length + 1) := by omega
        have h2 : text.drop (pre.length + (mid.length + 1)) = post := by
          have : text = (pre ++ (c :: mid)) ++ post := by simp [htext]
          rw [this, List.drop_left' (by simp)]
        have h3 : List.drop 0 (List.take (0 + pre.length) text) = pre := by
          simp [htext]
        rw [h1, h2, h3]
      · intro i x b hi hxi hcbi
        exfalso
        have hmem : x ∈ post := by
          have h2 : text = (pre ++ (c :: mid)) ++ post := by simp [htext]
          have h3 : (pre ++ (c :: mid)).length = pre.length + (mid.length + 1) := by simp
          rw [h2, List.getElem?_append_right (by omega)] at hxi
          exact mem_of_getElem_some hxi
        rw [hpost x hmem] at hcbi
        exact Option.noConfusion hcbi
      · omega
      · omega
      · omega
      · omega
    · intro h0
      rw [hpc]
      simp only [hdrop]
      exact hcall _
  · intro j x _ hj hxj
    have hmem : x ∈ pre := by
      rw [List.getElem?_append_left (by omega)] at hxj
      exact mem_of_getElem_some hxj
    exact hpre x hmem

theorem Process_no_handler (D : Decls) (r : MultiverseRenderer) (w text : List Nat)
    (h : ∀ c ∈ text, r.callbacks c = none) :
    Process D r w text = Except.ok (r, w ++ text) := by
  apply Process_passthrough
  intro i c a hc hcb
  rw [h c (mem_of_getElem_some hc)] at hcb
  exact Option.noConfusion hcb

/-- The letters in terms of their codes. -/
theorem isalpha_iff (c : Nat) : isalpha c = true ↔ (65 ≤ c ∧ c ≤ 90) ∨ (97 ≤ c ∧ c ≤ 122) := by
  simp [isalpha]

/-- No letter has a handler, whatever the flags. -/
theorem letter_no_callback (D : Decls) (flags : Nat) (s q : Bool) (c : Nat)
    (hc : isalpha c = true) : (engineWith D flags s q).callbacks c = none := by
  rw [isalpha_iff] at hc
  rw [engineWith_callbacks, NewMultiverseRenderer_callbacks]
  have h1 : c ≠ 96 := by omega
  have h2 : c ≠ 60 := by omega
  have h3 : c ≠ 46 := by omega
  have h4 : c ≠ 45 := by omega
  have h5 : c ≠ 40 := by omega
  have h6 : c ≠ 39 := by omega
  have h7 : c ≠ 38 := by omega
  have h8 : c ≠ 34 := by omega
  have h9 : ¬ (49 ≤ c ∧ c ≤ 57 ∧ hasFlag flags D.MultiverseFractions = true) := by omega
  have h10 : ¬ ((c = 49 ∨ c = 51) ∧ hasFlag flags D.MultiverseFractions = false) := by omega
  simp only [h1, h2, h3, h4, h5, h6, h7, h8, h9, h10, if_false, false_and]

/-- Under the fixed-set fraction setting the digits other than 1 and 3 have no
handler. -/
theorem other_digit_no_callback (D : Decls) (flags : Nat) (s q : Bool) (c : Nat)
    (hf : hasFlag flags D.MultiverseFractions = false) (hc : isdigit c = true)
    (h49 : c ≠ 49) (h51 : c ≠ 51) : (engineWith D flags s q).callbacks c = none := by
  rw [isdigit_iff] at hc
  rw [engineWith_callbacks, NewMultiverseRenderer_callbacks]
  have h1 : c ≠ 96 := by omega
  have h2 : c ≠ 60 := by omega
  have h3 : c ≠ 46 := by omega
  have h4 : c ≠ 45 := by omega
  have h5 : c ≠ 40 := by omega
  have h6 : c ≠ 39 := by omega
  have h7 : c ≠ 38 := by omega
  have h8 : c ≠ 34 := by omega
  simp [h1, h2, h3, h4, h5, h6, h7, h8, h49, h51, hf]

/-- C16: for every flag set and engine state, a text none of whose bytes has a
handler installed is written unchanged by `Process`, and the engine (both quote
flags and the dispatch table) is returned as it was. Bytes without a handler
are `-` when dash conversion is off, the digits other than 1 and 3 under the
fixed-set fraction setting, and every ASCII letter under any flag set. -/
theorem no_handler_text_unchanged (D : Decls) (flags : Nat) (s q : Bool) (w text : List Nat)
    (h : ∀ c ∈ text, (engineWith D flags s q).callbacks c = none) :
    Process D (engineWith D flags s q) w text = Except.ok (engineWith D flags s q, w ++ text) ∧
    (hasFlag flags D.MultiverseDashes = false → (engineWith D flags s q).callbacks 45 = none) ∧
    (hasFlag flags D.MultiverseFractions = false →
      ∀ c, isdigit c = true → c ≠ 49 → c ≠ 51 → (engineWith D flags s q).callbacks c = none) ∧
    (∀ c, isalpha c = true → (engineWith D flags s q).callbacks c = none) := by
  refine ⟨Process_no_handler D _ w text h, ?_, ?_, ?_⟩
  · intro hd
    simp [engineWith_callbacks, NewMultiverseRenderer_callbacks, hd]
  · intro hf c hc h49 h51
    exact other_digit_no_callback D flags s q c hf hc h49 h51
  · intro c hc
    exact letter_no_callback D flags s q c hc

/-- C16, at the text `ab-2` with the ASCII classes and no flag set. -/
theorem no_handler_text_witness :
    (∀ c ∈ str "ab-2", (engineWith ascii 0 false true).callbacks c = none) ∧
    Process ascii (engineWith ascii 0 false true) [] (str "ab-2")
      = Except.ok (engineWith ascii 0 false true, [] ++ str "ab-2") :=
  ⟨by decide, (no_handler_text_unchanged ascii 0 false true [] (str "ab-2") (by decide)).1⟩

/-! ## Raw markup -/

/-- The left-angle handler on `<` body `>` rest, when the body holds no `>`:
everything up to and including the `>` is written, and the count is the index
of the `>`. -/
theorem multiverseLeftAngle_closed (r : MultiverseRenderer) (out body rest : List Nat)
    (hbody : ∀ x ∈ body, x ≠ 62) :
    multiverseLeftAngle r out (60 :: (body ++ [62]) ++ rest)
      = Except.ok (r, out ++ (60 :: (body ++ [62])), (body ++ [62]).length) := by
  have hscan : scanWhile (fun c => c != 62) (60 :: (body ++ [62]) ++ rest) 0
      = body.length + 1 := by
    have h := scanWhile_append (fun c => c != 62) [] (60 :: body) (62 :: rest)
      (by
        intro x hx
        rcases List.mem_cons.mp hx with h | h
        · subst h; decide
        · simpa using hbody x h)
      (by intro y hy; simp at hy; subst hy; decide)
    simpa using h
  unfold multiverseLeftAngle
  simp only [hscan]
  rw [slice_eq _ _ _ (Nat.zero_le _) (by simp)]
  have htake : List.take (body.length + 1 + 1) (60 :: (body ++ [62]) ++ rest)
      = 60 :: (body ++ [62]) := by
    have : 60 :: (body ++ [62]) ++ rest = (60 :: (body ++ [62])) ++ rest := rfl
    rw [this, List.take_left' (by simp)]
  simp only [List.drop_zero, htake, List.length_append, List.length_singleton]

/-- C12: for every flag set, every engine state and every body without `>`,
`Process` on `<` body `>` writes exactly `<` body `>` and returns the engine
unchanged, so both quote flags are as before; the handler copies every byte up
to and including the first `>` whatever follows it, and with a remainder after
the `>` the loop goes on at the first byte of the remainder, with nothing
pending. -/
theorem left_angle_copied_verbatim (D : Decls) (flags : Nat) (s q : Bool)
    (w body rest : List Nat) (hbody : ∀ x ∈ body, x ≠ 62) :
    Process D (engineWith D flags s q) w (60 :: (body ++ [62]))
      = Except.ok (engineWith D flags s q, w ++ (60 :: (body ++ [62]))) ∧
    multiverseLeftAngle (engineWith D flags s q) [] (60 :: (body ++ [62]) ++ rest)
      = Except.ok (engineWith D flags s q, 60 :: (body ++ [62]), body.length + 1) ∧
    Process D (engineWith D flags s q) w (60 :: (body ++ [62]) ++ rest)
      = ProcessLoop D (60 :: (body ++ [62]) ++ rest) (body.length + 2 + rest.length)
          (body.length + 2) (body.length + 2) (engineWith D flags s q)
          (w ++ (60 :: (body ++ [62]))) := by
  have hcb : (engineWith D flags s q).callbacks 60 = some multiverseCallback.leftAngle := by
    rw [engineWith_callbacks, NewMultiverseRenderer_callbacks]; simp
  refine ⟨?_, ?_, ?_⟩
  · have h := Process_single_trigger D (engineWith D flags s q) (engineWith D flags s q) w []
      (body ++ [62]) [] (60 :: (body ++ [62])) 60 multiverseCallback.leftAngle
      (by intro x hx; cases hx) (by intro x hx; cases hx) hcb
      (by
        intro h0
        have := multiverseLeftAngle_closed (engineWith D flags s q) [] body [] hbody
        simpa [multiverseCallback.call] using this)
    simpa using h
  · have := multiverseLeftAngle_closed (engineWith D flags s q) [] body rest hbody
    simpa using this
  · have hlen : (60 :: (body ++ [62]) ++ rest).length = body.length + 2 + rest.length := by
      simp; omega
    rw [Process, hlen,
      ProcessLoop_step_some D _ (body.length + 2 + rest.length) 0 0 _ (engineWith D flags s q) w
        (60 :: (body ++ [62])) (body.length + 1) 60 multiverseCallback.leftAngle (by simp) hcb
        (le_refl _)
        (by
          intro h0
          have := multiverseLeftAngle_closed (engineWith D flags s q) [] body rest hbody
          simpa [multiverseCallback.call, previousCharAt] using this)]
    simp

/-- C12, at a tag whose attribute holds quotes and dashes, with dash conversion
on; after a tag the dashes are converted again. -/
theorem left_angle_witness :
    (∀ x ∈ str "a b='c--d'", x ≠ 62) ∧
    60 :: (str "a b='c--d'" ++ [62]) = str "<a b='c--d'>" ∧
    Process ascii (engineWith ascii 2 true false) [] (60 :: (str "a b='c--d'" ++ [62]))
      = Except.ok (engineWith ascii 2 true false, [] ++ (60 :: (str "a b='c--d'" ++ [62]))) ∧
    written (Process ascii (NewMultiverseRenderer ascii 2) [] (str "<a-->--"))
      = some (str "<a-->&mdash;") :=
  ⟨by decide, by decide,
    (left_angle_copied_verbatim ascii 2 true false [] (str "a b='c--d'") [] (by decide)).1,
    by decide⟩

/-! ## Periods -/

/-- The period handler computes the case table. -/
theorem multiversePeriod_eq (r : MultiverseRenderer) (out text : List Nat)
    (h0 : 0 < text.length) :
    multiversePeriod r out text h0
      = (r, out ++ (periodRewrite text).1, (periodRewrite text).2) := by
  match text, h0 with
  | [p], _ => simp [multiversePeriod, periodRewrite]
  | [p, a], _ => simp [multiversePeriod, periodRewrite]
  | p :: a :: b :: rest, _ =>
    by_cases h1 : a = 46 ∧ b = 46
    · simp [multiversePeriod, periodRewrite, h1.1, h1.2]
    · match rest with
      | [] => simp [multiversePeriod, periodRewrite, h1]
      | [x] => simp [multiversePeriod, periodRewrite, h1]
      | x :: y :: rest =>
        by_cases h2 : a = 32 ∧ b = 46 ∧ x = 32 ∧ y = 46
        · obtain ⟨ha, hb, hx, hy⟩ := h2
          subst ha hb hx hy
          simp [multiversePeriod, periodRewrite]
        · have h2' : ¬ (a = 32 ∧ b = 46 ∧ x = 32 ∧ y = 46) := h2
          simp only [multiversePeriod, periodRewrite, h1, if_false, List.take_succ_cons,
            List.take_zero, List.cons.injEq, and_true]
          simp [h1, h2', and_assoc]

/-- C15: for every flag set the period handler is installed for `.`; on every
text it agrees with the case table `periodRewrite` (`...` gives `&hellip;` and
the count 2, so three bytes are consumed; `. . .` gives `&hellip;` and the
count 4, so five bytes are consumed; anything else gives the `.` alone), and
`Process` maps `a...b` and `a. . .b` to `a&hellip;b` and `a..b` to itself,
leaving the engine unchanged. -/
theorem period_ellipsis (D : Decls) (flags : Nat) (s q : Bool) (w : List Nat)
    (r : MultiverseRenderer) (out text : List Nat) (h0 : 0 < text.length) :
    (engineWith D flags s q).callbacks 46 = some multiverseCallback.period ∧
    multiversePeriod r out text h0
      = (r, out ++ (periodRewrite text).1, (periodRewrite text).2) ∧
    Process D (engineWith D flags s q) w (str "a...b")
      = Except.ok (engineWith D flags s q, w ++ str "a&hellip;b") ∧
    Process D (engineWith D flags s q) w (str "a. . .b")
      = Except.ok (engineWith D flags s q, w ++ str "a&hellip;b") ∧
    Process D (engineWith D flags s q) w (str "a..b")
      = Except.ok (engineWith D flags s q, w ++ str "a..b") := by
  refine ⟨?_, multiversePeriod_eq r out text h0, ?_, ?_, ?_⟩
  · simp [engineWith_callbacks, NewMultiverseRenderer_callbacks]
  all_goals
    simp [Process, str, ProcessLoop_succ, ProcessLoop_exit, engineWith_callbacks,
      NewMultiverseRenderer_callbacks, multiverseCallback.call, multiversePeriod,
      previousCharAt]

/-- C15, at the text `. . .x`, with the case table on the three shapes. -/
theorem period_ellipsis_witness :
    0 < (str ". . .x").length ∧
    multiversePeriod (engineWith ascii 0 false false) [] (str ". . .x") (by decide)
      = (engineWith ascii 0 false false, [] ++ (periodRewrite (str ". . .x")).1,
          (periodRewrite (str ". . .x")).2) ∧
    periodRewrite (str ". . .x") = (str "&hellip;", 4) ∧
    periodRewrite (str "...x") = (str "&hellip;", 2) ∧
    periodRewrite (str ". ..x") = ([46], 0) :=
  ⟨by decide,
    (period_ellipsis ascii 0 false false [] (engineWith ascii 0 false false) [] (str ". . .x")
      (by decide)).2.1,
    by decide, by decide, by decide⟩

/-! ## Contractions -/

/-- C14: for every previous byte and engine state, the single-quote handler on
`'` followed by one of s, t, m, d (in either case) and then the end of the text
or a word boundary, and on `'` followed by one of re, ll, ve (in either case)
and then the end of the text or a word boundary, writes `&rsquo;`, returns the
count 0 (only the quote byte is consumed) and returns the engine as it was, so
neither quote flag changes. -/
theorem contraction_right_quote (D : Decls) (r : MultiverseRenderer) (out : List Nat)
    (previousChar c a b : Nat) (rest : List Nat)
    (hone : tolower c = 115 ∨ tolower c = 116 ∨ tolower c = 109 ∨ tolower c = 100)
    (htwo : (tolower a = 114 ∧ tolower b = 101) ∨ (tolower a = 108 ∧ tolower b = 108)
      ∨ (tolower a = 118 ∧ tolower b = 101))
    (hend : endOrBoundary D rest = true) :
    multiverseSingleQuote D r out previousChar (39 :: c :: rest) (by simp)
      = (r, out ++ str "&rsquo;", 0) ∧
    multiverseSingleQuote D r out previousChar (39 :: a :: b :: rest) (by simp)
      = (r, out ++ str "&rsquo;", 0) := by
  constructor
  · have h39 : (tolower c == 39) = false := by
      rcases hone with h | h | h | h <;> rw [h] <;> rfl
    have hs : (tolower c == 115 || tolower c == 116 || tolower c == 109 || tolower c == 100)
        = true := by
      rcases hone with h | h | h | h <;> rw [h] <;> rfl
    cases rest with
    | nil => simp [multiverseSingleQuote, multiverseSingleQuoteContraction, h39, hs]
    | cons y rest =>
      have hy : wordBoundary D y = true := hend
      simp [multiverseSingleQuote, multiverseSingleQuoteContraction, h39, hs, hy]
  · have h39 : (tolower a == 39) = false := by
      rcases htwo with h | h | h <;> rw [h.1] <;> rfl
    have hs : (tolower a == 115 || tolower a == 116 || tolower a == 109 || tolower a == 100)
        = false := by
      rcases htwo with h | h | h <;> rw [h.1] <;> rfl
    have ht : ((tolower a == 114 && tolower b == 101) || (tolower a == 108 && tolower b == 108)
        || (tolower a == 118 && tolower b == 101)) = true := by
      rcases htwo with h | h | h <;> rw [h.1, h.2] <;> rfl
    cases rest with
    | nil => simp [multiverseSingleQuote, multiverseSingleQuoteContraction, h39, hs, ht]
    | cons y rest =>
      have hy : wordBoundary D y = true := hend
      simp [multiverseSingleQuote, multiverseSingleQuoteContraction, h39, hs, ht, hy]

/-- C14, at the contractions `'S` and `'rE` before a space. -/
theorem contraction_witness :
    (tolower 83 = 115 ∨ tolower 83 = 116 ∨ tolower 83 = 109 ∨ tolower 83 = 100) ∧
    ((tolower 114 = 114 ∧ tolower 69 = 101) ∨ (tolower 114 = 108 ∧ tolower 69 = 108)
      ∨ (tolower 114 = 118 ∧ tolower 69 = 101)) ∧
    endOrBoundary ascii (str " x") = true ∧
    multiverseSingleQuote ascii (engineWith ascii 0 true true) [] 97 (39 :: 83 :: str " x")
        (by simp)
      = (engineWith ascii 0 true true, [] ++ str "&rsquo;", 0) ∧
    multiverseSingleQuote ascii (engineWith ascii 0 true true) [] 97
        (39 :: 114 :: 69 :: str " x") (by simp)
      = (engineWith ascii 0 true true, [] ++ str "&rsquo;", 0) :=
  ⟨by decide, by decide, by decide,
    contraction_right_quote ascii (engineWith ascii 0 true true) [] 97 83 114 69 (str " x")
      (by decide) (by decide) (by decide)⟩

/-! ## Ampersands -/

/-- The bytes of `&quot;`. -/
theorem str_quot : str "&quot;" = [38, 113, 117, 111, 116, 59] := by decide

/-- The bytes of the null entity. -/
theorem str_null : str "&#0;" = [38, 35, 48, 59] := by decide

/-- The ampersand handler on `&quot;`: the quote heuristic, and the count 5. -/
theorem multiverseAmp_quot (D : Decls) (angledQuotes addNBSP : Bool) (r : MultiverseRenderer)
    (out : List Nat) (previousChar : Nat) (rest : List Nat) :
    multiverseAmp D angledQuotes addNBSP r out previousChar (str "&quot;" ++ rest)
      = ({ r with inDoubleQuote :=
            (multiverseQuoteHelper D out previousChar (rest.headD 0)
              (if angledQuotes then 97 else 100) r.inDoubleQuote addNBSP).2.1 },
         (multiverseQuoteHelper D out previousChar (rest.headD 0)
              (if angledQuotes then 97 else 100) r.inDoubleQuote addNBSP).1, 5) := by
  cases rest <;>
    simp [multiverseAmp, multiverseAmpVariant, str_quot, List.isPrefixOf,
      multiverseQuoteHelper_result]

/-- The ampersand handler on the null entity: nothing written, the count 3. -/
theorem multiverseAmp_null (D : Decls) (angledQuotes addNBSP : Bool) (r : MultiverseRenderer)
    (out : List Nat) (previousChar : Nat) (rest : List Nat) :
    multiverseAmp D angledQuotes addNBSP r out previousChar (str "&#0;" ++ rest)
      = (r, out, 3) := by
  simp [multiverseAmp, multiverseAmpVariant, str_quot, str_null, List.isPrefixOf]

/-- The ampersand handler on any other text: a literal `&`. -/
theorem multiverseAmp_other (D : Decls) (angledQuotes addNBSP : Bool) (r : MultiverseRenderer)
    (out : List Nat) (previousChar : Nat) (text : List Nat)
    (h1 : (str "&quot;").isPrefixOf text = false) (h2 : (str "&#0;").isPrefixOf text = false) :
    multiverseAmp D angledQuotes addNBSP r out previousChar text = (r, out ++ [38], 0) := by
  simp [multiverseAmp, multiverseAmpVariant, h1, h2]

/-- The three results of the quote heuristic at once. -/
theorem multiverseQuoteHelper_eq (D : Decls) (out : List Nat) (p n quote : Nat) (b nb : Bool) :
    multiverseQuoteHelper D out p n quote b nb
      = (out ++ (if nb && !(specFlag D p n b) then str "&nbsp;" else [])
          ++ quoteEntity quote (specFlag D p n b)
          ++ (if nb && specFlag D p n b then str "&nbsp;" else []),
         specFlag D p n b, true) :=
  Prod.ext (multiverseQuoteHelper_out D out p n quote b nb)
    (Prod.ext (multiverseQuoteHelper_flag D out p n quote b nb)
      (multiverseQuoteHelper_result D out p n quote b nb))

/-- The entities of the two double-quote families. -/
theorem quoteEntity_eq :
    quoteEntity 100 true = str "&ldquo;" ∧ quoteEntity 100 false = str "&rdquo;" ∧
    quoteEntity 97 true = str "&laquo;" ∧ quoteEntity 97 false = str "&raquo;" := by
  decide

/-- `Process` on `&quot;a&quot;` under any flag set, when `a` is an ordinary
byte. -/
theorem Process_quot_pair (D : Decls) (flags : Nat) (s q : Bool) (w : List Nat)
    (hsp : D.isspace 97 = false) (hpu : D.ispunct 97 = false) :
    Process D (engineWith D flags s q) w (str "&quot;a&quot;")
      = Except.ok (engineWith D flags s false,
          w ++ quoteEntity (doubleQuoteFamily D flags) true
            ++ (if hasFlag flags D.MultiverseQuotesNBSP then str "&nbsp;" else [])
            ++ [97]
            ++ (if hasFlag flags D.MultiverseQuotesNBSP then str "&nbsp;" else [])
            ++ quoteEntity (doubleQuoteFamily D flags) false) := by
  cases hn : hasFlag flags D.MultiverseQuotesNBSP <;>
  simp [Process, str, ProcessLoop_succ, ProcessLoop_exit, engineWith_callbacks,
      NewMultiverseRenderer_callbacks, multiverseCallback.call, multiverseAmp,
      multiverseAmpVariant, List.isPrefixOf, previousCharAt, multiverseQuoteHelper_eq,
      specFlag, classify, quotePolicy, applyPolicy, hsp, hpu, engineWith, hn,
      doubleQuoteFamily]

/-- C13: for every flag set the ampersand handler is installed for `&`, with
the angled-quotes and NBSP settings of the flag set. For every previous byte,
engine state and text: on a text starting with `&quot;` it returns the output
and the double-quote flag of the quote heuristic applied to the previous byte
and the byte after the `;` (0 at the end of the text) with family `d`, or `a`
with angled quotes, and the count 5 (six bytes consumed); on a text starting
with the null entity it writes nothing and returns 3 (four bytes consumed); on
any other text it writes `&` and returns 0. `Process` maps `&quot;a&quot;` to
the opening entity, `a` and the closing entity of the family, with `&nbsp;` on
the inner sides under the NBSP flag, so to `&ldquo;a&rdquo;` when the
angled-quotes and NBSP flags are clear; under any flag set it maps `a` null
entity `b` to `ab` and `a & b` to itself. The byte `a` is taken to be neither
whitespace nor punctuation. -/
theorem ampersand_handler (D : Decls) (flags : Nat) (s q : Bool) (w : List Nat)
    (angledQuotes addNBSP : Bool) (r : MultiverseRenderer) (out : List Nat)
    (previousChar : Nat) (rest text : List Nat)
    (hsp : D.isspace 97 = false) (hpu : D.ispunct 97 = false)
    (h1 : (str "&quot;").isPrefixOf text = false) (h2 : (str "&#0;").isPrefixOf text = false) :
    (engineWith D flags s q).callbacks 38
      = some (multiverseCallback.amp (hasFlag flags D.MultiverseAngledQuotes)
          (hasFlag flags D.MultiverseQuotesNBSP)) ∧
    multiverseAmp D angledQuotes addNBSP r out previousChar (str "&quot;" ++ rest)
      = ({ r with inDoubleQuote :=
            (multiverseQuoteHelper D out previousChar (rest.headD 0)
              (if angledQuotes then 97 else 100) r.inDoubleQuote addNBSP).2.1 },
         (multiverseQuoteHelper D out previousChar (rest.headD 0)
              (if angledQuotes then 97 else 100) r.inDoubleQuote addNBSP).1, 5) ∧
    multiverseAmp D angledQuotes addNBSP r out previousChar (str "&#0;" ++ rest)
      = (r, out, 3) ∧
    multiverseAmp D angledQuotes addNBSP r out previousChar text = (r, out ++ [38], 0) ∧
    Process D (engineWith D flags s q) w (str "&quot;a&quot;")
      = Except.ok (engineWith D flags s false,
          w ++ quoteEntity (doubleQuoteFamily D flags) true
            ++ (if hasFlag flags D.MultiverseQuotesNBSP then str "&nbsp;" else [])
            ++ [97]
            ++ (if hasFlag flags D.MultiverseQuotesNBSP then str "&nbsp;" else [])
            ++ quoteEntity (doubleQuoteFamily D flags) false) ∧
    (hasFlag flags D.MultiverseAngledQuotes = false →
      hasFlag flags D.MultiverseQuotesNBSP = false →
      Process D (engineWith D flags s q) w (str "&quot;a&quot;")
        = Except.ok (engineWith D flags s false, w ++ str "&ldquo;a&rdquo;")) ∧
    Process D (engineWith D flags s q) w (str "a&#0;b")
      = Except.ok (engineWith D flags s q, w ++ str "ab") ∧
    Process D (engineWith D flags s q) w (str "a & b")
      = Except.ok (engineWith D flags s q, w ++ str "a & b") := by
  refine ⟨?_, multiverseAmp_quot D angledQuotes addNBSP r out previousChar rest,
    multiverseAmp_null D angledQuotes addNBSP r out previousChar rest,
    multiverseAmp_other D angledQuotes addNBSP r out previousChar text h1 h2,
    Process_quot_pair D flags s q w hsp hpu, ?_, ?_, ?_⟩
  · simp [engineWith_callbacks, NewMultiverseRenderer_callbacks]
  · intro ha hn
    rw [Process_quot_pair D flags s q w hsp hpu, hn]
    simp [doubleQuoteFamily, ha, quoteEntity, str]
  · simp [Process, str, ProcessLoop_succ, ProcessLoop_exit, engineWith_callbacks,
      NewMultiverseRenderer_callbacks, multiverseCallback.call, multiverseAmp,
      multiverseAmpVariant, List.isPrefixOf, previousCharAt]
  · simp [Process, str, ProcessLoop_succ, ProcessLoop_exit, engineWith_callbacks,
      NewMultiverseRenderer_callbacks, multiverseCallback.call, multiverseAmp,
      multiverseAmpVariant, List.isPrefixOf, previousCharAt]

/-- C13, at the text `&amp;` and at `&quot;a&quot;` with only the dash flag set. -/
theorem ampersand_witness :
    ascii.isspace 97 = false ∧ ascii.ispunct 97 = false ∧
    (str "&quot;").isPrefixOf (str "&amp;") = false ∧
    (str "&#0;").isPrefixOf (str "&amp;") = false ∧
    multiverseAmp ascii false false (engineWith ascii 2 true true) [] 32 (str "&amp;")
      = (engineWith ascii 2 true true, [] ++ [38], 0) ∧
    hasFlag 2 ascii.MultiverseAngledQuotes = false ∧
    hasFlag 2 ascii.MultiverseQuotesNBSP = false ∧
    Process ascii (engineWith ascii 2 true true) [] (str "&quot;a&quot;")
      = Except.ok (engineWith ascii 2 true false, [] ++ str "&ldquo;a&rdquo;") :=
  ⟨by decide, by decide, by decide, by decide,
    (ampersand_handler ascii 2 true true [] false false (engineWith ascii 2 true true) [] 32 []
      (str "&amp;") (by decide) (by decide) (by decide) (by decide)).2.2.2.1,
    by decide, by decide,
    (ampersand_handler ascii 2 true true [] false false (engineWith ascii 2 true true) [] 32 []
      (str "&amp;") (by decide) (by decide) (by decide) (by decide)).2.2.2.2.2.1
      (by decide) (by decide)⟩

/-! ## Double quotes around a word -/

/-- Either handler of `"`: the quote heuristic without `&nbsp;`, and the count 0. -/
theorem doubleQuote_call (D : Decls) (flags : Nat) (s q : Bool) (a : multiverseCallback)
    (hcb : (engineWith D flags s q).callbacks 34 = some a) (r : MultiverseRenderer)
    (out : List Nat) (previousChar : Nat) (text : List Nat) (h0 : 0 < text.length) :
    a.call D r out previousChar text h0
      = Except.ok ({ r with inDoubleQuote :=
            (specFlag D previousChar (text.getD 1 0) r.inDoubleQuote) },
          out ++ quoteEntity (doubleQuoteFamily D flags)
            (specFlag D previousChar (text.getD 1 0) r.inDoubleQuote), 0) := by
  rw [engineWith_callbacks, NewMultiverseRenderer_callbacks] at hcb
  have hnext : (if h : text.length > 1 then text[1] else 0) = text.getD 1 0 := by
    by_cases h : text.length > 1
    · simp [h, List.getD_eq_getElem?_getD, List.getElem?_eq_getElem h]
    · simp [h, List.getD_eq_getElem?_getD, List.getElem?_eq_none (by omega : text.length ≤ 1)]
  cases ha : hasFlag flags D.MultiverseAngledQuotes <;> simp [ha] at hcb <;> subst hcb <;>
    simp [multiverseCallback.call, multiverseDoubleQuote, multiverseAngledDoubleQuote,
      multiverseDoubleQuoteVariant, hnext, quoteHelper_flag_out, doubleQuoteFamily, ha]

/-- At the start of the text before an ordinary byte a quote opens. -/
theorem specFlag_open (D : Decls) (c : Nat) (b : Bool) (h0 : c ≠ 0)
    (h1 : D.isspace c = false) (h2 : D.ispunct c = false) : specFlag D 0 c b = true := by
  simp [specFlag, classify, quotePolicy, applyPolicy, h0, h1, h2]

/-- After an ordinary byte at the end of the text a quote closes. -/
theorem specFlag_close (D : Decls) (c : Nat) (b : Bool) (h0 : c ≠ 0)
    (h1 : D.isspace c = false) (h2 : D.ispunct c = false) : specFlag D c 0 b = false := by
  simp [specFlag, classify, quotePolicy, applyPolicy, h0, h1, h2]

/-- `Process` on a word of letters between two `"`. -/
theorem Process_double_quoted (D : Decls) (flags : Nat) (s q : Bool) (w word : List Nat)
    (hword : word ≠ []) (hletters : ∀ c ∈ word, isalpha c = true)
    (hD : ∀ c, isalpha c = true → D.isspace c = false ∧ D.ispunct c = false) :
    Process D (engineWith D flags s q) w (34 :: (word ++ [34]))
      = Except.ok (engineWith D flags s false,
          w ++ quoteEntity (doubleQuoteFamily D flags) true ++ word
            ++ quoteEntity (doubleQuoteFamily D flags) false) := by
  obtain ⟨a, hcb⟩ : ∃ a, (engineWith D flags s q).callbacks 34 = some a := by
    rw [engineWith_callbacks, NewMultiverseRenderer_callbacks]
    simp
  have hne0 : ∀ c, isalpha c = true → c ≠ 0 := by
    intro c hc; rw [isalpha_iff] at hc; omega
  set text := 34 :: (word ++ [34]) with htext
  have hlen : text.length = word.length + 2 := by simp [htext]
  -- the first quote
  obtain ⟨x, word', hw⟩ := List.exists_cons_of_ne_nil hword
  have hx : isalpha x = true := hletters x (by rw [hw]; simp)
  have hnext0 : (List.drop 0 text).getD 1 0 = x := by simp [htext, hw]
  have hfuel : text.length + 1 = (word.length + 2) + 1 := by omega
  rw [Process, hfuel,
    ProcessLoop_step_some D text (word.length + 2) 0 0 _ (engineWith D flags s true) w
      (quoteEntity (doubleQuoteFamily D flags) true) 0 34 a (by simp [htext]) hcb (le_refl _)
      (by
        intro h0
        rw [doubleQuote_call D flags s q a hcb]
        have hp : previousCharAt text 0 = 0 := rfl
        rw [hp, hnext0, specFlag_open D x _ (hne0 x hx) (hD x hx).1 (hD x hx).2]
        simp [engineWith])]
  -- the word
  have hfuel2 : word.length + 2 = 2 + word.length := by omega
  rw [hfuel2, ProcessLoop_skip_none D text (engineWith D flags s true) (0 + 0 + 1) _
    word.length 2 (0 + 0 + 1) (by omega)
    (by
      intro j c hj1 hj2 hc
      have hmem : c ∈ word := by
        have h1 : text = [34] ++ (word ++ [34]) := rfl
        rw [h1, List.getElem?_append_right (by simp; omega),
          List.getElem?_append_left (by simp; omega)] at hc
        exact mem_of_getElem_some hc
      exact letter_no_callback D flags s true c (hletters c hmem))]
  -- the second quote
  have hi : 0 + 0 + 1 + word.length = ([34] ++ word).length := by simp; omega
  have hc2 : text[0 + 0 + 1 + word.length]? = some 34 := by
    have h1 : text = ([34] ++ word) ++ [34] := by simp [htext]
    rw [h1, hi, List.getElem?_append_right (le_refl _)]
    simp
  have hlast : isalpha (word.getLastD 0) = true := by
    rw [List.getLastD_eq_getLast?, List.getLast?_eq_getLast _ hword]
    exact hletters _ (List.getLast_mem hword)
  have hprev : previousCharAt text (0 + 0 + 1 + word.length) = word.getLastD 0 := by
    have h1 : text = ([34] ++ word) ++ [34] := by simp [htext]
    rw [h1, hi, previousCharAt_append]
    rw [List.getLastD_eq_getLast?, List.getLast?_append, List.getLastD_eq_getLast?]
    simp [List.getLast?_eq_getLast _ hword]
  have hdrop : text.drop (0 + 0 + 1 + word.length) = [34] := by
    have h1 : text = ([34] ++ word) ++ [34] := by simp [htext]
    rw [h1, hi, List.drop_left]
  rw [ProcessLoop_step_some D text 1 (0 + 0 + 1 + word.length) (0 + 0 + 1)
      (engineWith D flags s true) (engineWith D flags s false) _
      (quoteEntity (doubleQuoteFamily D flags) false) 0 34 a hc2 hcb (by omega)
      (by
        intro h0
        rw [doubleQuote_call D flags s q a hcb]
        simp only [hprev, hdrop]
        have hn : ([34] : List Nat).getD 1 0 = 0 := rfl
        rw [hn, specFlag_close D _ _ (hne0 _ hlast) (hD _ hlast).1 (hD _ hlast).2]
        simp [engineWith])]
  rw [ProcessLoop_exit D text 0 _ _ _ _ (by omega)]
  have htake : List.drop (0 + 0 + 1) (List.take (0 + 0 + 1 + word.length) text) = word := by
    have h1 : text = ([34] ++ word) ++ [34] := by simp [htext]
    rw [h1, hi, List.take_left]
    simp
  have hdrop2 : List.drop (0 + 0 + 1 + word.length + 0 + 1) text = [] := by
    apply List.drop_eq_nil_of_le; omega
  simp [htake, hdrop2]

/-- The ASCII letters are neither whitespace nor punctuation in the ASCII
classes. -/
theorem ascii_letter_ordinary (c : Nat) (hc : isalpha c = true) :
    ascii.isspace c = false ∧ ascii.ispunct c = false := by
  rw [isalpha_iff] at hc
  simp only [ascii, asciiSpace, asciiPunct, Bool.or_eq_false_iff,
    beq_eq_false_iff_ne, Bool.and_eq_false_iff, decide_eq_false_iff_not]
  omega

/-- C20: for every flag set, every prior engine state and every non-empty word
of ASCII letters, `Process` on `"` word `"` writes the opening double-quote
entity of the family, the word and the closing entity, with no `&nbsp;`
whatever the NBSP flag, and returns the engine with the double-quote flag
closed and the single-quote flag as it was: `&ldquo;` word `&rdquo;` without
the angled-quotes flag, `&laquo;` word `&raquo;` with it. The letters are taken
to be neither whitespace nor punctuation. -/
theorem double_quoted_word (D : Decls) (flags : Nat) (s q : Bool) (w word : List Nat)
    (hword : word ≠ []) (hletters : ∀ c ∈ word, isalpha c = true)
    (hD : ∀ c, isalpha c = true → D.isspace c = false ∧ D.ispunct c = false) :
    Process D (engineWith D flags s q) w (34 :: (word ++ [34]))
      = Except.ok (engineWith D flags s false,
          w ++ quoteEntity (doubleQuoteFamily D flags) true ++ word
            ++ quoteEntity (doubleQuoteFamily D flags) false) ∧
    (hasFlag flags D.MultiverseAngledQuotes = false →
      Process D (engineWith D flags s q) w (34 :: (word ++ [34]))
        = Except.ok (engineWith D flags s false,
            w ++ str "&ldquo;" ++ word ++ str "&rdquo;")) ∧
    (hasFlag flags D.MultiverseAngledQuotes = true →
      Process D (engineWith D flags s q) w (34 :: (word ++ [34]))
        = Except.ok (engineWith D flags s false,
            w ++ str "&laquo;" ++ word ++ str "&raquo;")) := by
  have h := Process_double_quoted D flags s q w word hword hletters hD
  refine ⟨h, ?_, ?_⟩
  · intro ha
    rw [h, doubleQuoteFamily, ha]
    simp only [Bool.false_eq_true, if_false, quoteEntity_eq.1, quoteEntity_eq.2.1]
  · intro ha
    rw [h, doubleQuoteFamily, ha]
    simp only [if_true, quoteEntity_eq.2.2.1, quoteEntity_eq.2.2.2]

/-- C20, at the word `hi` with the NBSP flag, and with the angled-quotes flag as
well. -/
theorem double_quoted_word_witness :
    str "hi" ≠ [] ∧ (∀ c ∈ str "hi", isalpha c = true) ∧
    hasFlag 16 ascii.MultiverseAngledQuotes = false ∧
    Process ascii (engineWith ascii 16 true true) [] (34 :: (str "hi" ++ [34]))
      = Except.ok (engineWith ascii 16 true false,
          [] ++ str "&ldquo;" ++ str "hi" ++ str "&rdquo;") ∧
    hasFlag 24 ascii.MultiverseAngledQuotes = true ∧
    Process ascii (engineWith ascii 24 false false) [] (34 :: (str "hi" ++ [34]))
      = Except.ok (engineWith ascii 24 false false,
          [] ++ str "&laquo;" ++ str "hi" ++ str "&raquo;") :=
  ⟨by decide, by decide, by decide,
    (double_quoted_word ascii 16 true true [] (str "hi") (by decide) (by decide)
      ascii_letter_ordinary).2.1 (by decide),
    by decide,
    (double_quoted_word ascii 24 false false [] (str "hi") (by decide) (by decide)
      ascii_letter_ordinary).2.2 (by decide)⟩

/-! ## Fractions, the fixed set -/

/-- The fixed-set fraction handler computes the case table. -/
theorem multiverseNumber_eq (D : Decls) (r : MultiverseRenderer) (out : List Nat)
    (previousChar : Nat) (text : List Nat) (h0 : 0 < text.length) :
    multiverseNumber D r out previousChar text h0
      = (r, out ++ (fixedFractionRewrite D previousChar text).1,
          (fixedFractionRewrite D previousChar text).2) := by
  by_cases hprev : (wordBoundary D previousChar && previousChar != 47) = true
  · match text, h0 with
    | [a], _ => simp [multiverseNumber, fixedFractionRewrite]
    | [a, b], _ => simp [multiverseNumber, fixedFractionRewrite]
    | a :: b :: c :: rest, _ =>
      by_cases hb : b = 47
      · subst hb
        by_cases ha1 : a = 49 <;> by_cases ha3 : a = 51 <;> by_cases hc0 : c = 50 <;>
          by_cases hc2 : c = 52 <;>
          first
          | omega
          | (match rest with
             | [] =>
               simp [multiverseNumber, fixedFractionRewrite, hprev, fractionEnd,
                 startsWithLower, ha1, ha3, hc0, hc2]
             | [x] =>
               simp [multiverseNumber, fixedFractionRewrite, hprev, fractionEnd,
                 startsWithLower, ha1, ha3, hc0, hc2]
               try (split_ifs <;> rfl)
             | [x, y] =>
               simp [multiverseNumber, fixedFractionRewrite, hprev, fractionEnd,
                 startsWithLower, ha1, ha3, hc0, hc2]
               try (split_ifs <;> rfl)
             | x :: y :: z :: rest =>
               have hl : ¬ (rest.length + 1 + 1 + 1 + 1 + 1 + 1 < 4) := by omega
               simp [multiverseNumber, fixedFractionRewrite, hprev, fractionEnd,
                 startsWithLower, ha1, ha3, hc0, hc2, hl, and_assoc]
               try (split_ifs <;> rfl))
      · have hb' : (b == 47) = false := by simpa using hb
        simp [multiverseNumber, fixedFractionRewrite, hprev, hb, hb']
  · have hprev' : (wordBoundary D previousChar && previousChar != 47) = false := by
      simpa using hprev
    rw [multiverseNumber_blocked D r out previousChar text h0 hprev']
    match text, h0 with
    | [a], _ => simp [fixedFractionRewrite]
    | [a, b], _ => simp [fixedFractionRewrite]
    | a :: b :: c :: rest, _ => simp [fixedFractionRewrite, hprev']

/-- Under the fixed-set setting the digits 1 and 3 have the fixed-set handler. -/
theorem number_callback (D : Decls) (flags : Nat) (s q : Bool) (a : Nat)
    (hf : hasFlag flags D.MultiverseFractions = false) (ha : a = 49 ∨ a = 51) :
    (engineWith D flags s q).callbacks a = some multiverseCallback.number := by
  rw [engineWith_callbacks, NewMultiverseRenderer_callbacks]
  rcases ha with h | h <;> subst h <;> simp [hf]

/-- A fraction of the fixed set between two runs of bytes without a handler. -/
theorem Process_fixed_fraction (D : Decls) (flags : Nat) (s q : Bool)
    (w pre post : List Nat) (a c : Nat)
    (hf : hasFlag flags D.MultiverseFractions = false)
    (hpre : ∀ x ∈ pre, (engineWith D flags s q).callbacks x = none)
    (hpost : ∀ x ∈ post, (engineWith D flags s q).callbacks x = none)
    (h2 : (fixedFractionRewrite D (pre.getLastD 0) (a :: 47 :: c :: post)).2 = 2) :
    Process D (engineWith D flags s q) w (pre ++ (a :: [47, c] ++ post))
      = Except.ok (engineWith D flags s q,
          w ++ pre ++ (fixedFractionRewrite D (pre.getLastD 0) (a :: 47 :: c :: post)).1
            ++ post) := by
  have ha : a = 49 ∨ a = 51 := by
    by_cases h49 : a = 49
    · exact Or.inl h49
    · by_cases h51 : a = 51
      · exact Or.inr h51
      · exfalso
        simp only [fixedFractionRewrite, h49, h51, false_and, if_false] at h2
        split_ifs at h2
  apply Process_single_trigger D _ _ w pre [47, c] post _ a multiverseCallback.number hpre hpost
    (number_callback D flags s q a hf ha)
  intro h0
  simp only [multiverseCallback.call]
  rw [multiverseNumber_eq]
  simp only [List.nil_append, List.cons_append, h2]
  rfl

/-- The case table on digits, `/`, digits other than the three fractions. -/
theorem fixedFractionRewrite_other (D : Decls) (previousChar : Nat) (a b : List Nat)
    (ha : a ≠ []) (had : ∀ x ∈ a, isdigit x = true)
    (hb : b ≠ []) (hbd : ∀ x ∈ b, isdigit x = true)
    (hD : ∀ x, isdigit x = true → wordBoundary D x = false)
    (hne : ¬ (a = [49] ∧ b = [50]) ∧ ¬ (a = [49] ∧ b = [52]) ∧ ¬ (a = [51] ∧ b = [52])) :
    fixedFractionRewrite D previousChar (a ++ 47 :: b) = ([a.headD 0], 0) := by
  match a, ha, had with
  | [x], _, _ =>
    match b, hb, hbd with
    | [y], _, _ =>
      have h1 : ¬ (x = 49 ∧ y = 50) := fun h => hne.1 ⟨by rw [h.1], by rw [h.2]⟩
      have h2 : ¬ (x = 49 ∧ y = 52) := fun h => hne.2.1 ⟨by rw [h.1], by rw [h.2]⟩
      have h3 : ¬ (x = 51 ∧ y = 52) := fun h => hne.2.2 ⟨by rw [h.1], by rw [h.2]⟩
      simp only [fixedFractionRewrite, List.singleton_append, fractionEnd, startsWithLower,
        List.headD_cons]
      split_ifs <;> first | rfl | (exfalso; simp_all)
    | y :: z :: b', _, hbd =>
      have hz : isdigit z = true := hbd z (by simp)
      have hz' := (isdigit_iff z).mp hz
      have hzl := tolower_digit z hz
      have hz116 : z ≠ 116 := by omega
      have hwz := hD z hz
      simp only [fixedFractionRewrite, List.singleton_append, fractionEnd, startsWithLower,
        List.headD_cons, hwz]
      split_ifs <;> first | rfl | (exfalso; simp_all)
  | x :: y :: a', _, had =>
    have hy := (isdigit_iff y).mp (had y (by simp))
    have hy47 : y ≠ 47 := by omega
    cases a' <;> simp [fixedFractionRewrite, hy47]

/-- Digits, `/`, digits other than the three fractions: `Process` changes nothing. -/
theorem other_fraction_unchanged (D : Decls) (flags : Nat) (s q : Bool) (w a b : List Nat)
    (hf : hasFlag flags D.MultiverseFractions = false)
    (ha : a ≠ []) (had : ∀ x ∈ a, isdigit x = true)
    (hb : b ≠ []) (hbd : ∀ x ∈ b, isdigit x = true)
    (hD : ∀ x, isdigit x = true → wordBoundary D x = false)
    (hne : ¬ (a = [49] ∧ b = [50]) ∧ ¬ (a = [49] ∧ b = [52]) ∧ ¬ (a = [51] ∧ b = [52])) :
    Process D (engineWith D flags s q) w (a ++ 47 :: b)
      = Except.ok (engineWith D flags s q, w ++ (a ++ 47 :: b)) := by
  apply Process_passthrough
  intro i x act hx hcb h0
  have hall : ∀ y ∈ a ++ 47 :: b, isdigit y = true ∨ y = 47 := by
    intro y hy
    simp only [List.mem_append, List.mem_cons] at hy
    rcases hy with h | h | h
    · exact Or.inl (had y h)
    · exact Or.inr h
    · exact Or.inl (hbd y h)
  have hhead : (List.drop i (a ++ 47 :: b)).getD 0 0 = x := by
    simp [List.getD_eq_getElem?_getD, hx]
  rcases hall x (mem_of_getElem_some hx) with hxd | hx47
  · rcases digit_callback D flags s q x act hxd hcb with ⟨_, rfl⟩ | ⟨hf', _⟩
    · simp only [multiverseCallback.call]
      by_cases hi : i = 0
      · subst hi
        have hxa : a.headD 0 = x := by
          cases a with
          | nil => exact absurd rfl ha
          | cons y a => simpa using hx
        rw [multiverseNumber_eq, List.drop_zero,
          fixedFractionRewrite_other D _ a b ha had hb hbd hD hne, hxa]
        rfl
      · have hprev : (wordBoundary D (previousCharAt (a ++ 47 :: b) i)
            && previousCharAt (a ++ 47 :: b) i != 47) = false := by
          obtain ⟨hil, _⟩ := List.getElem?_eq_some_iff.mp hx
          have hp : (a ++ 47 :: b)[i - 1]? = some (previousCharAt (a ++ 47 :: b) i) := by
            have h2 : i - 1 < (a ++ 47 :: b).length := by omega
            simp [previousCharAt, hi, List.getD_eq_getElem?_getD, List.getElem?_eq_getElem h2]
          rcases hall _ (mem_of_getElem_some hp) with hd | h47
          · rw [hD _ hd]; rfl
          · rw [h47]; simp
        rw [multiverseNumber_blocked D _ [] _ _ h0 hprev, hhead]
        rfl
    · rw [hf] at hf'
      cases hf'
  · subst hx47
    rw [engineWith_callbacks, NewMultiverseRenderer_callbacks] at hcb
    simp at hcb

/-- C11 (as stated, refuted): with the generic-fraction flag clear `1/2th` and
`3/4th` stand at the start of the text and are followed by `th`, and `Process`
returns them unchanged. -/
theorem half_with_th_unchanged :
    hasFlag 0 ascii.MultiverseFractions = false ∧
    written (Process ascii (NewMultiverseRenderer ascii 0) [] (str "1/2th"))
      = some (str "1/2th") ∧
    written (Process ascii (NewMultiverseRenderer ascii 0) [] (str "3/4th"))
      = some (str "3/4th") ∧
    str "1/2th" ≠ str "&frac12;th" ∧ str "3/4th" ≠ str "&frac34;th" := by
  decide

/-- C11 (amended): with the generic-fraction flag clear only the digits 1 and 3
have a handler, the fixed-set one, which on every text agrees with the case
table `fixedFractionRewrite`. Between a run of bytes without a handler that is
empty or ends in a word boundary other than `/` and a run of bytes without a
handler, `Process` rewrites `1/2` to `&frac12;` when the end of the text or a
word boundary other than `/` follows, `1/4` to `&frac14;` when that or `th` (in
either case) follows, and `3/4` to `&frac34;` when that or `ths` (in either
case) follows; every other text made of digits, `/`, digits is returned
unchanged. Decimal digits are taken not to be word boundaries. -/
theorem fixed_fractions (D : Decls) (flags : Nat) (s q : Bool) (w : List Nat)
    (r : MultiverseRenderer) (out : List Nat) (previousChar : Nat) (text : List Nat)
    (h0 : 0 < text.length) (pre post a b : List Nat)
    (hf : hasFlag flags D.MultiverseFractions = false)
    (hpre : ∀ x ∈ pre, (engineWith D flags s q).callbacks x = none)
    (hprel : (wordBoundary D (pre.getLastD 0) && pre.getLastD 0 != 47) = true)
    (hpost : ∀ x ∈ post, (engineWith D flags s q).callbacks x = none)
    (ha : a ≠ []) (had : ∀ x ∈ a, isdigit x = true)
    (hb : b ≠ []) (hbd : ∀ x ∈ b, isdigit x = true)
    (hD : ∀ x, isdigit x = true → wordBoundary D x = false)
    (hne : ¬ (a = [49] ∧ b = [50]) ∧ ¬ (a = [49] ∧ b = [52]) ∧ ¬ (a = [51] ∧ b = [52])) :
    ((engineWith D flags s q).callbacks 49 = some multiverseCallback.number ∧
      (engineWith D flags s q).callbacks 51 = some multiverseCallback.number ∧
      ∀ c, isdigit c = true → c ≠ 49 → c ≠ 51 → (engineWith D flags s q).callbacks c = none) ∧
    multiverseNumber D r out previousChar text h0
      = (r, out ++ (fixedFractionRewrite D previousChar text).1,
          (fixedFractionRewrite D previousChar text).2) ∧
    (fractionEnd D post = true →
      Process D (engineWith D flags s q) w (pre ++ (str "1/2" ++ post))
        = Except.ok (engineWith D flags s q, w ++ pre ++ str "&frac12;" ++ post)) ∧
    (fractionEnd D post = true ∨ startsWithLower (str "th") post = true →
      Process D (engineWith D flags s q) w (pre ++ (str "1/4" ++ post))
        = Except.ok (engineWith D flags s q, w ++ pre ++ str "&frac14;" ++ post)) ∧
    (fractionEnd D post = true ∨ startsWithLower (str "ths") post = true →
      Process D (engineWith D flags s q) w (pre ++ (str "3/4" ++ post))
        = Except.ok (engineWith D flags s q, w ++ pre ++ str "&frac34;" ++ post)) ∧
    Process D (engineWith D flags s q) w (a ++ 47 :: b)
      = Except.ok (engineWith D flags s q, w ++ (a ++ 47 :: b)) := by
  have hth : str "th" = [116, 104] := by decide
  have hths : str "ths" = [116, 104, 115] := by decide
  refine ⟨⟨number_callback D flags s q 49 hf (Or.inl rfl),
      number_callback D flags s q 51 hf (Or.inr rfl), ?_⟩,
    multiverseNumber_eq D r out previousChar text h0, ?_, ?_, ?_,
    other_fraction_unchanged D flags s q w a b hf ha had hb hbd hD hne⟩
  · intro c hc h49 h51
    exact other_digit_no_callback D flags s q c hf hc h49 h51
  · intro hend
    have hrw : fixedFractionRewrite D (pre.getLastD 0) (49 :: 47 :: 50 :: post)
        = (str "&frac12;", 2) := by
      simp only [fixedFractionRewrite, hprel, hend, and_self, and_true, if_true]
    have h := Process_fixed_fraction D flags s q w pre post 49 50 hf hpre hpost (by rw [hrw])
    rw [hrw] at h
    exact h
  · intro hend
    rw [hth] at hend
    have hrw : fixedFractionRewrite D (pre.getLastD 0) (49 :: 47 :: 52 :: post)
        = (str "&frac14;", 2) := by
      simp only [fixedFractionRewrite, hprel, hend, and_self, and_true, if_true]
      simp
    have h := Process_fixed_fraction D flags s q w pre post 49 52 hf hpre hpost (by rw [hrw])
    rw [hrw] at h
    exact h
  · intro hend
    rw [hths] at hend
    have hrw : fixedFractionRewrite D (pre.getLastD 0) (51 :: 47 :: 52 :: post)
        = (str "&frac34;", 2) := by
      simp only [fixedFractionRewrite, hprel, hend, and_self, and_true, if_true]
      simp
    have h := Process_fixed_fraction D flags s q w pre post 51 52 hf hpre hpost (by rw [hrw])
    rw [hrw] at h
    exact h

/-- C11 (amended), at `1/4ths` and `3/4ths` after `a `, and at `2/3`. -/
theorem fixed_fractions_witness :
    hasFlag 0 ascii.MultiverseFractions = false ∧
    (∀ x ∈ str "a ", (engineWith ascii 0 false false).callbacks x = none) ∧
    (wordBoundary ascii ((str "a ").getLastD 0) && (str "a ").getLastD 0 != 47) = true ∧
    (∀ x ∈ str "ths", (engineWith ascii 0 false false).callbacks x = none) ∧
    startsWithLower (str "th") (str "ths") = true ∧
    startsWithLower (str "ths") (str "ths") = true ∧
    Process ascii (engineWith ascii 0 false false) [] (str "a " ++ (str "1/4" ++ str "ths"))
      = Except.ok (engineWith ascii 0 false false,
          [] ++ str "a " ++ str "&frac14;" ++ str "ths") ∧
    Process ascii (engineWith ascii 0 false false) [] (str "a " ++ (str "3/4" ++ str "ths"))
      = Except.ok (engineWith ascii 0 false false,
          [] ++ str "a " ++ str "&frac34;" ++ str "ths") ∧
    Process ascii (engineWith ascii 0 false false) [] (str "2" ++ 47 :: str "3")
      = Except.ok (engineWith ascii 0 false false, [] ++ (str "2" ++ 47 :: str "3")) :=
  ⟨by decide, by decide, by decide, by decide, by decide, by decide,
    (fixed_fractions ascii 0 false false [] (engineWith ascii 0 false false) [] 0 (str "1")
      (by decide) (str "a ") (str "ths") (str "2") (str "3") (by decide) (by decide)
      (by decide) (by decide) (by decide) (by decide) (by decide) (by decide)
      ascii_digit_not_boundary (by decide)).2.2.2.1 (Or.inr (by decide)),
    (fixed_fractions ascii 0 false false [] (engineWith ascii 0 false false) [] 0 (str "1")
      (by decide) (str "a ") (str "ths") (str "2") (str "3") (by decide) (by decide)
      (by decide) (by decide) (by decide) (by decide) (by decide) (by decide)
      ascii_digit_not_boundary (by decide)).2.2.2.2.1 (Or.inr (by decide)),
    (fixed_fractions ascii 0 false false [] (engineWith ascii 0 false false) [] 0 (str "1")
      (by decide) (str "a ") (str "ths") (str "2") (str "3") (by decide) (by decide)
      (by decide) (by decide) (by decide) (by decide) (by decide) (by decide)
      ascii_digit_not_boundary (by decide)).2.2.2.2.2⟩

/-! ## A second pass: what was emitted is kept -/

theorem take_drop_split (text : List Nat) (mark i j : Nat) (h1 : mark ≤ i) (h2 : i ≤ j)
    (h3 : i ≤ text.length) :
    (text.take i).drop mark ++ (text.take j).drop i = (text.take j).drop mark := by
  have h : text.take j = text.take i ++ (text.take j).drop i := by
    conv_lhs => rw [← List.take_append_drop i (text.take j)]
    rw [List.take_take, Nat.min_eq_left h2]
  conv_rhs => rw [h]
  rw [List.drop_append_of_le_length (by rw [List.length_take]; omega)]

/-- The pending run may be written at once: the loop with the run pending from
`mark` is the loop with the run written and nothing pending. -/
theorem ProcessLoop_flush (D : Decls) (text : List Nat) (r : MultiverseRenderer) :
    ∀ fuel i mark w, mark ≤ i →
      ProcessLoop D text fuel i mark r w
        = ProcessLoop D text fuel i i r (w ++ (text.take i).drop mark) := by
  intro fuel
  induction fuel with
  | zero => intro i mark w _; rfl
  | succ fuel ih =>
    intro i mark w hm
    by_cases hi : i < text.length
    · rw [ProcessLoop_succ D text fuel i mark r w hi hm,
        ProcessLoop_succ D text fuel i i r _ hi (le_refl _)]
      have hnil : List.drop i (List.take i text) = [] := List.drop_eq_nil_of_le (by simp)
      cases hcb : r.callbacks (text.getD i 0) with
      | none =>
        simp only
        rw [ih (i + 1) mark w (by omega), ih (i + 1) i _ (by omega), List.append_assoc,
          take_drop_split text mark i (i + 1) hm (by omega) (by omega)]
      | some a =>
        simp only [hnil, List.append_nil]
    · rw [ProcessLoop_exit D text fuel i mark r w (by omega),
        ProcessLoop_exit D text fuel i i r _ (by omega)]
      have h1 : text.take i = text := List.take_of_length_le (by omega)
      have h2 : text.drop i = [] := List.drop_eq_nil_of_le (by omega)
      rw [h1, h2, List.append_nil]

theorem call_congr (D : Decls) (a : multiverseCallback) (r : MultiverseRenderer)
    (out : List Nat) (p : Nat) (t1 t2 : List Nat) (h : t1 = t2) (h1 : 0 < t1.length)
    (h2 : 0 < t2.length) : a.call D r out p t1 h1 = a.call D r out p t2 h2 := by
  subst h; rfl

/-- The loop over a verbatim stretch of the text: from any index inside the
stretch it reaches the end of the stretch with the stretch written as it is. -/
theorem ProcessLoop_verbatim (D : Decls) (text : List Nat) (r : MultiverseRenderer)
    (bs post : List Nat) (i0 : Nat) (hv : verbatim D r bs)
    (hdrop : text.drop i0 = bs ++ post) :
    ∀ m j mark w, j + m = bs.length → mark ≤ i0 + j →
      ∃ k, k ≤ m ∧ ∀ fuel, ProcessLoop D text (fuel + k) (i0 + j) mark r w
        = ProcessLoop D text fuel (i0 + bs.length) (i0 + bs.length) r
            (w ++ (text.take (i0 + bs.length)).drop mark) := by
  intro m
  induction m using Nat.strong_induction_on with
  | _ m ih =>
    intro j mark w hj hm
    by_cases hm0 : m = 0
    · subst hm0
      refine ⟨0, le_refl _, fun fuel => ?_⟩
      have : j = bs.length := by omega
      subst this
      exact ProcessLoop_flush D text r fuel _ mark w hm
    · have hjl : j < bs.length := by omega
      have hlen : i0 + bs.length ≤ text.length := by
        have := congrArg List.length hdrop
        simp only [List.length_drop, List.length_append] at this
        omega
      have hdj : text.drop (i0 + j) = bs.drop j ++ post := by
        rw [← List.drop_drop, hdrop, List.drop_append_of_le_length (by omega)]
      have hc : text[i0 + j]? = some bs[j] := by
        have h1 : (text.drop i0)[j]? = some bs[j] := by
          rw [hdrop, List.getElem?_append_left hjl, List.getElem?_eq_getElem hjl]
        rwa [List.getElem?_drop] at h1
      cases hcb : r.callbacks bs[j] with
      | none =>
        obtain ⟨k, hk, hfuel⟩ := ih (m - 1) (by omega) (j + 1) mark w (by omega) (by omega)
        refine ⟨k + 1, by omega, fun fuel => ?_⟩
        have h1 : fuel + (k + 1) = (fuel + k) + 1 := by omega
        rw [h1, ProcessLoop_step_none D text (fuel + k) (i0 + j) mark r w _ hc hcb]
        exact hfuel fuel
      | some a =>
        have h0 : 0 < (bs.drop j ++ post).length := by
          rw [List.length_append, List.length_drop]; omega
        obtain ⟨n, hn, hcall⟩ := hv j bs[j] a (List.getElem?_eq_getElem hjl) hcb
          (previousCharAt text (i0 + j)) post h0
        obtain ⟨k, hk, hfuel⟩ := ih (m - (n + 1)) (by omega) (j + n + 1) (i0 + j + n + 1)
          (w ++ (text.take (i0 + j)).drop mark ++ (bs.drop j).take (n + 1)) (by omega)
          (by omega)
        refine ⟨k + 1, by omega, fun fuel => ?_⟩
        have h1 : fuel + (k + 1) = (fuel + k) + 1 := by omega
        rw [h1, ProcessLoop_step_some D text (fuel + k) (i0 + j) mark r r w
          ((bs.drop j).take (n + 1)) n _ a hc hcb hm
          (by
            intro h0'
            rw [call_congr D a r [] _ _ _ hdj h0' h0]
            exact hcall)]
        have h2 : i0 + (j + n + 1) = i0 + j + n + 1 := by omega
        rw [h2] at hfuel
        rw [hfuel fuel]
        congr 1
        have htmp : (bs.drop j).take (n + 1) = (text.take (i0 + j + n + 1)).drop (i0 + j) := by
          have h3 : i0 + j + n + 1 = (i0 + j) + (n + 1) := by omega
          rw [h3, ← List.take_drop, hdj, List.take_append_of_le_length
            (by rw [List.length_drop]; omega)]
        rw [htmp, List.append_assoc, List.append_assoc, ← List.append_assoc (List.drop mark _),
          take_drop_split text mark (i0 + j) (i0 + j + n + 1) hm (by omega) (by omega),
          take_drop_split text mark (i0 + j + n + 1) (i0 + bs.length) (by omega) (by omega)
            (by omega)]

/-- A verbatim text is written unchanged by `Process`, with the engine kept. -/
theorem Process_verbatim (D : Decls) (r : MultiverseRenderer) (w text : List Nat)
    (hv : verbatim D r text) : Process D r w text = Except.ok (r, w ++ text) := by
  obtain ⟨k, hk, hfuel⟩ := ProcessLoop_verbatim D text r text [] 0 hv (by simp)
    text.length 0 0 w (by omega) (by omega)
  have h1 : text.length + 1 = (text.length - k + 1) + k := by omega
  rw [Process, h1]
  have := hfuel (text.length - k + 1)
  simp only [Nat.zero_add] at this
  rw [this, ProcessLoop_exit D text _ _ _ r _ (le_refl _)]
  simp

theorem verbatimAt_append_left (D : Decls) (r : MultiverseRenderer) (a b : List Nat) (j : Nat)
    (hj : j < a.length) (h : verbatimAt D r a j) : verbatimAt D r (a ++ b) j := by
  intro c act hc hcb previousChar post h0
  rw [List.getElem?_append_left hj] at hc
  have hd : (a ++ b).drop j ++ post = a.drop j ++ (b ++ post) := by
    rw [List.drop_append_of_le_length (by omega), List.append_assoc]
  have h0' : 0 < (a.drop j ++ (b ++ post)).length := by rw [← hd]; exact h0
  obtain ⟨n, hn, hcall⟩ := h c act hc hcb previousChar (b ++ post) h0'
  refine ⟨n, by rw [List.length_append]; omega, ?_⟩
  rw [call_congr D act r [] _ _ _ hd h0 h0', hcall,
    List.drop_append_of_le_length (by omega),
    List.take_append_of_le_length (by rw [List.length_drop]; omega)]

theorem verbatimAt_append_right (D : Decls) (r : MultiverseRenderer) (a b : List Nat) (j : Nat)
    (h : verbatimAt D r b j) : verbatimAt D r (a ++ b) (a.length + j) := by
  intro c act hc hcb previousChar post h0
  rw [List.getElem?_append_right (by omega), Nat.add_sub_cancel_left] at hc
  have hd : (a ++ b).drop (a.length + j) = b.drop j := by
    rw [← List.drop_drop, List.drop_left]
  have hd' : (a ++ b).drop (a.length + j) ++ post = b.drop j ++ post := by rw [hd]
  have h0' : 0 < (b.drop j ++ post).length := by rw [← hd']; exact h0
  obtain ⟨n, hn, hcall⟩ := h c act hc hcb previousChar post h0'
  refine ⟨n, by rw [List.length_append]; omega, ?_⟩
  rw [call_congr D act r [] _ _ _ hd' h0 h0', hcall, hd]

theorem verbatim_append (D : Decls) (r : MultiverseRenderer) (a b : List Nat)
    (ha : verbatim D r a) (hb : verbatim D r b) : verbatim D r (a ++ b) := by
  intro j
  by_cases hj : j < a.length
  · exact verbatimAt_append_left D r a b j hj (ha j)
  · have := verbatimAt_append_right D r a b (j - a.length) (hb (j - a.length))
    have h1 : a.length + (j - a.length) = j := by omega
    rwa [h1] at this

theorem verbatim_nil (D : Decls) (r : MultiverseRenderer) : verbatim D r [] := by
  intro j c a hc
  simp at hc

theorem verbatim_flatten (D : Decls) (r : MultiverseRenderer) (pieces : List (List Nat))
    (h : ∀ p ∈ pieces, verbatim D r p) : verbatim D r pieces.flatten := by
  induction pieces with
  | nil => exact verbatim_nil D r
  | cons p ps ih =>
    rw [List.flatten_cons]
    exact verbatim_append D r p ps.flatten (h p (by simp))
      (ih (fun q hq => h q (by simp [hq])))

theorem verbatimAt_none (D : Decls) (r : MultiverseRenderer) (bs : List Nat) (j : Nat)
    (h : ∀ c, bs[j]? = some c → r.callbacks c = none) : verbatimAt D r bs j := by
  intro c a hc hcb
  rw [h c hc] at hcb
  cases hcb

theorem verbatim_plain (D : Decls) (r : MultiverseRenderer) (bs : List Nat)
    (h : ∀ c ∈ bs, r.callbacks c = none) : verbatim D r bs := by
  intro j
  exact verbatimAt_none D r bs j (fun c hc => h c (mem_of_getElem_some hc))

theorem multiverseAmp_copy (D : Decls) (angledQuotes addNBSP : Bool) (r : MultiverseRenderer)
    (out : List Nat) (previousChar c : Nat) (rest : List Nat) (hc : c ≠ 113) (hc2 : c ≠ 35) :
    multiverseAmp D angledQuotes addNBSP r out previousChar (38 :: c :: rest)
      = (r, out ++ [38], 0) := by
  apply multiverseAmp_other
  · simp [str_quot, List.isPrefixOf, Ne.symm hc]
  · simp [str_null, List.isPrefixOf, Ne.symm hc2]

theorem multiverseNumber_copy (D : Decls) (r : MultiverseRenderer) (out : List Nat)
    (previousChar x : Nat) (tail : List Nat) (h0 : 0 < (x :: tail).length)
    (hy : ∀ y, tail.head? = some y → y ≠ 47) :
    multiverseNumber D r out previousChar (x :: tail) h0 = (r, out ++ [x], 0) := by
  rw [multiverseNumber_eq]
  match tail, hy with
  | [], _ => simp [fixedFractionRewrite]
  | [y], _ => simp [fixedFractionRewrite]
  | y :: z :: rest, hy =>
    have := hy y rfl
    simp [fixedFractionRewrite, this]

theorem multiverseNumberGeneric_copy (D : Decls) (r : MultiverseRenderer) (out : List Nat)
    (previousChar x : Nat) (ds : List Nat) (y : Nat) (rest : List Nat)
    (hx : isdigit x = true) (hds : ∀ z ∈ ds, isdigit z = true)
    (hy : isdigit y = false) (h47 : y ≠ 47) (h226 : y ≠ 226)
    (h0 : 0 < (x :: (ds ++ y :: rest)).length) :
    multiverseNumberGeneric D r out previousChar (x :: (ds ++ y :: rest)) h0
      = Except.ok (r, out ++ [x], 0) := by
  have hscan : scanWhile isdigit (x :: (ds ++ y :: rest)) 0 = ds.length + 1 := by
    have h := scanWhile_append isdigit [] (x :: ds) (y :: rest)
      (by
        intro z hz
        rcases List.mem_cons.mp hz with h | h
        · rw [h]; exact hx
        · exact hds z h)
      (by intro z hz; simp at hz; subst hz; exact hy)
    simpa using h
  have hget : (x :: (ds ++ y :: rest)).getD (ds.length + 1) 0 = y := by
    have := getD_append_length (x :: ds) (y :: rest) 0
    simpa using this
  rw [multiverseNumberGeneric_eq, hscan, hget]
  simp [h47, h226]

theorem plain_byte (D : Decls) (flags : Nat) (s q : Bool) (x : Nat)
    (hx : isalpha x = true ∨ x = 59 ∨ x = 47 ∨ x = 62) :
    (engineWith D flags s q).callbacks x = none := by
  rcases hx with h | h | h | h
  · exact letter_no_callback D flags s q x h
  all_goals
    subst h
    simp [engineWith_callbacks, NewMultiverseRenderer_callbacks]

theorem verbatim_amp (D : Decls) (flags : Nat) (s q : Bool) (c : Nat) (rest : List Nat)
    (hc : c ≠ 113) (hc2 : c ≠ 35) (hrest : verbatim D (engineWith D flags s q) (c :: rest)) :
    verbatim D (engineWith D flags s q) (38 :: c :: rest) := by
  intro j
  cases j with
  | zero =>
    intro x a hx hcb previousChar post h0
    simp only [List.getElem?_cons_zero, Option.some.injEq] at hx
    subst hx
    rw [engineWith_callbacks, NewMultiverseRenderer_callbacks] at hcb
    simp at hcb
    subst hcb
    refine ⟨0, by simp, ?_⟩
    simp only [multiverseCallback.call, List.drop_zero, List.cons_append]
    rw [multiverseAmp_copy D _ _ _ [] previousChar c (rest ++ post) hc hc2]
    rfl
  | succ j =>
    have := verbatimAt_append_right D (engineWith D flags s q) [38] (c :: rest) j (hrest j)
    simpa [Nat.add_comm] using this

theorem verbatim_digits_then (D : Decls) (flags : Nat) (s q : Bool) (ds : List Nat) (y : Nat)
    (rest : List Nat) (hds : ∀ z ∈ ds, isdigit z = true)
    (hy : isdigit y = false) (h47 : y ≠ 47) (h226 : y ≠ 226)
    (htail : verbatim D (engineWith D flags s q) (y :: rest)) :
    verbatim D (engineWith D flags s q) (ds ++ y :: rest) := by
  intro j
  by_cases hj : j < ds.length
  · intro x a hx hcb previousChar post h0
    rw [List.getElem?_append_left hj, List.getElem?_eq_getElem hj] at hx
    simp only [Option.some.injEq] at hx
    have hxd : isdigit x = true := by rw [← hx]; exact hds _ (List.getElem_mem _)
    have hdrop : (ds ++ y :: rest).drop j ++ post
        = x :: (ds.drop (j + 1) ++ y :: (rest ++ post)) := by
      rw [List.drop_append_of_le_length (by omega), List.drop_eq_getElem_cons hj, hx]
      simp
    have h0' : 0 < (x :: (ds.drop (j + 1) ++ y :: (rest ++ post))).length := by simp
    have htake : ((ds ++ y :: rest).drop j).take (0 + 1) = [x] := by
      rw [List.drop_append_of_le_length (by omega), List.drop_eq_getElem_cons hj, hx]
      simp
    refine ⟨0, by rw [List.length_append]; omega, ?_⟩
    rw [call_congr D a _ [] _ _ _ hdrop h0 h0', htake]
    have hds' : ∀ z ∈ ds.drop (j + 1), isdigit z = true :=
      fun z hz => hds z (List.mem_of_mem_drop hz)
    rcases digit_callback D flags s q x a hxd hcb with ⟨_, rfl⟩ | ⟨_, rfl⟩
    · simp only [multiverseCallback.call]
      rw [multiverseNumber_copy D _ [] previousChar x _ h0']
      · rfl
      · intro z hz
        cases hd : ds.drop (j + 1) with
        | nil =>
          rw [hd] at hz
          simp at hz
          rw [← hz]; exact h47
        | cons d ds' =>
          rw [hd] at hz
          simp at hz
          have := (isdigit_iff z).mp (hds' z (by rw [hd, ← hz]; simp))
          omega
    · simp only [multiverseCallback.call]
      rw [multiverseNumberGeneric_copy D _ [] previousChar x _ y _ hxd hds' hy h47 h226]
      rfl
  · have := verbatimAt_append_right D (engineWith D flags s q) ds (y :: rest) (j - ds.length)
      (htail (j - ds.length))
    have h1 : ds.length + (j - ds.length) = j := by omega
    rwa [h1] at this

theorem verbatim_tag (D : Decls) (flags : Nat) (s q : Bool) (body : List Nat)
    (hbody : ∀ x ∈ body, x ≠ 62 ∧ (engineWith D flags s q).callbacks x = none) :
    verbatim D (engineWith D flags s q) (60 :: (body ++ [62])) := by
  intro j
  cases j with
  | zero =>
    intro x a hx hcb previousChar post h0
    simp only [List.getElem?_cons_zero, Option.some.injEq] at hx
    subst hx
    rw [engineWith_callbacks, NewMultiverseRenderer_callbacks] at hcb
    simp at hcb
    subst hcb
    refine ⟨body.length + 1, by simp, ?_⟩
    simp only [multiverseCallback.call, List.drop_zero]
    rw [multiverseLeftAngle_closed _ [] body post (fun x hx => (hbody x hx).1)]
    simp
  | succ j =>
    apply verbatimAt_none
    intro c hc
    simp only [List.getElem?_cons_succ] at hc
    have hmem := mem_of_getElem_some hc
    rcases List.mem_append.mp hmem with h | h
    · exact (hbody c h).2
    · simp only [List.mem_singleton] at h
      subst h
      exact plain_byte D flags s q 62 (by simp)

theorem verbatim_letters (D : Decls) (flags : Nat) (s q : Bool) (bs : List Nat)
    (h : ∀ x ∈ bs, isalpha x = true ∨ x = 59 ∨ x = 47 ∨ x = 62) :
    verbatim D (engineWith D flags s q) bs :=
  verbatim_plain D _ bs (fun x hx => plain_byte D flags s q x (h x hx))

/-- An entity the engine emits is verbatim: its `&` is copied, its letters and
its `;` have no handler, and a digit in it is followed by a digit or the `;`. -/
theorem verbatim_entity (D : Decls) (flags : Nat) (s q : Bool) :
    ∀ e ∈ emittedEntities, verbatim D (engineWith D flags s q) e := by
  intro e he
  rw [emittedEntities_eq] at he
  simp only [List.mem_cons, List.mem_singleton, List.not_mem_nil, or_false] at he
  have hsemi : verbatim D (engineWith D flags s q) [59] :=
    verbatim_letters D flags s q [59] (by decide)
  rcases he with rfl | rfl | rfl | rfl | rfl | rfl | rfl | rfl | rfl | rfl | rfl | rfl | rfl | rfl
    | rfl | rfl | rfl
  all_goals
    first
    | exact verbatim_amp D flags s q _ _ (by decide) (by decide)
        (verbatim_letters D flags s q _ (by decide))
    | exact verbatim_amp D flags s q _ _ (by decide) (by decide)
        (verbatim_append D _ [102, 114, 97, 99] _ (verbatim_letters D flags s q _ (by decide))
          (verbatim_digits_then D flags s q [_, _] 59 [] (by decide) (by decide) (by decide)
            (by decide) hsemi))

/-- The markup of a fraction is verbatim: its tags are copied whole, and a digit
in it is followed by a digit or by the `<` of a tag. -/
theorem verbatim_markup (D : Decls) (flags : Nat) (s q : Bool) (n d : List Nat)
    (hn : ∀ x ∈ n, isdigit x = true) (hd : ∀ x ∈ d, isdigit x = true) :
    verbatim D (engineWith D flags s q) (fractionMarkup n d) := by
  have htag : ∀ body : List Nat, (∀ x ∈ body, isalpha x = true ∨ x = 47) →
      verbatim D (engineWith D flags s q) (60 :: (body ++ [62])) := by
    intro body hbody
    apply verbatim_tag
    intro x hx
    rcases hbody x hx with h | h
    · exact ⟨by rw [isalpha_iff] at h; omega, plain_byte D flags s q x (Or.inl h)⟩
    · exact ⟨by omega, plain_byte D flags s q x (Or.inr (Or.inr (Or.inl h)))⟩
  have heq : fractionMarkup n d
      = (60 :: (str "sup" ++ [62])) ++ ((n ++ 60 :: (str "/sup" ++ [62]))
        ++ (str "&frasl;" ++ ((60 :: (str "sub" ++ [62]))
        ++ (d ++ 60 :: (str "/sub" ++ [62]))))) := by
    have h1 : str "<sup>" = 60 :: (str "sup" ++ [62]) := by decide
    have h2 : str "</sup>&frasl;<sub>"
        = 60 :: (str "/sup" ++ [62]) ++ (str "&frasl;" ++ (60 :: (str "sub" ++ [62]))) := by
      decide
    have h3 : str "</sub>" = 60 :: (str "/sub" ++ [62]) := by decide
    rw [fractionMarkup, h1, h2, h3]
    simp only [List.append_assoc]
  rw [heq]
  refine verbatim_append D _ _ _ (htag _ (by decide)) (verbatim_append D _ _ _
    (verbatim_digits_then D flags s q n 60 _ hn (by decide) (by decide) (by decide)
      (htag _ (by decide)))
    (verbatim_append D _ _ _ (verbatim_entity D flags s q _ (by decide))
      (verbatim_append D _ _ _ (htag _ (by decide))
        (verbatim_digits_then D flags s q d 60 _ hd (by decide) (by decide) (by decide)
          (htag _ (by decide))))))

theorem stablePiece_verbatim (D : Decls) (flags : Nat) (s q : Bool) (p : List Nat)
    (h : stablePiece (engineWith D flags s q) p) : verbatim D (engineWith D flags s q) p := by
  rcases h with h | ⟨n, d, hn, hd, rfl⟩ | ⟨c, rfl, hc⟩
  · exact verbatim_entity D flags s q p h
  · exact verbatim_markup D flags s q n d hn hd
  · exact verbatim_plain D _ [c] (by intro x hx; simp at hx; rw [hx]; exact hc)

theorem engineWith_fresh (D : Decls) (flags : Nat) :
    engineWith D flags false false = NewMultiverseRenderer D flags := by
  have h := NewMultiverseRenderer_flags D flags
  unfold engineWith
  cases hr : NewMultiverseRenderer D flags with
  | mk a b c =>
    rw [hr] at h
    simp only at h
    simp [h.1, h.2]

/-- C4 (amended): for every flag set and engine state, a text made only of
entities the engine emits, of fraction markup `<sup>n</sup>&frasl;<sub>d</sub>`
with digit runs `n` and `d`, and of bytes without a handler is returned
unchanged by `Process`, with the engine kept; so it is on a fresh engine. And
wherever the loop of `Process` stands at the first byte of such a piece in any
text, whatever precedes and follows it, the loop writes the pending run and the
piece as it is, and goes on just after the piece with the engine unchanged:
what a pass has emitted is not substituted again. In particular each emitted
entity alone is returned unchanged by a fresh engine. -/
theorem emitted_entity_not_resubstituted (D : Decls) (flags : Nat) (s q : Bool) (w : List Nat)
    (pieces : List (List Nat))
    (hp : ∀ p ∈ pieces, stablePiece (engineWith D flags s q) p) :
    Process D (engineWith D flags s q) w pieces.flatten
      = Except.ok (engineWith D flags s q, w ++ pieces.flatten) ∧
    (s = false → q = false →
      Process D (NewMultiverseRenderer D flags) w pieces.flatten
        = Except.ok (NewMultiverseRenderer D flags, w ++ pieces.flatten)) ∧
    (∀ (p text post w' : List Nat) (i mark : Nat),
      stablePiece (engineWith D flags s q) p → mark ≤ i → text.drop i = p ++ post →
      ∃ k, k ≤ p.length ∧ ∀ fuel,
        ProcessLoop D text (fuel + k) i mark (engineWith D flags s q) w'
          = ProcessLoop D text fuel (i + p.length) (i + p.length) (engineWith D flags s q)
              (w' ++ (text.take i).drop mark ++ p)) ∧
    (∀ e ∈ emittedEntities, Process D (NewMultiverseRenderer D flags) w e
      = Except.ok (NewMultiverseRenderer D flags, w ++ e)) := by
  have hall : Process D (engineWith D flags s q) w pieces.flatten
      = Except.ok (engineWith D flags s q, w ++ pieces.flatten) :=
    Process_verbatim D _ w _ (verbatim_flatten D _ pieces
      (fun p hpp => stablePiece_verbatim D flags s q p (hp p hpp)))
  refine ⟨hall, ?_, ?_, ?_⟩
  · intro hs hq
    subst hs hq
    rw [engineWith_fresh] at hall
    exact hall
  · intro p text post w' i mark hpiece hm hdrop
    obtain ⟨k, hk, hfuel⟩ := ProcessLoop_verbatim D text _ p post i
      (stablePiece_verbatim D flags s q p hpiece) hdrop p.length 0 mark w' (by omega)
      (by omega)
    refine ⟨k, hk, fun fuel => ?_⟩
    have := hfuel fuel
    rw [Nat.add_zero] at this
    rw [this]
    by_cases hp0 : p.length = 0
    · have : p = [] := List.length_eq_zero.mp hp0
      subst this
      simp
    · have hlen : i + p.length ≤ text.length := by
        have := congrArg List.length hdrop
        simp only [List.length_drop, List.length_append] at this
        omega
      have htake : (text.take (i + p.length)).drop i = p := by
        rw [← List.take_drop, hdrop, List.take_left]
      have hsplit : (text.take i).drop mark ++ p = (text.take (i + p.length)).drop mark := by
        conv_lhs => rw [← htake]
        exact take_drop_split text mark i (i + p.length) hm (by omega) (by omega)
      rw [List.append_assoc, hsplit]
  · intro e he
    have := Process_verbatim D (engineWith D flags false false) w e
      (verbatim_entity D flags false false e he)
    rwa [engineWith_fresh] at this

/-- C4 (amended), at `a &frac12; <sup>3</sup>&frasl;<sub>4</sub>&mdash;b` with the
ASCII classes, the fraction and dash flags set and both quotes open; and
`1 &frac12; 2&mdash;3` on a fresh engine with no flag set. -/
theorem emitted_entity_witness :
    (∀ p ∈ [[97], [32], str "&frac12;", [32], fractionMarkup (str "3") (str "4"),
        str "&mdash;", [98]], stablePiece (engineWith ascii 3 true true) p) ∧
    [[97], [32], str "&frac12;", [32], fractionMarkup (str "3") (str "4"),
        str "&mdash;", [98]].flatten
      = str "a &frac12; <sup>3</sup>&frasl;<sub>4</sub>&mdash;b" ∧
    Process ascii (engineWith ascii 3 true true) []
        [[97], [32], str "&frac12;", [32], fractionMarkup (str "3") (str "4"),
          str "&mdash;", [98]].flatten
      = Except.ok (engineWith ascii 3 true true, [] ++
          [[97], [32], str "&frac12;", [32], fractionMarkup (str "3") (str "4"),
            str "&mdash;", [98]].flatten) ∧
    written (Process ascii (NewMultiverseRenderer ascii 0) [] (str "1 &frac12; 2&mdash;3"))
      = some (str "1 &frac12; 2&mdash;3") :=
  have hp : ∀ p ∈ [[97], [32], str "&frac12;", [32], fractionMarkup (str "3") (str "4"),
      str "&mdash;", [98]], stablePiece (engineWith ascii 3 true true) p := by
    intro p hp
    simp only [List.mem_cons, List.mem_singleton, List.not_mem_nil, or_false] at hp
    rcases hp with rfl | rfl | rfl | rfl | rfl | rfl | rfl
    · exact Or.inr (Or.inr ⟨97, rfl, by decide⟩)
    · exact Or.inr (Or.inr ⟨32, rfl, by decide⟩)
    · exact Or.inl (by decide)
    · exact Or.inr (Or.inr ⟨32, rfl, by decide⟩)
    · exact Or.inr (Or.inl ⟨str "3", str "4", by decide, by decide, rfl⟩)
    · exact Or.inl (by decide)
    · exact Or.inr (Or.inr ⟨98, rfl, by decide⟩)
  ⟨hp, by decide, (emitted_entity_not_resubstituted ascii 3 true true [] _ hp).1, by decide⟩

/-! ## Dashes, LaTeX style -/

/-- `Process` around a run of dashes under the LaTeX-style handler. -/
theorem Process_dashLatex (D : Decls) (flags : Nat) (s d : Bool) (w pre post : List Nat)
    (hd : hasFlag flags D.MultiverseDashes = true)
    (hl : hasFlag flags D.MultiverseLatexDashes = true)
    (hpre : ∀ x ∈ pre, (engineWith D flags s d).callbacks x = none)
    (hpost : ∀ x ∈ post, (engineWith D flags s d).callbacks x = none) :
    Process D (engineWith D flags s d) w (pre ++ (str "---" ++ post))
      = Except.ok (engineWith D flags s d, w ++ pre ++ str "&mdash;" ++ post) ∧
    Process D (engineWith D flags s d) w (pre ++ (str "--" ++ post))
      = Except.ok (engineWith D flags s d, w ++ pre ++ str "&ndash;" ++ post) ∧
    Process D (engineWith D flags s d) w (pre ++ (str "-" ++ post))
      = Except.ok (engineWith D flags s d, w ++ pre ++ str "-" ++ post) := by
  have hcb : (engineWith D flags s d).callbacks 45 = some multiverseCallback.dashLatex := by
    simp [engineWith_callbacks, NewMultiverseRenderer_callbacks, hd, hl]
  have hhead : ∀ y, post.head? = some y → y ≠ 45 := by
    intro y hy h45
    subst h45
    have hmem : 45 ∈ post := List.mem_of_mem_head? hy
    rw [hpost 45 hmem] at hcb
    cases hcb
  have h3 : str "---" = 45 :: [45, 45] := by decide
  have h2 : str "--" = 45 :: [45] := by decide
  have h1 : str "-" = 45 :: [] := by decide
  refine ⟨?_, ?_, ?_⟩
  · rw [h3]
    exact Process_single_trigger D _ _ w pre [45, 45] post (str "&mdash;") 45
      multiverseCallback.dashLatex hpre hpost hcb
      (by intro h0; simp [multiverseCallback.call, multiverseDashLatex])
  · rw [h2]
    exact Process_single_trigger D _ _ w pre [45] post (str "&ndash;") 45
      multiverseCallback.dashLatex hpre hpost hcb
      (by
        intro h0
        cases post with
        | nil => simp [multiverseCallback.call, multiverseDashLatex]
        | cons y post =>
          have := hhead y rfl
          simp [multiverseCallback.call, multiverseDashLatex, this])
  · rw [h1]
    exact Process_single_trigger D _ _ w pre [] post (str "-") 45
      multiverseCallback.dashLatex hpre hpost hcb
      (by
        intro h0
        cases post with
        | nil => simp [multiverseCallback.call, multiverseDashLatex, str]
        | cons y post =>
          have := hhead y rfl
          cases post <;> simp [multiverseCallback.call, multiverseDashLatex, this, str])

/-- C8: with dash conversion on, the entry for `-` is the LaTeX-style handler
when the LaTeX-dash flag is set and the default one otherwise. The LaTeX-style
handler writes `&mdash;` for `---` (count 2), `&ndash;` for `--` not followed by
a third `-` (count 1), and copies a single `-`; it never looks at the byte
before. With the LaTeX-dash flag set, calling the installed entry is calling
that handler, for every previous byte and text; and `Process`, between two runs
of bytes without a handler, writes `&mdash;` for `---`, `&ndash;` for `--` and
the `-` itself for a single `-`, so `a---b` gives `a&mdash;b`, `a--b` gives
`a&ndash;b`, and `a - b` and `a-b` are unchanged. -/
theorem dash_latex (D : Decls) (flags : Nat) (s d : Bool) (r : MultiverseRenderer)
    (out : List Nat) (c : Nat) (rest : List Nat)
    (hd : hasFlag flags D.MultiverseDashes = true) (hc : c ≠ 45) :
    (engineWith D flags s d).callbacks 45
      = some (if hasFlag flags D.MultiverseLatexDashes then multiverseCallback.dashLatex
          else multiverseCallback.dash) ∧
    multiverseDashLatex r out (45 :: 45 :: 45 :: rest) (by simp) = (r, out ++ str "&mdash;", 2) ∧
    multiverseDashLatex r out (45 :: 45 :: c :: rest) (by simp) = (r, out ++ str "&ndash;", 1) ∧
    multiverseDashLatex r out [45, 45] (by simp) = (r, out ++ str "&ndash;", 1) ∧
    multiverseDashLatex r out (45 :: c :: rest) (by simp) = (r, out ++ [45], 0) ∧
    multiverseDashLatex r out [45] (by simp) = (r, out ++ [45], 0) ∧
    (hasFlag flags D.MultiverseLatexDashes = true →
      (∀ a, (engineWith D flags s d).callbacks 45 = some a →
        ∀ (previousChar : Nat) (text : List Nat) (h0 : 0 < text.length),
          a.call D r out previousChar text h0
            = Except.ok (multiverseDashLatex r out text h0)) ∧
      (∀ (previousChar : Nat) (a : multiverseCallback),
        (engineWith D flags s d).callbacks 45 = some a →
        a.call D r out previousChar (45 :: 45 :: 45 :: rest) (by simp)
          = Except.ok (r, out ++ str "&mdash;", 2) ∧
        a.call D r out previousChar (45 :: 45 :: c :: rest) (by simp)
          = Except.ok (r, out ++ str "&ndash;", 1) ∧
        a.call D r out previousChar [45, 45] (by simp)
          = Except.ok (r, out ++ str "&ndash;", 1) ∧
        a.call D r out previousChar (45 :: c :: rest) (by simp)
          = Except.ok (r, out ++ [45], 0) ∧
        a.call D r out previousChar [45] (by simp) = Except.ok (r, out ++ [45], 0)) ∧
      (∀ w pre post : List Nat,
        (∀ x ∈ pre, (engineWith D flags s d).callbacks x = none) →
        (∀ x ∈ post, (engineWith D flags s d).callbacks x = none) →
        Process D (engineWith D flags s d) w (pre ++ (str "---" ++ post))
          = Except.ok (engineWith D flags s d, w ++ pre ++ str "&mdash;" ++ post) ∧
        Process D (engineWith D flags s d) w (pre ++ (str "--" ++ post))
          = Except.ok (engineWith D flags s d, w ++ pre ++ str "&ndash;" ++ post) ∧
        Process D (engineWith D flags s d) w (pre ++ (str "-" ++ post))
          = Except.ok (engineWith D flags s d, w ++ pre ++ str "-" ++ post)) ∧
      (∀ w : List Nat,
        Process D (engineWith D flags s d) w (str "a---b")
          = Except.ok (engineWith D flags s d, w ++ str "a&mdash;b") ∧
        Process D (engineWith D flags s d) w (str "a--b")
          = Except.ok (engineWith D flags s d, w ++ str "a&ndash;b") ∧
        Process D (engineWith D flags s d) w (str "a - b")
          = Except.ok (engineWith D flags s d, w ++ str "a - b") ∧
        Process D (engineWith D flags s d) w (str "a-b")
          = Except.ok (engineWith D flags s d, w ++ str "a-b"))) := by
  refine ⟨?_, ?_, ?_, ?_, ?_, ?_, ?_⟩
  · simp [engineWith_callbacks, NewMultiverseRenderer_callbacks, hd]
  · simp [multiverseDashLatex, hc]
  · simp [multiverseDashLatex, hc]
  · simp [multiverseDashLatex, hc]
  · simp [multiverseDashLatex, hc]
  · simp [multiverseDashLatex, hc]
  · intro hl
    have hcb : (engineWith D flags s d).callbacks 45 = some multiverseCallback.dashLatex := by
      simp [engineWith_callbacks, NewMultiverseRenderer_callbacks, hd, hl]
    refine ⟨?_, ?_, ?_, ?_⟩
    · intro a ha previousChar text h0
      rw [hcb] at ha
      cases ha
      rfl
    · intro previousChar a ha
      rw [hcb] at ha
      cases ha
      refine ⟨?_, ?_, ?_, ?_, ?_⟩ <;> simp [multiverseCallback.call, multiverseDashLatex, hc]
    · intro w pre post hpre hpost
      exact Process_dashLatex D flags s d w pre post hd hl hpre hpost
    · intro w
      refine ⟨?_, ?_, ?_, ?_⟩ <;>
        simp [Process, str, ProcessLoop_succ, ProcessLoop_exit, engineWith_callbacks,
          NewMultiverseRenderer_callbacks, multiverseCallback.call, multiverseDashLatex,
          previousCharAt, hd, hl]

/-- C8, at the ASCII classes with the dash and LaTeX-dash flags set. -/
theorem dash_latex_witness :
    hasFlag 6 ascii.MultiverseDashes = true ∧ (97 : Nat) ≠ 45 ∧
    (engineWith ascii 6 false false).callbacks 45 = some multiverseCallback.dashLatex ∧
    multiverseDashLatex (engineWith ascii 6 false false) [] (str "--a") (by decide)
      = (engineWith ascii 6 false false, [] ++ str "&ndash;", 1) ∧
    hasFlag 6 ascii.MultiverseLatexDashes = true ∧
    Process ascii (engineWith ascii 6 false false) [] (str "a---b")
      = Except.ok (engineWith ascii 6 false false, [] ++ str "a&mdash;b") ∧
    Process ascii (engineWith ascii 6 false false) [] (str "a - b")
      = Except.ok (engineWith ascii 6 false false, [] ++ str "a - b") :=
  ⟨by decide, by decide,
    (dash_latex ascii 6 false false (engineWith ascii 6 false false) [] 97 []
      (by decide) (by decide)).1,
    (dash_latex ascii 6 false false (engineWith ascii 6 false false) [] 97 []
      (by decide) (by decide)).2.2.1,
    by decide,
    ((dash_latex ascii 6 false false (engineWith ascii 6 false false) [] 97 []
      (by decide) (by decide)).2.2.2.2.2.2 (by decide)).2.2.2 [] |>.1,
    ((dash_latex ascii 6 false false (engineWith ascii 6 false false) [] 97 []
      (by decide) (by decide)).2.2.2.2.2.2 (by decide)).2.2.2 [] |>.2.2.1⟩

/-! ## The code-span tokenizer: the scan for the closer -/

theorem takeWhile_run (p : Nat → Bool) : ∀ (l : List Nat),
    (∀ k, k < (l.takeWhile p).length → ∃ c, l[k]? = some c ∧ p c = true) ∧
    (∀ c, l[(l.takeWhile p).length]? = some c → p c = false) := by
  intro l
  induction l with
  | nil => simp
  | cons a l ih =>
    by_cases ha : p a = true
    · rw [List.takeWhile_cons_of_pos ha]
      constructor
      · intro k hk
        cases k with
        | zero => exact ⟨a, by simp, ha⟩
        | succ k =>
          simp only [List.length_cons, Nat.add_lt_add_iff_right] at hk
          simpa using ih.1 k hk
      · intro c hc
        simp only [List.length_cons, List.getElem?_cons_succ] at hc
        exact ih.2 c hc
    · rw [List.takeWhile_cons_of_neg ha]
      constructor
      · intro k hk
        simp at hk
      · intro c hc
        simp only [List.length_nil, List.getElem?_cons_zero, Option.some.injEq] at hc
        subst hc
        simpa using ha

theorem scanWhile_run (p : Nat → Bool) (text : List Nat) (i : Nat) :
    (∀ k, i ≤ k → k < scanWhile p text i → ∃ c, text[k]? = some c ∧ p c = true) ∧
    (∀ c, text[scanWhile p text i]? = some c → p c = false) := by
  have h := takeWhile_run p (text.drop i)
  constructor
  · intro k hik hk
    unfold scanWhile at hk
    obtain ⟨c, hc, hp⟩ := h.1 (k - i) (by omega)
    rw [List.getElem?_drop] at hc
    have : i + (k - i) = k := by omega
    rw [this] at hc
    exact ⟨c, hc, hp⟩
  · intro c hc
    unfold scanWhile at hc
    apply h.2 c
    rw [List.getElem?_drop]
    exact hc

theorem closerScan_found (n : Nat) (text : List Nat) (j : Nat) (hn : 1 ≤ n)
    (hrun : maximalRunAt text j n) (hfirst : ∀ j', j' < j → ¬ maximalRunAt text j' n) :
    ∀ fuel i, i ≤ j → (i = 0 ∨ text[i - 1]? ≠ some 96) → text.length + 1 ≤ fuel + i →
      closerScan n text fuel i = Except.ok (some (j + n)) := by
  have hj : text[j]? = some 96 := by simpa using hrun.1 0 (by omega)
  have hjl : j < text.length := (List.getElem?_eq_some_iff.mp hj).1
  intro fuel
  induction fuel with
  | zero => intro i hij _ hf; omega
  | succ fuel ih =>
    intro i hij hb hf
    have hil : i < text.length := by omega
    unfold closerScan
    simp only [hil, dite_true]
    by_cases hc : text[i] = 96
    · simp only [hc, if_true]
      obtain ⟨hall, hstop⟩ := scanWhile_run (fun c => c == 96) text i
      have hge : i + 1 ≤ scanWhile (fun c => c == 96) text i := by
        by_contra hlt
        have h1 : scanWhile (fun c => c == 96) text i = i := by
          have := scanWhile_ge (fun c => c == 96) text i
          omega
        have h2 := hstop 96 (by rw [h1, List.getElem?_eq_getElem hil, hc])
        simp at h2
      have hstop' : text[scanWhile (fun c => c == 96) text i]? ≠ some 96 := by
        intro h
        have := hstop 96 h
        simp at this
      have hcond : (if h2 : scanWhile (fun c => c == 96) text i < text.length then
          text[scanWhile (fun c => c == 96) text i] ≠ 96 else True) := by
        split
        · rename_i h2
          intro h
          apply hstop'
          rw [List.getElem?_eq_getElem h2, h]
        · trivial
      have hall' : ∀ k, i ≤ k → k < scanWhile (fun c => c == 96) text i → text[k]? = some 96 := by
        intro k h1 h2
        obtain ⟨c, hc1, hc2⟩ := hall k h1 h2
        have : c = 96 := by simpa using hc2
        rw [hc1, this]
      by_cases hcl : scanWhile (fun c => c == 96) text i - i = n
      · -- a maximal run of length n at i: it is the first one
        have hmax : maximalRunAt text i n := by
          refine ⟨?_, hb, ?_⟩
          · intro k hk
            exact hall' (i + k) (by omega) (by omega)
          · have : i + n = scanWhile (fun c => c == 96) text i := by omega
            rw [this]
            exact hstop'
        have hij' : i = j := by
          by_contra hne
          exact hfirst i (by omega) hmax
        simp only [hcl, hcond, and_self, if_true]
        have : scanWhile (fun c => c == 96) text i = j + n := by omega
        rw [this]
      · have hcond' : ¬ (scanWhile (fun c => c == 96) text i - i = n ∧
            (if h2 : scanWhile (fun c => c == 96) text i < text.length then
              text[scanWhile (fun c => c == 96) text i] ≠ 96 else True)) := fun h => hcl h.1
        simp only [hcond', if_false]
        have hne : i ≠ j := by
          intro h
          subst h
          apply hcl
          -- the run at i has length n
          have h1 : ¬ (i + n < scanWhile (fun c => c == 96) text i) := by
            intro hlt
            exact hrun.2.2 (hall' (i + n) (by omega) hlt)
          have h2 : ¬ (scanWhile (fun c => c == 96) text i < i + n) := by
            intro hlt
            apply hstop'
            have := hrun.1 (scanWhile (fun c => c == 96) text i - i) (by omega)
            have h3 : i + (scanWhile (fun c => c == 96) text i - i)
                = scanWhile (fun c => c == 96) text i := by omega
            rw [h3] at this
            exact this
          omega
        apply ih
        · -- j lies beyond the run
          by_contra hlt
          have hjs : j ≤ scanWhile (fun c => c == 96) text i := by omega
          rcases Nat.lt_or_ge j (scanWhile (fun c => c == 96) text i) with h | h
          · rcases hrun.2.1 with h0 | h0
            · omega
            · exact h0 (hall' (j - 1) (by omega) (by omega))
          · have : j = scanWhile (fun c => c == 96) text i := by omega
            rw [this] at hj
            exact hstop' hj
        · right
          simpa using hstop'
        · omega
    · simp only [hc, if_false]
      apply ih
      · have : i ≠ j := by
          intro h
          subst h
          rw [List.getElem?_eq_getElem hil] at hj
          exact hc (by simpa using hj)
        omega
      · right
        rw [Nat.add_sub_cancel, List.getElem?_eq_getElem hil]
        simpa using hc
      · omega

theorem closerScan_none (n : Nat) (text : List Nat)
    (hno : ∀ j, ¬ maximalRunAt text j n) :
    ∀ fuel i, (i = 0 ∨ text[i - 1]? ≠ some 96) → text.length + 1 ≤ fuel + i → 1 ≤ fuel →
      closerScan n text fuel i = Except.ok none := by
  intro fuel
  induction fuel with
  | zero =>
    intro i _ _ hf
    omega
  | succ fuel ih =>
    intro i hb hf _
    unfold closerScan
    by_cases hil : i < text.length
    · simp only [hil, dite_true]
      by_cases hc : text[i] = 96
      · simp only [hc, if_true]
        obtain ⟨hall, hstop⟩ := scanWhile_run (fun c => c == 96) text i
        have hge : i + 1 ≤ scanWhile (fun c => c == 96) text i := by
          by_contra hlt
          have h1 : scanWhile (fun c => c == 96) text i = i := by
            have := scanWhile_ge (fun c => c == 96) text i
            omega
          have h2 := hstop 96 (by rw [h1, List.getElem?_eq_getElem hil, hc])
          simp at h2
        have hstop' : text[scanWhile (fun c => c == 96) text i]? ≠ some 96 := by
          intro h
          have := hstop 96 h
          simp at this
        have hall' : ∀ k, i ≤ k → k < scanWhile (fun c => c == 96) text i →
            text[k]? = some 96 := by
          intro k h1 h2
          obtain ⟨c, hc1, hc2⟩ := hall k h1 h2
          have : c = 96 := by simpa using hc2
          rw [hc1, this]
        have hcl : ¬ (scanWhile (fun c => c == 96) text i - i = n) := by
          intro hcl
          apply hno i
          refine ⟨?_, hb, ?_⟩
          · intro k hk
            exact hall' (i + k) (by omega) (by omega)
          · have : i + n = scanWhile (fun c => c == 96) text i := by omega
            rw [this]
            exact hstop'
        have hcond' : ¬ (scanWhile (fun c => c == 96) text i - i = n ∧
            (if h2 : scanWhile (fun c => c == 96) text i < text.length then
              text[scanWhile (fun c => c == 96) text i] ≠ 96 else True)) := fun h => hcl h.1
        simp only [hcond', if_false]
        apply ih
        · right
          simpa using hstop'
        · omega
        · omega
      · simp only [hc, if_false]
        apply ih
        · right
          rw [Nat.add_sub_cancel, List.getElem?_eq_getElem hil]
          simpa using hc
        · omega
        · omega
    · simp only [hil, dite_false]

/-! ## The code-span tokenizer: the line loop -/

theorem AdvanceLine_source (r : Reader) : r.AdvanceLine.source = r.source := by
  unfold Reader.AdvanceLine; split <;> rfl

theorem AdvanceLine_segments (r : Reader) : r.AdvanceLine.segments = r.segments := by
  unfold Reader.AdvanceLine; split <;> rfl

theorem AdvanceLine_line (r : Reader) : r.AdvanceLine.line = r.line + 1 := by
  unfold Reader.AdvanceLine; split <;> rfl

theorem Advance_source : ∀ (n : Nat) (r : Reader), (r.Advance n).source = r.source := by
  intro n
  induction n with
  | zero => intro r; rfl
  | succ n ih =>
    intro r
    unfold Reader.Advance
    split
    · rw [ih, AdvanceLine_source]
    · rw [ih]

theorem Advance_segments : ∀ (n : Nat) (r : Reader), (r.Advance n).segments = r.segments := by
  intro n
  induction n with
  | zero => intro r; rfl
  | succ n ih =>
    intro r
    unfold Reader.Advance
    split
    · rw [ih, AdvanceLine_segments]
    · rw [ih]

theorem iterate_AdvanceLine (k : Nat) (r : Reader) :
    (Reader.AdvanceLine^[k] r).source = r.source ∧
    (Reader.AdvanceLine^[k] r).segments = r.segments ∧
    (Reader.AdvanceLine^[k] r).line = r.line + k := by
  induction k generalizing r with
  | zero => exact ⟨rfl, rfl, rfl⟩
  | succ k ih =>
    rw [Function.iterate_succ_apply]
    obtain ⟨h1, h2, h3⟩ := ih r.AdvanceLine
    rw [h1, h2, h3, AdvanceLine_source, AdvanceLine_segments, AdvanceLine_line]
    exact ⟨rfl, rfl, by omega⟩

theorem PeekLine_some (r : Reader) (text : List Nat) (h : r.PeekLine.1 = some text) :
    r.line < r.segments.length := by
  unfold Reader.PeekLine at h
  cases hs : r.segments[r.line]? with
  | none => rw [hs] at h; cases h
  | some s => exact (List.getElem?_eq_some_iff.mp hs).1

/-- One turn of the line loop on a line without a closer. -/
theorem ParseLoop_line (IsSpace : Nat → Bool) (opener : Nat) (ss : Segment) (l : Nat)
    (pos : Segment) (fuel : Nat) (r : Reader) (children : List Segment) (text : List Nat)
    (hpeek : r.PeekLine.1 = some text)
    (hno : ∀ p, ¬ maximalRunAt text p opener) :
    ParseLoop IsSpace opener ss l pos (fuel + 1) r children
      = ParseLoop IsSpace opener ss l pos fuel r.AdvanceLine
          (children ++ lineChild IsSpace r) := by
  have hscan := closerScan_none opener text hno (text.length + 1) 0 (Or.inl rfl)
    (by omega) (by omega)
  conv_lhs => unfold ParseLoop
  unfold lineChild
  cases hp : r.PeekLine with
  | mk a seg =>
    rw [hp] at hpeek
    simp only at hpeek
    subst hpeek
    simp only [hscan]
    cases hb : IsBlank IsSpace text <;> simp

/-- The line loop over `k` lines without a closer. -/
theorem ParseLoop_lines (IsSpace : Nat → Bool) (opener : Nat) (ss : Segment) (l : Nat)
    (pos : Segment) : ∀ (k fuel : Nat) (r : Reader) (children : List Segment),
    (∀ j, j < k → ∃ text, (Reader.AdvanceLine^[j] r).PeekLine.1 = some text
      ∧ ∀ p, ¬ maximalRunAt text p opener) →
    ParseLoop IsSpace opener ss l pos (fuel + k) r children
      = ParseLoop IsSpace opener ss l pos fuel (Reader.AdvanceLine^[k] r)
          (children ++ skippedChildren IsSpace k r) := by
  intro k
  induction k with
  | zero =>
    intro fuel r children _
    simp [skippedChildren]
  | succ k ih =>
    intro fuel r children h
    obtain ⟨text, hpeek, hno⟩ := h 0 (by omega)
    have hfuel : fuel + (k + 1) = (fuel + k) + 1 := by omega
    rw [hfuel, ParseLoop_line IsSpace opener ss l pos (fuel + k) r children text hpeek hno,
      ih fuel r.AdvanceLine _ (by
        intro j hj
        have := h (j + 1) (by omega)
        rwa [Function.iterate_succ_apply] at this)]
    rw [Function.iterate_succ_apply, skippedChildren, List.append_assoc]

/-- The turn of the line loop on the line of the closer. -/
theorem ParseLoop_closer (IsSpace : Nat → Bool) (n : Nat) (ss : Segment) (l : Nat)
    (pos : Segment) (fuel : Nat) (r : Reader) (children : List Segment) (text : List Nat)
    (i : Nat) (hn : 1 ≤ n)
    (hpeek : r.PeekLine.1 = some text)
    (hrun : maximalRunAt text i n) (hfirst : ∀ p, p < i → ¬ maximalRunAt text p n) :
    ParseLoop IsSpace n ss l pos (fuel + 1) r children
      = match trimChildren IsSpace r.source (children ++ closerChild r i) with
        | Except.error e => Except.error e
        | Except.ok cs => Except.ok (Node.codeSpan cs, r.Advance (i + n)) := by
  have hscan := closerScan_found n text i hn hrun hfirst (text.length + 1) 0 (Nat.zero_le _)
    (Or.inl rfl) (by omega)
  conv_lhs => unfold ParseLoop
  unfold closerChild
  cases hp : r.PeekLine with
  | mk a seg =>
    rw [hp] at hpeek
    simp only at hpeek
    subst hpeek
    simp only [hscan, Advance_source]
    have h1 : seg.Start + (i + n) - n = seg.Start + i := by omega
    rw [h1]
    by_cases hi : i = 0
    · subst hi
      simp [Segment.WithStop, Segment.IsEmpty]
    · have : ¬ (seg.Start ≥ seg.Start + i) := by omega
      simp [Segment.WithStop, Segment.IsEmpty, hi, this]

/-- The turn of the line loop after the last line. -/
theorem ParseLoop_exhausted (IsSpace : Nat → Bool) (n : Nat) (ss : Segment) (l : Nat)
    (pos : Segment) (fuel : Nat) (r : Reader) (children : List Segment)
    (hpeek : r.PeekLine.1 = none) :
    ParseLoop IsSpace n ss l pos (fuel + 1) r children
      = Except.ok (Node.text (ss.WithStop (ss.Start + n)), r.SetPosition l pos) := by
  unfold ParseLoop
  cases hp : r.PeekLine with
  | mk a seg =>
    rw [hp] at hpeek
    simp only at hpeek
    subst hpeek
    rfl

/-! ## The code-span tokenizer: the one-space trim -/

theorem Value_cons (c : Segment) (source : List Nat) (h1 : c.Start < c.Stop)
    (h2 : c.Stop ≤ source.length) :
    ∃ x, source[c.Start]? = some x ∧
      c.Value source = x :: (c.WithStart (c.Start + 1)).Value source := by
  have hl : c.Start < source.length := by omega
  refine ⟨source[c.Start], List.getElem?_eq_getElem hl, ?_⟩
  simp only [Segment.Value, Segment.WithStart]
  rw [List.drop_eq_getElem_cons (by rw [List.length_take]; omega)]
  congr 1
  simp [List.getElem_take]

theorem Value_concat (c : Segment) (source : List Nat) (h1 : c.Start < c.Stop)
    (h2 : c.Stop ≤ source.length) :
    ∃ y, source[c.Stop - 1]? = some y ∧
      c.Value source = (c.WithStop (c.Stop - 1)).Value source ++ [y] := by
  have hl : c.Stop - 1 < source.length := by omega
  refine ⟨source[c.Stop - 1], List.getElem?_eq_getElem hl, ?_⟩
  simp only [Segment.Value, Segment.WithStop]
  have hs : c.Stop = (c.Stop - 1) + 1 := by omega
  conv_lhs => rw [hs, List.take_succ, List.getElem?_eq_getElem hl]
  rw [List.drop_append_of_le_length (by rw [List.length_take]; omega)]
  rfl

theorem nodeIsBlank_eq (IsSpace : Nat → Bool) (source : List Nat) (children : List Segment) :
    nodeIsBlank IsSpace source children = IsBlank IsSpace (spanContent source children) := by
  induction children with
  | nil => rfl
  | cons c cs ih =>
    simp only [nodeIsBlank, IsBlank, spanContent, List.all_cons, List.map_cons,
      List.flatten_cons, List.all_append] at ih ⊢
    rw [ih]


theorem trim_rule (IsSpace : Nat → Bool) (hsp : IsSpace 32 = true) (source : List Nat)
    (children : List Segment)
    (hch : ∀ c ∈ children, c.Start < c.Stop ∧ c.Stop ≤ source.length) :
    ∃ cs, trimChildren IsSpace source children = Except.ok cs ∧
      (∀ c ∈ cs, c.Start ≤ c.Stop) ∧
      (IsBlank IsSpace (spanContent source children) = false →
        (spanContent source children).head? = some 32 →
        (spanContent source children).getLast? = some 32 →
        spanContent source children = 32 :: spanContent source cs ++ [32]) ∧
      (IsBlank IsSpace (spanContent source children) = true ∨
        (spanContent source children).head? ≠ some 32 ∨
        (spanContent source children).getLast? ≠ some 32 → cs = children) := by
  have hle : ∀ c ∈ children, c.Start ≤ c.Stop := fun c hc => Nat.le_of_lt (hch c hc).1
  by_cases hblank : nodeIsBlank IsSpace source children = true
  · refine ⟨children, by simp [trimChildren, hblank], hle, ?_, fun _ => rfl⟩
    intro h
    rw [← nodeIsBlank_eq, hblank] at h
    cases h
  · have hblank' : IsBlank IsSpace (spanContent source children) = false := by
      rw [← nodeIsBlank_eq]; simpa using hblank
    cases children with
    | nil => exact absurd rfl hblank
    | cons first rest =>
      obtain ⟨hf1, hf2⟩ := hch first (by simp)
      obtain ⟨x, hx, hxv⟩ := Value_cons first source hf1 hf2
      rcases List.eq_nil_or_concat rest with hrest | ⟨mid, last, hrest⟩
      · -- a single child
        subst hrest
        obtain ⟨y, hy, hyv⟩ := Value_concat first source hf1 hf2
        have hcontent : spanContent source [first] = first.Value source := by
          simp [spanContent]
        have hhead : (spanContent source [first]).head? = some x := by
          rw [hcontent, hxv]; rfl
        have hlast : (spanContent source [first]).getLast? = some y := by
          rw [hcontent, hyv]; simp
        by_cases hxy : x = 32 ∧ y = 32
        · obtain ⟨rfl, rfl⟩ := hxy
          have hlen : first.Start + 1 < first.Stop := by
            by_contra hlt
            have h1 : first.Stop = first.Start + 1 := by omega
            have h2 : (first.WithStart (first.Start + 1)).Value source = [] := by
              simp [Segment.Value, Segment.WithStart, h1]
            rw [hcontent, hxv, h2] at hblank'
            simp [IsBlank, hsp] at hblank'
          obtain ⟨y', hy', hyv'⟩ := Value_concat (first.WithStart (first.Start + 1)) source
            (by simpa [Segment.WithStart] using hlen) (by simpa [Segment.WithStart] using hf2)
          have hy'' : y' = 32 := by
            have : source[first.Stop - 1]? = some y' := by simpa [Segment.WithStart] using hy'
            rw [hy] at this
            exact (Option.some.inj this).symm
          subst hy''
          refine ⟨[(first.WithStart (first.Start + 1)).WithStop (first.Stop - 1)], ?_, ?_, ?_, ?_⟩
          · have hne : ¬ (first.Start ≥ first.Stop) := by omega
            simp [trimChildren, hblank, childSegment, byteAt, hx, hy, Segment.IsEmpty, hne,
              Segment.WithStart, Segment.WithStop, Except.map]
          · intro c hc
            simp only [List.mem_singleton] at hc
            subst hc
            simp only [Segment.WithStart, Segment.WithStop]
            omega
          · intro _ _ _
            rw [hcontent, hxv, hyv']
            simp [spanContent, Segment.WithStart, Segment.WithStop]
          · intro h
            rcases h with h | h | h
            · rw [hblank'] at h; cases h
            · exact absurd hhead h
            · exact absurd hlast h
        · refine ⟨[first], ?_, hle, ?_, fun _ => rfl⟩
          · have hne : ¬ (first.Start ≥ first.Stop) := by omega
            have hc : ((x == 32) && (y == 32)) = false := by
              by_cases h1 : x = 32
              · have h2 : y ≠ 32 := fun h => hxy ⟨h1, h⟩
                simp [h1, h2]
              · simp [h1]
            simp [trimChildren, hblank, childSegment, byteAt, hx, hy, Segment.IsEmpty, hne, hxy,
              Except.map]
          · intro _ h1 h2
            rw [hhead] at h1
            rw [hlast] at h2
            exact absurd ⟨Option.some.inj h1, Option.some.inj h2⟩ hxy
      · -- two children or more
        rw [List.concat_eq_append] at hrest
        subst hrest
        obtain ⟨hl1, hl2⟩ := hch last (by simp)
        obtain ⟨y, hy, hyv⟩ := Value_concat last source hl1 hl2
        have hcontent : ∀ a b : Segment, spanContent source (a :: (mid ++ [b]))
            = a.Value source ++ (spanContent source mid ++ b.Value source) := by
          intro a b
          simp [spanContent]
        have hhead : (spanContent source (first :: (mid ++ [last]))).head? = some x := by
          rw [hcontent, hxv]; rfl
        have hlast : (spanContent source (first :: (mid ++ [last]))).getLast? = some y := by
          rw [hcontent, hyv, ← List.append_assoc, ← List.append_assoc]; simp
        have hgl : ∀ a : Segment, (a :: (mid ++ [last])).getLast? = some last := by
          intro a
          rw [← List.cons_append, List.getLast?_concat]
        by_cases hxy : x = 32 ∧ y = 32
        · obtain ⟨rfl, rfl⟩ := hxy
          refine ⟨first.WithStart (first.Start + 1) :: (mid ++ [last.WithStop (last.Stop - 1)]),
            ?_, ?_, ?_, ?_⟩
          · have hne : ¬ (first.Start ≥ first.Stop) := by omega
            have hne2 : ¬ (last.Start ≥ last.Stop) := by omega
            have hset : (first.WithStart (first.Start + 1) :: (mid ++ [last])).set
                (mid.length + 1) (last.WithStop (last.Stop - 1))
                = first.WithStart (first.Start + 1) :: (mid ++ [last.WithStop (last.Stop - 1)]) := by
              simp [List.set_append]
            simp [trimChildren, hblank, childSegment, byteAt, hx, hy, Segment.IsEmpty, hne,
              hne2, hgl, hset, Except.map]
          · intro c hc
            simp only [List.mem_cons, List.mem_append, List.mem_singleton, List.not_mem_nil,
              or_false] at hc
            rcases hc with h | h | h
            · subst h; simp only [Segment.WithStart]; omega
            · exact hle c (by simp [h])
            · subst h; simp only [Segment.WithStop]; omega
          · intro _ _ _
            rw [hcontent, hcontent, hxv, hyv]
            simp
          · intro h
            rcases h with h | h | h
            · rw [hblank'] at h; cases h
            · exact absurd hhead h
            · exact absurd hlast h
        · refine ⟨first :: (mid ++ [last]), ?_, hle, ?_, fun _ => rfl⟩
          · have hne : ¬ (first.Start ≥ first.Stop) := by omega
            have hne2 : ¬ (last.Start ≥ last.Stop) := by omega
            have hc : ((x == 32) && (y == 32)) = false := by
              by_cases h1 : x = 32
              · have h2 : y ≠ 32 := fun h => hxy ⟨h1, h⟩
                simp [h1, h2]
              · simp [h1]
            simp [trimChildren, hblank, childSegment, byteAt, hx, hy, Segment.IsEmpty, hne,
              hne2, hgl, hxy, Except.map]
          · intro _ h1 h2
            rw [hhead] at h1
            rw [hlast] at h2
            exact absurd ⟨Option.some.inj h1, Option.some.inj h2⟩ hxy

/-! ## The code-span tokenizer: the reader and the children -/

theorem PeekLine_text (r : Reader) (text : List Nat) (h : r.PeekLine.1 = some text) :
    ∃ s, r.segments[r.line]? = some s ∧ text = (r.source.take s.Stop).drop r.pos.Start ∧
      r.PeekLine.2 = ⟨r.pos.Start, s.Stop⟩ := by
  unfold Reader.PeekLine at h ⊢
  cases hs : r.segments[r.line]? with
  | none => rw [hs] at h; cases h
  | some s =>
    rw [hs] at h
    simp only [Option.some.injEq] at h
    exact ⟨s, rfl, h.symm, rfl⟩

theorem lineChild_mem (IsSpace : Nat → Bool) (r : Reader)
    (hwf : ∀ s ∈ r.segments, s.Stop ≤ r.source.length) :
    ∀ c ∈ lineChild IsSpace r, c.Start < c.Stop ∧ c.Stop ≤ r.source.length := by
  intro c hc
  unfold lineChild at hc
  cases hp : r.PeekLine with
  | mk a seg =>
    rw [hp] at hc
    cases a with
    | none => simp at hc
    | some text =>
      simp only at hc
      by_cases hb : IsBlank IsSpace text = true
      · simp [hb] at hc
      · simp only [hb, if_false, List.mem_singleton, Bool.false_eq_true] at hc
        subst hc
        obtain ⟨s, hs, ht, hseg⟩ := PeekLine_text r text (by rw [hp])
        rw [hp] at hseg
        simp only at hseg
        subst hseg
        have hmem : s ∈ r.segments := List.mem_iff_getElem?.mpr ⟨_, hs⟩
        have hne : text ≠ [] := by
          intro h
          rw [h] at hb
          exact hb rfl
        have hlen : 0 < text.length := List.length_pos.mpr hne
        rw [ht, List.length_drop, List.length_take] at hlen
        have := hwf s hmem
        simp only
        omega

theorem skippedChildren_mem (IsSpace : Nat → Bool) : ∀ (k : Nat) (r : Reader),
    (∀ s ∈ r.segments, s.Stop ≤ r.source.length) →
    ∀ c ∈ skippedChildren IsSpace k r, c.Start < c.Stop ∧ c.Stop ≤ r.source.length := by
  intro k
  induction k with
  | zero => intro r _ c hc; simp [skippedChildren] at hc
  | succ k ih =>
    intro r hwf c hc
    simp only [skippedChildren, List.mem_append] at hc
    rcases hc with h | h
    · exact lineChild_mem IsSpace r hwf c h
    · have := ih r.AdvanceLine (by rw [AdvanceLine_segments, AdvanceLine_source]; exact hwf) c h
      rwa [AdvanceLine_source] at this

theorem closerChild_mem (r : Reader) (text : List Nat) (i : Nat)
    (hpeek : r.PeekLine.1 = some text) (hi : i < text.length) :
    ∀ c ∈ closerChild r i, (c.Start < c.Stop ∧ c.Stop ≤ r.source.length)
      ∧ c.Value r.source = text.take i := by
  intro c hc
  unfold closerChild at hc
  by_cases h0 : i = 0
  · simp [h0] at hc
  · simp only [h0, if_false, List.mem_singleton] at hc
    subst hc
    obtain ⟨s, hs, ht, hseg⟩ := PeekLine_text r text hpeek
    rw [hseg]
    have hlen := hi
    rw [ht, List.length_drop, List.length_take] at hlen
    refine ⟨⟨by simp only; omega, by simp only; omega⟩, ?_⟩
    simp only [Segment.Value]
    rw [ht, List.take_drop, List.take_take]
    congr 2
    omega

theorem Advance_within : ∀ (m : Nat) (r : Reader), r.pos.Start + m < r.pos.Stop →
    r.Advance m = { r with pos := ⟨r.pos.Start + m, r.pos.Stop⟩ } := by
  intro m
  induction m with
  | zero => intro r _; rfl
  | succ m ih =>
    intro r h
    unfold Reader.Advance
    have h1 : ¬ (r.pos.Start + 1 ≥ r.pos.Stop) := by omega
    simp only [h1, if_false]
    rw [ih _ (by simp only [Segment.WithStart]; omega)]
    simp only [Segment.WithStart]
    congr 2
    omega

theorem aligned_AdvanceLine (r : Reader) : r.AdvanceLine.aligned := by
  intro s hs
  unfold Reader.AdvanceLine at hs ⊢
  cases h : r.segments[r.line + 1]? with
  | none => rw [h] at hs; simp only at hs; rw [h] at hs; cases hs
  | some t =>
    rw [h] at hs
    simp only at hs
    rw [h] at hs
    simp only [Option.some.injEq] at hs
    rw [hs]

theorem aligned_Advance : ∀ (m : Nat) (r : Reader), r.aligned → (r.Advance m).aligned := by
  intro m
  induction m with
  | zero => intro r h; exact h
  | succ m ih =>
    intro r h
    unfold Reader.Advance
    split
    · exact ih _ (aligned_AdvanceLine r)
    · exact ih _ (by intro s hs; exact h s hs)

theorem aligned_iterate (k : Nat) (r : Reader) (h : r.aligned) :
    (Reader.AdvanceLine^[k] r).aligned := by
  cases k with
  | zero => exact h
  | succ k =>
    rw [Function.iterate_succ_apply']
    exact aligned_AdvanceLine _

/-- The unread bytes after an advance inside the line. -/
theorem PeekLine_Advance (r : Reader) (text : List Nat) (m : Nat) (hal : r.aligned)
    (hpeek : r.PeekLine.1 = some text) (hm : m < text.length) :
    (r.Advance m).PeekLine.1 = some (text.drop m) := by
  obtain ⟨s, hs, ht, _⟩ := PeekLine_text r text hpeek
  have hlen := hm
  rw [ht, List.length_drop, List.length_take] at hlen
  have hstop := hal s hs
  rw [Advance_within m r (by omega)]
  unfold Reader.PeekLine
  simp only [hs]
  rw [ht, List.drop_drop, Nat.add_comm]

theorem maximalRunAt_lt (text : List Nat) (p n : Nat) (hn : 1 ≤ n)
    (h : maximalRunAt text p n) : p < text.length := by
  have := h.1 0 (by omega)
  exact (List.getElem?_eq_some_iff.mp this).1

theorem spanContent_append (source : List Nat) (a b : List Segment) :
    spanContent source (a ++ b) = spanContent source a ++ spanContent source b := by
  simp [spanContent]

theorem lineChild_content (IsSpace : Nat → Bool) (r : Reader) :
    spanContent r.source (lineChild IsSpace r) = lineContent IsSpace r := by
  unfold lineChild lineContent
  cases hp : r.PeekLine with
  | mk a seg =>
    cases a with
    | none => rfl
    | some text =>
      obtain ⟨s, hs, ht, hseg⟩ := PeekLine_text r text (by rw [hp])
      rw [hp] at hseg
      simp only at hseg
      by_cases hb : IsBlank IsSpace text = true
      · simp [hb, spanContent]
      · simp only [hb, if_false, Bool.false_eq_true]
        simp only [spanContent, List.map_cons, List.map_nil, List.flatten_cons,
          List.flatten_nil, List.append_nil]
        rw [hseg, ht]
        rfl

theorem skippedChildren_content (IsSpace : Nat → Bool) : ∀ (k : Nat) (r : Reader),
    spanContent r.source (skippedChildren IsSpace k r)
      = ((List.range k).map (fun j => lineContent IsSpace (Reader.AdvanceLine^[j] r))).flatten := by
  intro k
  induction k with
  | zero => intro r; rfl
  | succ k ih =>
    intro r
    rw [skippedChildren, spanContent_append, lineChild_content, List.range_succ_eq_map]
    have := ih r.AdvanceLine
    rw [AdvanceLine_source] at this
    rw [this]
    simp [Function.comp_def]

/-- `Parse` when the closer is found: the children of the lines passed and of
the line of the closer, trimmed, and the reader advanced past the closer. -/
theorem Parse_matched (IsSpace : Nat → Bool) (b : Reader) (text0 text : List Nat)
    (n k i : Nat)
    (hpeek : b.PeekLine.1 = some text0)
    (hop : scanWhile (fun c => c == 96) text0 0 = n) (hn : 1 ≤ n)
    (hclose : firstCloserAt (b.Advance n) n k i text) :
    Parse IsSpace b
      = match trimChildren IsSpace b.source (skippedChildren IsSpace k (b.Advance n)
            ++ closerChild (Reader.AdvanceLine^[k] (b.Advance n)) i) with
        | Except.error e => Except.error e
        | Except.ok cs => Except.ok (Node.codeSpan cs,
            (Reader.AdvanceLine^[k] (b.Advance n)).Advance (i + n)) := by
  obtain ⟨hskip, hline, hrun, hfirst⟩ := hclose
  have hskip' : ∀ j, j < k → ∃ t, (Reader.AdvanceLine^[j] (b.Advance n)).PeekLine.1 = some t
      ∧ ∀ p, ¬ maximalRunAt t p n := by
    intro j hj
    obtain ⟨t, h1, h2⟩ := hskip j hj
    exact ⟨t, h1, fun p hp => h2 p (maximalRunAt_lt t p n hn hp) hp⟩
  obtain ⟨hsrc, hseg, hl⟩ := iterate_AdvanceLine k (b.Advance n)
  have hk : (b.Advance n).line + k < (b.Advance n).segments.length := by
    have := PeekLine_some _ text hline
    rwa [hseg, hl] at this
  have hfuel : (b.Advance n).segments.length + 1
      = ((b.Advance n).segments.length - k - 1 + 1) + 1 + k := by omega
  unfold Parse
  simp only [hpeek, Option.getD_some, hop, Reader.Position]
  rw [hfuel, ParseLoop_lines IsSpace n _ _ _ k _ (b.Advance n) [] hskip',
    ParseLoop_closer IsSpace n _ _ _ _ _ _ text i hn hline hrun hfirst]
  rw [hsrc, Advance_source, List.nil_append]

/-- The children `Parse` collects are not empty and lie inside the source. -/
theorem matched_children_mem (IsSpace : Nat → Bool) (b : Reader) (text : List Nat)
    (n k i : Nat) (hn : 1 ≤ n)
    (hwf : ∀ s ∈ b.segments, s.Stop ≤ b.source.length)
    (hclose : firstCloserAt (b.Advance n) n k i text) :
    ∀ c ∈ skippedChildren IsSpace k (b.Advance n)
        ++ closerChild (Reader.AdvanceLine^[k] (b.Advance n)) i,
      c.Start < c.Stop ∧ c.Stop ≤ b.source.length := by
  obtain ⟨_, hline, hrun, _⟩ := hclose
  obtain ⟨hsrc, _, _⟩ := iterate_AdvanceLine k (b.Advance n)
  intro c hc
  rcases List.mem_append.mp hc with h | h
  · have := skippedChildren_mem IsSpace k (b.Advance n)
      (by rw [Advance_segments, Advance_source]; exact hwf) c h
    rwa [Advance_source] at this
  · have := (closerChild_mem _ text i hline (maximalRunAt_lt text i n hn hrun) c h).1
    rwa [hsrc, Advance_source] at this

theorem closerChild_content (r : Reader) (text : List Nat) (i : Nat)
    (hpeek : r.PeekLine.1 = some text) (hi : i < text.length) :
    spanContent r.source (closerChild r i) = text.take i := by
  by_cases h0 : i = 0
  · simp [closerChild, h0, spanContent]
  · have h := closerChild_mem r text i hpeek hi
    have hc : closerChild r i = [⟨r.PeekLine.2.Start, r.PeekLine.2.Start + i⟩] := by
      simp [closerChild, h0]
    rw [hc] at h ⊢
    have := (h _ (List.mem_singleton.mpr rfl)).2
    simp [spanContent, this]

theorem opener_run (text0 : List Nat) (n : Nat)
    (hop : scanWhile (fun c => c == 96) text0 0 = n) :
    text0.take n = List.replicate n 96 := by
  have hlen : (text0.takeWhile (fun c => c == 96)).length = n := by
    simpa [scanWhile] using hop
  have hpre : text0.takeWhile (fun c => c == 96) <+: text0 := List.takeWhile_prefix _
  have htake : text0.take n = text0.takeWhile (fun c => c == 96) := by
    rw [← hlen]
    exact (List.prefix_iff_eq_take.mp hpre).symm
  rw [htake, List.eq_replicate_iff]
  refine ⟨hlen, ?_⟩
  intro x hx
  have := List.mem_takeWhile_imp hx
  simpa using this

/-- `Parse` when no closer is found: the opener as a text segment, and the
reader put back to where it was after the opener. -/
theorem Parse_unterminated (IsSpace : Nat → Bool) (b : Reader) (text0 : List Nat)
    (n k : Nat)
    (hpeek : b.PeekLine.1 = some text0)
    (hop : scanWhile (fun c => c == 96) text0 0 = n) (hn : 1 ≤ n)
    (hno : noCloser (b.Advance n) n k) :
    Parse IsSpace b
      = Except.ok (Node.text ⟨b.pos.Start, b.pos.Start + n⟩, b.Advance n) := by
  obtain ⟨hskip, hend⟩ := hno
  have hskip' : ∀ j, j < k → ∃ t, (Reader.AdvanceLine^[j] (b.Advance n)).PeekLine.1 = some t
      ∧ ∀ p, ¬ maximalRunAt t p n := by
    intro j hj
    obtain ⟨t, h1, h2⟩ := hskip j hj
    exact ⟨t, h1, fun p hp => h2 p (maximalRunAt_lt t p n hn hp) hp⟩
  obtain ⟨hsrc, hseg, hl⟩ := iterate_AdvanceLine k (b.Advance n)
  have hk : k ≤ (b.Advance n).segments.length := by
    cases k with
    | zero => omega
    | succ k =>
      obtain ⟨t, h1, _⟩ := hskip k (by omega)
      have := PeekLine_some _ t h1
      have h2 := iterate_AdvanceLine k (b.Advance n)
      rw [h2.2.1, h2.2.2] at this
      omega
  have hfuel : (b.Advance n).segments.length + 1
      = ((b.Advance n).segments.length - k) + 1 + k := by omega
  obtain ⟨s, hs, _, hss⟩ := PeekLine_text b text0 hpeek
  unfold Parse
  simp only [hpeek, Option.getD_some, hop, Reader.Position]
  rw [hfuel, ParseLoop_lines IsSpace n _ _ _ k _ (b.Advance n) [] hskip',
    ParseLoop_exhausted IsSpace n _ _ _ _ _ _ hend, hss]
  simp only [Segment.WithStop, Reader.SetPosition]
  congr 2
  rw [hsrc, hseg]

/-! ## The code-span tokenizer: matched and unterminated spans -/

/-- C17: for every reader that stands at an opener of `n >= 1` backticks, when
the first maximal run of exactly `n` backticks after the opener is on line `k`
at index `i`, `Parse` returns a code-span node and the reader advanced past
that run (its next unread bytes are the bytes after the closer). The children
are the segments of the lines passed, blank lines dropped, and of the bytes
before the closer on its line, after the one-space trim; before the trim their
bytes are exactly the bytes of those lines, in order. Runs of any other length
are not taken as closer. The segments of the lines are taken to lie inside the
source and the space to be a space character. -/
theorem code_span_matched (IsSpace : Nat → Bool) (hsp : IsSpace 32 = true) (b : Reader)
    (text0 text : List Nat) (n k i : Nat)
    (hwf : ∀ s ∈ b.segments, s.Stop ≤ b.source.length)
    (hpeek : b.PeekLine.1 = some text0)
    (hop : scanWhile (fun c => c == 96) text0 0 = n) (hn : 1 ≤ n)
    (hclose : firstCloserAt (b.Advance n) n k i text) :
    ∃ cs,
      Parse IsSpace b = Except.ok (Node.codeSpan cs,
        (Reader.AdvanceLine^[k] (b.Advance n)).Advance (i + n)) ∧
      trimChildren IsSpace b.source (skippedChildren IsSpace k (b.Advance n)
        ++ closerChild (Reader.AdvanceLine^[k] (b.Advance n)) i) = Except.ok cs ∧
      spanContent b.source (skippedChildren IsSpace k (b.Advance n)
          ++ closerChild (Reader.AdvanceLine^[k] (b.Advance n)) i)
        = ((List.range k).map
            (fun j => lineContent IsSpace (Reader.AdvanceLine^[j] (b.Advance n)))).flatten
          ++ text.take i ∧
      (b.aligned → i + n < text.length →
        ((Reader.AdvanceLine^[k] (b.Advance n)).Advance (i + n)).PeekLine.1
          = some (text.drop (i + n))) := by
  have hmem := matched_children_mem IsSpace b text n k i hn hwf hclose
  obtain ⟨cs, hcs, _⟩ := trim_rule IsSpace hsp b.source _ hmem
  have hparse := Parse_matched IsSpace b text0 text n k i hpeek hop hn hclose
  obtain ⟨_, hline, hrun, _⟩ := hclose
  obtain ⟨hsrc, _, _⟩ := iterate_AdvanceLine k (b.Advance n)
  refine ⟨cs, ?_, hcs, ?_, ?_⟩
  · rw [hparse, hcs]
  · rw [spanContent_append]
    have h1 := skippedChildren_content IsSpace k (b.Advance n)
    have h2 := closerChild_content _ text i hline (maximalRunAt_lt text i n hn hrun)
    rw [Advance_source] at h1
    rw [hsrc, Advance_source] at h2
    rw [h1, h2]
  · intro hal hlt
    exact PeekLine_Advance _ text (i + n) (aligned_iterate k _ (aligned_Advance n b hal))
      hline hlt

/-- C18 (amended): for every reader that stands at an opener of `n >= 1`
backticks, when none of the lines left holds a maximal run of exactly `n`
backticks, `Parse` returns no code span but the text segment
`[start, start + n)`, whose bytes are the `n` backticks of the opener, and the
reader is put back to where it stood just after the opener: its next unread
bytes are the bytes that follow the opener. -/
theorem unterminated_code_span (IsSpace : Nat → Bool) (b : Reader) (text0 : List Nat)
    (n k : Nat)
    (hpeek : b.PeekLine.1 = some text0)
    (hop : scanWhile (fun c => c == 96) text0 0 = n) (hn : 1 ≤ n)
    (hno : noCloser (b.Advance n) n k) :
    Parse IsSpace b
      = Except.ok (Node.text ⟨b.pos.Start, b.pos.Start + n⟩, b.Advance n) ∧
    Segment.Value ⟨b.pos.Start, b.pos.Start + n⟩ b.source = List.replicate n 96 ∧
    (b.aligned → n < text0.length → (b.Advance n).PeekLine.1 = some (text0.drop n)) := by
  refine ⟨Parse_unterminated IsSpace b text0 n k hpeek hop hn hno, ?_, ?_⟩
  · obtain ⟨s, hs, ht, _⟩ := PeekLine_text b text0 hpeek
    have hle : n ≤ text0.length := by
      have := scanWhile_le (fun c => c == 96) text0 0 (Nat.zero_le _)
      omega
    rw [← opener_run text0 n hop]
    have hlen := hle
    rw [ht, List.length_drop, List.length_take] at hlen
    simp only [Segment.Value]
    rw [ht, List.take_drop, List.take_take]
    congr 2
    omega
  · intro hal hlt
    exact PeekLine_Advance b text0 n hal hpeek hlt

/-- C19 (amended): for every matched code span, with the content being the bytes
of the children collected (blank lines dropped): when the content is not
entirely blank and both its first and its last byte are a space, the content of
the span returned is the content with exactly that one leading and that one
trailing space removed; when the content is entirely blank, or its first or its
last byte is not a space, the children are returned unchanged; and every
segment returned has start at most stop. -/
theorem code_span_trim (IsSpace : Nat → Bool) (hsp : IsSpace 32 = true) (b : Reader)
    (text0 text : List Nat) (n k i : Nat)
    (hwf : ∀ s ∈ b.segments, s.Stop ≤ b.source.length)
    (hpeek : b.PeekLine.1 = some text0)
    (hop : scanWhile (fun c => c == 96) text0 0 = n) (hn : 1 ≤ n)
    (hclose : firstCloserAt (b.Advance n) n k i text) :
    ∃ cs,
      Parse IsSpace b = Except.ok (Node.codeSpan cs,
        (Reader.AdvanceLine^[k] (b.Advance n)).Advance (i + n)) ∧
      (∀ c ∈ cs, c.Start ≤ c.Stop) ∧
      (IsBlank IsSpace (spanContent b.source (skippedChildren IsSpace k (b.Advance n)
            ++ closerChild (Reader.AdvanceLine^[k] (b.Advance n)) i)) = false →
        (spanContent b.source (skippedChildren IsSpace k (b.Advance n)
            ++ closerChild (Reader.AdvanceLine^[k] (b.Advance n)) i)).head? = some 32 →
        (spanContent b.source (skippedChildren IsSpace k (b.Advance n)
            ++ closerChild (Reader.AdvanceLine^[k] (b.Advance n)) i)).getLast? = some 32 →
        spanContent b.source (skippedChildren IsSpace k (b.Advance n)
            ++ closerChild (Reader.AdvanceLine^[k] (b.Advance n)) i)
          = 32 :: spanContent b.source cs ++ [32]) ∧
      (IsBlank IsSpace (spanContent b.source (skippedChildren IsSpace k (b.Advance n)
            ++ closerChild (Reader.AdvanceLine^[k] (b.Advance n)) i)) = true ∨
        (spanContent b.source (skippedChildren IsSpace k (b.Advance n)
            ++ closerChild (Reader.AdvanceLine^[k] (b.Advance n)) i)).head? ≠ some 32 ∨
        (spanContent b.source (skippedChildren IsSpace k (b.Advance n)
            ++ closerChild (Reader.AdvanceLine^[k] (b.Advance n)) i)).getLast? ≠ some 32 →
        cs = skippedChildren IsSpace k (b.Advance n)
            ++ closerChild (Reader.AdvanceLine^[k] (b.Advance n)) i) := by
  have hmem := matched_children_mem IsSpace b text n k i hn hwf hclose
  obtain ⟨cs, hcs, h1, h2, h3⟩ := trim_rule IsSpace hsp b.source _ hmem
  have hparse := Parse_matched IsSpace b text0 text n k i hpeek hop hn hclose
  exact ⟨cs, by rw [hparse, hcs], h1, h2, h3⟩

/-- C18 (as stated, refuted): on the unterminated source of a backtick and `a` the
reader returned is not the reader `Parse` was given; it stands after the
opener, with `a` as its next unread byte. -/
theorem unterminated_reader_after_opener :
    Parse asciiSpace (NewReader (str "`a") [⟨0, 2⟩])
      = Except.ok (Node.text ⟨0, 1⟩, { NewReader (str "`a") [⟨0, 2⟩] with pos := ⟨1, 2⟩ }) ∧
    ({ NewReader (str "`a") [⟨0, 2⟩] with pos := ⟨1, 2⟩ } : Reader)
      ≠ NewReader (str "`a") [⟨0, 2⟩] ∧
    ({ NewReader (str "`a") [⟨0, 2⟩] with pos := ⟨1, 2⟩ } : Reader).PeekLine.1
      = some (str "a") ∧
    (NewReader (str "`a") [⟨0, 2⟩]).PeekLine.1 = some (str "`a") := by
  refine ⟨by rfl, by decide, by rfl, by rfl⟩

/-- C19 (as stated, refuted): the content of a span of two spaces begins and ends
with a space, and the span is returned with both spaces. -/
theorem blank_code_span_untrimmed :
    Parse asciiSpace (NewReader (str "`  `") [⟨0, 4⟩])
      = Except.ok (Node.codeSpan [⟨1, 3⟩],
          { NewReader (str "`  `") [⟨0, 4⟩] with line := 1, pos := ⟨3, 4⟩ }) ∧
    spanContent (str "`  `") [⟨1, 3⟩] = str "  " ∧
    (str "  ").head? = some 32 ∧ (str "  ").getLast? = some 32 := by
  refine ⟨by rfl, by rfl, by rfl, by rfl⟩

/-- C17, at a span over two lines with a double-backtick opener, and at the two
spans `code` and a, backtick, b on one line. -/
theorem code_span_matched_witness :
    asciiSpace 32 = true ∧
    (∀ s ∈ (NewReader (str "``a`\nb`` c") [⟨0, 5⟩, ⟨5, 10⟩]).segments,
      s.Stop ≤ (NewReader (str "``a`\nb`` c") [⟨0, 5⟩, ⟨5, 10⟩]).source.length) ∧
    (NewReader (str "``a`\nb`` c") [⟨0, 5⟩, ⟨5, 10⟩]).PeekLine.1 = some (str "``a`\n") ∧
    scanWhile (fun c => c == 96) (str "``a`\n") 0 = 2 ∧
    firstCloserAt ((NewReader (str "``a`\nb`` c") [⟨0, 5⟩, ⟨5, 10⟩]).Advance 2) 2 1 1
      (str "b`` c") ∧
    (∃ cs, Parse asciiSpace (NewReader (str "``a`\nb`` c") [⟨0, 5⟩, ⟨5, 10⟩])
        = Except.ok (Node.codeSpan cs,
            (Reader.AdvanceLine^[1]
              ((NewReader (str "``a`\nb`` c") [⟨0, 5⟩, ⟨5, 10⟩]).Advance 2)).Advance (1 + 2))) ∧
    Parse asciiSpace (NewReader (str "``a`\nb`` c") [⟨0, 5⟩, ⟨5, 10⟩])
      = Except.ok (Node.codeSpan [⟨2, 5⟩, ⟨5, 6⟩],
          { NewReader (str "``a`\nb`` c") [⟨0, 5⟩, ⟨5, 10⟩] with line := 1, pos := ⟨8, 10⟩ }) ∧
    spanContent (str "``a`\nb`` c") [⟨2, 5⟩, ⟨5, 6⟩] = str "a`\nb" ∧
    Parse asciiSpace (NewReader (str "`code`") [⟨0, 6⟩])
      = Except.ok (Node.codeSpan [⟨1, 5⟩],
          { NewReader (str "`code`") [⟨0, 6⟩] with line := 1, pos := ⟨5, 6⟩ }) ∧
    spanContent (str "`code`") [⟨1, 5⟩] = str "code" ∧
    Parse asciiSpace (NewReader (str "``a`b``") [⟨0, 7⟩])
      = Except.ok (Node.codeSpan [⟨2, 5⟩],
          { NewReader (str "``a`b``") [⟨0, 7⟩] with line := 1, pos := ⟨6, 7⟩ }) ∧
    spanContent (str "``a`b``") [⟨2, 5⟩] = str "a`b" :=
  have hclose : firstCloserAt ((NewReader (str "``a`\nb`` c") [⟨0, 5⟩, ⟨5, 10⟩]).Advance 2)
      2 1 1 (str "b`` c") :=
    ⟨fun j hj => ⟨str "a`\n", by
        obtain rfl : j = 0 := by omega
        rfl, by decide⟩,
      by rfl, by decide, by decide⟩
  ⟨by decide, by decide, by rfl, by decide, hclose,
    (code_span_matched asciiSpace (by decide) (NewReader (str "``a`\nb`` c") [⟨0, 5⟩, ⟨5, 10⟩])
      (str "``a`\n") (str "b`` c") 2 1 1 (by decide) (by rfl) (by decide) (by decide)
      hclose).imp (fun _ h => h.1),
    by rfl, by rfl, by rfl, by rfl, by rfl, by rfl⟩

/-- C18 (amended), at a double-backtick opener followed by single backticks
only, over two lines. -/
theorem unterminated_code_span_witness :
    (NewReader (str "``a`\nb` c") [⟨0, 5⟩, ⟨5, 9⟩]).PeekLine.1 = some (str "``a`\n") ∧
    scanWhile (fun c => c == 96) (str "``a`\n") 0 = 2 ∧
    noCloser ((NewReader (str "``a`\nb` c") [⟨0, 5⟩, ⟨5, 9⟩]).Advance 2) 2 2 ∧
    Parse asciiSpace (NewReader (str "``a`\nb` c") [⟨0, 5⟩, ⟨5, 9⟩])
      = Except.ok (Node.text ⟨0, 0 + 2⟩,
          (NewReader (str "``a`\nb` c") [⟨0, 5⟩, ⟨5, 9⟩]).Advance 2) ∧
    ((NewReader (str "``a`\nb` c") [⟨0, 5⟩, ⟨5, 9⟩]).Advance 2).PeekLine.1
      = some (str "a`\n") :=
  have hno : noCloser ((NewReader (str "``a`\nb` c") [⟨0, 5⟩, ⟨5, 9⟩]).Advance 2) 2 2 :=
    ⟨fun j hj => by
        obtain rfl | rfl : j = 0 ∨ j = 1 := by omega
        · exact ⟨str "a`\n", by rfl, by decide⟩
        · exact ⟨str "b` c", by rfl, by decide⟩,
      by rfl⟩
  ⟨by rfl, by decide, hno,
    (unterminated_code_span asciiSpace (NewReader (str "``a`\nb` c") [⟨0, 5⟩, ⟨5, 9⟩])
      (str "``a`\n") 2 2 (by rfl) (by decide) (by decide) hno).1,
    by rfl⟩

/-- C19 (amended), at one space on each side, two spaces on each side and a
space on one side only. -/
theorem code_span_trim_witness :
    asciiSpace 32 = true ∧
    (NewReader (str "` a ` ") [⟨0, 6⟩]).PeekLine.1 = some (str "` a ` ") ∧
    scanWhile (fun c => c == 96) (str "` a ` ") 0 = 1 ∧
    firstCloserAt ((NewReader (str "` a ` ") [⟨0, 6⟩]).Advance 1) 1 0 3 (str " a ` ") ∧
    (∃ cs, Parse asciiSpace (NewReader (str "` a ` ") [⟨0, 6⟩])
        = Except.ok (Node.codeSpan cs,
            (Reader.AdvanceLine^[0] ((NewReader (str "` a ` ") [⟨0, 6⟩]).Advance 1)).Advance
              (3 + 1))
      ∧ ∀ c ∈ cs, c.Start ≤ c.Stop) ∧
    Parse asciiSpace (NewReader (str "` a ` ") [⟨0, 6⟩])
      = Except.ok (Node.codeSpan [⟨2, 3⟩],
          { NewReader (str "` a ` ") [⟨0, 6⟩] with pos := ⟨5, 6⟩ }) ∧
    spanContent (str "` a ` ") [⟨2, 3⟩] = str "a" ∧
    Parse asciiSpace (NewReader (str "`  a  ` ") [⟨0, 8⟩])
      = Except.ok (Node.codeSpan [⟨2, 5⟩],
          { NewReader (str "`  a  ` ") [⟨0, 8⟩] with pos := ⟨7, 8⟩ }) ∧
    spanContent (str "`  a  ` ") [⟨2, 5⟩] = str " a " ∧
    Parse asciiSpace (NewReader (str "` a` ") [⟨0, 5⟩])
      = Except.ok (Node.codeSpan [⟨1, 3⟩],
          { NewReader (str "` a` ") [⟨0, 5⟩] with pos := ⟨4, 5⟩ }) ∧
    spanContent (str "` a` ") [⟨1, 3⟩] = str " a" :=
  have hclose : firstCloserAt ((NewReader (str "` a ` ") [⟨0, 6⟩]).Advance 1) 1 0 3
      (str " a ` ") :=
    ⟨fun j hj => absurd hj (Nat.not_lt_zero j), by rfl, by decide, by decide⟩
  ⟨by decide, by rfl, by decide, hclose,
    (code_span_trim asciiSpace (by decide) (NewReader (str "` a ` ") [⟨0, 6⟩])
      (str "` a ` ") (str " a ` ") 1 0 3 (by decide) (by rfl) (by decide) (by decide)
      hclose).imp (fun _ h => ⟨h.1, h.2.1⟩),
    by rfl, by rfl, by rfl, by rfl, by rfl, by rfl⟩

end Multimark
